import Mathlib

/-!
A shallow embedding of the borsh-go encoder and decoder

The development follows `borsh.go`, `encoder.go` and `decoder.go`.

* A byte is a `Fin 256`; a Go `string` and a `[]byte` are lists of bytes.
* Machine integers are `Nat` / `Int`; every conversion that can wrap is written
  with an explicit modulus.
* `reflect.Type` is the inductive `GoType`, `reflect.Value` is `Value`.  A Go
  type that refers to itself is not a `GoType`: the types of a program are
  `TypeExpr`, and `unfold` gives the `GoType` that the nested calls of
  `newTypeEncoder` walk through, if they end.  Record fields are exported fields.
* The decoder's `bytes.Buffer` is represented by its unread portion, which is
  what `Buffer.Bytes()` returns.
* A Go map has no order.  `Value.map` lists the entries in the order in which
  `MapRange` hands them out, so every ordering of the same entries is a
  possible presentation of one and the same map.
-/

namespace Borsh

/-! ## Bytes and little-endian integers (`encoding/binary`) -/

/-- One octet. -/
abbrev Byte := Fin 256

/-- The conversion `byte(x)`: the low eight bits of `x`. -/
def byte (x : Nat) : Byte := ⟨x % 256, Nat.mod_lt _ (by decide)⟩

/-- The functions `binary.LittleEndian.PutUint16/32/64` (and the one-byte case):
the `n` low bytes of `v`, least significant first. -/
def PutUint : Nat → Nat → List Byte
  | 0, _ => []
  | n + 1, v => byte v :: PutUint n (v / 256)

/-- The functions `binary.LittleEndian.Uint16/32/64`: the unsigned value of a
little-endian byte string. -/
def Uint : List Byte → Nat
  | [] => 0
  | b :: bs => b.val + 256 * Uint bs

/-- The conversion `intN(u)` of an unsigned `bits`-bit pattern to the signed
type of the same width (two's complement). -/
def toSigned (bits : Nat) (u : Nat) : Int :=
  if u % 2 ^ bits < 2 ^ (bits - 1) then ((u % 2 ^ bits : Nat) : Int)
  else ((u % 2 ^ bits : Nat) : Int) - 2 ^ bits

/-- The conversion `uintN(i)` of a signed integer to the unsigned type of
`bits` bits. -/
def toUnsigned (bits : Nat) (i : Int) : Nat := (i % 2 ^ bits).toNat

/-! ## Encoder (`encoder.go`) -/

/-- The initial buffer size an encoder will maintain. -/
def INITIAL_BUFFER_SIZE : Nat := 256

/-- An `Encoder` owns a `bytes.Buffer` that is only ever written: `buf` is its
contents (`Buffer.Bytes()`), `cap` its capacity (`Buffer.Cap()`). -/
structure Encoder where
  /-- The bytes written so far. -/
  buf : List Byte
  /-- The capacity of the underlying slice. -/
  cap : Nat
deriving DecidableEq

/-- The method `bytes.Buffer.Grow(n)` on a non-nil buffer without read offset (Go up to 1.18;
`bufferGrowSlice` is the one of later versions):
nothing happens when `n` more bytes fit, otherwise a slice of capacity
`2*cap + n` is allocated and the contents are copied. -/
def bufferGrow (e : Encoder) (n : Nat) : Encoder :=
  if n ≤ e.cap - e.buf.length then e else { e with cap := 2 * e.cap + n }

/-- The method `bytes.Buffer.Write(p)`: grow if needed, then append `p`. -/
def bufferWrite (e : Encoder) (p : List Byte) : Encoder :=
  { buf := e.buf ++ p, cap := (bufferGrow e p.length).cap }

/-- NewEncoder creates a new encoder. -/
def NewEncoder : Encoder := { buf := [], cap := INITIAL_BUFFER_SIZE }

/-- Computes the max of x and y. -/
def max (x y : Nat) : Nat := if x > y then x else y

/-- The method `reserveCapacity`; `ceil(float64(cap) * 1.5)` is `(3*cap + 1) / 2`. -/
def Encoder.reserveCapacity (e : Encoder) (neededCapacity : Nat) : Encoder :=
  let currentCapacity := e.cap - e.buf.length
  if currentCapacity < neededCapacity then
    bufferGrow e (max ((3 * e.cap + 1) / 2) (currentCapacity + neededCapacity))
  else e

/-- WriteU8 encodes an unsigned 8-bit integer into the encoded buffer. -/
def Encoder.WriteU8 (e : Encoder) (u8 : Nat) : Encoder :=
  bufferWrite (e.reserveCapacity 1) (PutUint 1 u8)

/-- WriteBoolean encodes a boolean into the encoded buffer. -/
def Encoder.WriteBoolean (e : Encoder) (b : Bool) : Encoder :=
  (e.reserveCapacity 1).WriteU8 (if b then 1 else 0)

/-- WriteI8 encodes a signed 8-bit integer into the encoded buffer. -/
def Encoder.WriteI8 (e : Encoder) (i8 : Int) : Encoder :=
  bufferWrite (e.reserveCapacity 1) (PutUint 1 (toUnsigned 8 i8))

/-- WriteU16 encodes an unsigned 16-bit integer into the encoded buffer. -/
def Encoder.WriteU16 (e : Encoder) (u16 : Nat) : Encoder :=
  bufferWrite (e.reserveCapacity 2) (PutUint 2 u16)

/-- WriteI16 encodes a signed 16-bit integer into the encoded buffer. -/
def Encoder.WriteI16 (e : Encoder) (i16 : Int) : Encoder :=
  bufferWrite (e.reserveCapacity 2) (PutUint 2 (toUnsigned 16 i16))

/-- WriteU32 encodes an unsigned 32-bit integer into the encoded buffer. -/
def Encoder.WriteU32 (e : Encoder) (u32 : Nat) : Encoder :=
  bufferWrite (e.reserveCapacity 4) (PutUint 4 u32)

/-- WriteI32 encodes a signed 32-bit integer into the encoded buffer. -/
def Encoder.WriteI32 (e : Encoder) (i32 : Int) : Encoder :=
  bufferWrite (e.reserveCapacity 4) (PutUint 4 (toUnsigned 32 i32))

/-- WriteU64 encodes an unsigned 64-bit integer into the encoded buffer. -/
def Encoder.WriteU64 (e : Encoder) (u64 : Nat) : Encoder :=
  bufferWrite (e.reserveCapacity 8) (PutUint 8 u64)

/-- WriteI64 encodes a signed 64-bit integer into the encoded buffer. -/
def Encoder.WriteI64 (e : Encoder) (i64 : Int) : Encoder :=
  bufferWrite (e.reserveCapacity 8) (PutUint 8 (toUnsigned 64 i64))

/-- WriteF32 encodes a 32-bit float, given by its IEEE-754 bit pattern
(`math.Float32bits`). -/
def Encoder.WriteF32 (e : Encoder) (f32 : Nat) : Encoder :=
  bufferWrite (e.reserveCapacity 4) (PutUint 4 f32)

/-- WriteF64 encodes a 64-bit float, given by its IEEE-754 bit pattern
(`math.Float64bits`). -/
def Encoder.WriteF64 (e : Encoder) (f64 : Nat) : Encoder :=
  bufferWrite (e.reserveCapacity 8) (PutUint 8 f64)

/-- WriteString encodes a string into the encoded buffer: `uint32(length)`
wraps modulo `2^32`. -/
def Encoder.WriteString (e : Encoder) (str : List Byte) : Encoder :=
  let length := str.length
  let e1 := e.WriteU32 (length % 2 ^ 32)
  bufferWrite (e1.reserveCapacity length) str

/-- Finish retrieves all bytes that have been encoded by the encoder. -/
def Encoder.Finish (e : Encoder) : List Byte := e.buf

/-! ## Decoder primitives (`decoder.go`) -/

/-- The errors a decode can return. `EOF` and `ErrUnexpectedEOF` are the two
end-of-input errors of package `io`; `unexpectedType` is the error built by
`errors.Errorf("borsh: unexpected type: ...")`; `reflectPanic` stands for the
panic package `reflect` raises when a target is not of the decoder's type. -/
inductive Error where
  | EOF
  | ErrUnexpectedEOF
  | unexpectedType
  | reflectPanic
deriving DecidableEq

/-- The end-of-input errors. -/
def Error.isEndOfInput : Error → Bool
  | .EOF => true
  | .ErrUnexpectedEOF => true
  | _ => false

/-- A `Decoder` over a `bytes.Buffer`; `Buffer` is the unread portion. -/
structure Decoder where
  /-- The bytes not yet read. -/
  Buffer : List Byte
deriving DecidableEq

/-- NewDecoder creates a new decoder. -/
def NewDecoder (data : List Byte) : Decoder := { Buffer := data }

/-- Remainder retrieves all remaining bytes that have not been decoded by the decoder. -/
def Decoder.Remainder (d : Decoder) : List Byte := d.Buffer

/-- The method `bytes.Buffer.Read(p)` with `len(p) = n`: on an empty buffer it
returns `io.EOF` (when `n > 0`); otherwise it copies and consumes
`min n (unread)` bytes and returns no error. -/
def bufferRead (d : Decoder) (n : Nat) : List Byte × Option Error × Decoder :=
  if d.Buffer.length = 0 then
    ([], if n = 0 then none else some Error.EOF, d)
  else (d.Buffer.take n, none, { Buffer := d.Buffer.drop n })

/-- The loop of `io.ReadAtLeast(r, buf, min)` with `got` bytes already read:
`for n < min && err == nil { nn, err = r.Read(buf[n:]); n += nn }`.
Every round without error reads at least one byte, so `fuel = min` rounds
after the first are never exhausted. -/
def readLoop (min : Nat) : Nat → List Byte → Decoder → List Byte × Option Error × Decoder
  | 0, got, d => (got, none, d)
  | fuel + 1, got, d =>
    if got.length < min then
      match bufferRead d (min - got.length) with
      | (p, none, d1) => readLoop min fuel (got ++ p) d1
      | (p, some err, d1) => (got ++ p, some err, d1)
    else (got, none, d)

/-- The function `io.ReadFull(r, buf)` with `len(buf) = n`, that is `io.ReadAtLeast(r, buf, n)`:
after the loop, `n >= min` clears the error and a partial read that ended in
`io.EOF` becomes `io.ErrUnexpectedEOF`. -/
def ReadFull (d : Decoder) (n : Nat) : List Byte × Option Error × Decoder :=
  match readLoop n (n + 1) [] d with
  | (got, err, d1) =>
    if got.length ≥ n then (got, none, d1)
    else if got.length > 0 ∧ err = some Error.EOF then (got, some Error.ErrUnexpectedEOF, d1)
    else (got, err, d1)

/-- The fast path of `binary.Read(r, order, data)` for a fixed-size `data` of `n` bytes:
`io.ReadFull` of `n` bytes, whose error is returned as is. -/
def binaryRead (d : Decoder) (n : Nat) : Except Error (List Byte) × Decoder :=
  match ReadFull d n with
  | (bs, none, d1) => (.ok bs, d1)
  | (_, some err, d1) => (.error err, d1)

/-- ReadU8 decodes an unsigned 8-bit integer from the encoded buffer. -/
def Decoder.ReadU8 (d : Decoder) : Except Error Nat × Decoder :=
  match binaryRead d 1 with
  | (.ok bs, d1) => (.ok (Uint bs), d1)
  | (.error err, d1) => (.error err, d1)

/-- ReadBoolean decodes a boolean from the encoded buffer. -/
def Decoder.ReadBoolean (d : Decoder) : Except Error Bool × Decoder :=
  match d.ReadU8 with
  | (.ok u8, d1) => (.ok (u8 != 0), d1)
  | (.error err, d1) => (.error err, d1)

/-- ReadI8 decodes a signed 8-bit integer from the encoded buffer. -/
def Decoder.ReadI8 (d : Decoder) : Except Error Int × Decoder :=
  match binaryRead d 1 with
  | (.ok bs, d1) => (.ok (toSigned 8 (Uint bs)), d1)
  | (.error err, d1) => (.error err, d1)

/-- ReadU16 decodes an unsigned 16-bit integer from the encoded buffer. -/
def Decoder.ReadU16 (d : Decoder) : Except Error Nat × Decoder :=
  match binaryRead d 2 with
  | (.ok bs, d1) => (.ok (Uint bs), d1)
  | (.error err, d1) => (.error err, d1)

/-- ReadI16 decodes a signed 16-bit integer from the encoded buffer. -/
def Decoder.ReadI16 (d : Decoder) : Except Error Int × Decoder :=
  match binaryRead d 2 with
  | (.ok bs, d1) => (.ok (toSigned 16 (Uint bs)), d1)
  | (.error err, d1) => (.error err, d1)

/-- ReadU32 decodes an unsigned 32-bit integer from the encoded buffer. -/
def Decoder.ReadU32 (d : Decoder) : Except Error Nat × Decoder :=
  match binaryRead d 4 with
  | (.ok bs, d1) => (.ok (Uint bs), d1)
  | (.error err, d1) => (.error err, d1)

/-- ReadI32 decodes a signed 32-bit integer from the encoded buffer. -/
def Decoder.ReadI32 (d : Decoder) : Except Error Int × Decoder :=
  match binaryRead d 4 with
  | (.ok bs, d1) => (.ok (toSigned 32 (Uint bs)), d1)
  | (.error err, d1) => (.error err, d1)

/-- ReadU64 decodes an unsigned 64-bit integer from the encoded buffer. -/
def Decoder.ReadU64 (d : Decoder) : Except Error Nat × Decoder :=
  match binaryRead d 8 with
  | (.ok bs, d1) => (.ok (Uint bs), d1)
  | (.error err, d1) => (.error err, d1)

/-- ReadI64 decodes a signed 64-bit integer from the encoded buffer. -/
def Decoder.ReadI64 (d : Decoder) : Except Error Int × Decoder :=
  match binaryRead d 8 with
  | (.ok bs, d1) => (.ok (toSigned 64 (Uint bs)), d1)
  | (.error err, d1) => (.error err, d1)

/-- ReadF32 decodes a 32-bit float, returned as its IEEE-754 bit pattern. -/
def Decoder.ReadF32 (d : Decoder) : Except Error Nat × Decoder :=
  match binaryRead d 4 with
  | (.ok bs, d1) => (.ok (Uint bs), d1)
  | (.error err, d1) => (.error err, d1)

/-- ReadF64 decodes a 64-bit float, returned as its IEEE-754 bit pattern. -/
def Decoder.ReadF64 (d : Decoder) : Except Error Nat × Decoder :=
  match binaryRead d 8 with
  | (.ok bs, d1) => (.ok (Uint bs), d1)
  | (.error err, d1) => (.error err, d1)

/-- The method `bytes.Buffer.Next(n)`: the next `n` unread bytes, or all of
them when fewer than `n` remain; never an error. -/
def bufferNext (d : Decoder) (n : Nat) : List Byte × Decoder :=
  (d.Buffer.take n, { Buffer := d.Buffer.drop n })

/-- ReadString decodes a string from the encoded buffer; `int(length)` is taken
on a 64-bit platform, where it does not wrap. -/
def Decoder.ReadString (d : Decoder) : Except Error (List Byte) × Decoder :=
  match d.ReadU32 with
  | (.error err, d1) => (.error err, d1)
  | (.ok length, d1) =>
    match bufferNext d1 length with
    | (s, d2) => (.ok s, d2)

/-! ## Types and values (`reflect`) -/

/-- The four integer widths of the catalog. -/
inductive Width where
  | w8
  | w16
  | w32
  | w64
deriving DecidableEq

/-- The size in bytes of an integer of the given width. -/
def Width.bytes : Width → Nat
  | .w8 => 1
  | .w16 => 2
  | .w32 => 4
  | .w64 => 8

/-- The size in bits of an integer of the given width. -/
def Width.bits (w : Width) : Nat := 8 * w.bytes

/-- A `reflect.Type`, by kind.  `unsupported` stands for every kind that
`newTypeEncoder` and `newTypeDecoder` send to their `default` case (`int`,
`uint`, `uintptr`, complex numbers, channels, functions, interfaces, unsafe pointers). -/
inductive GoType where
  | bool
  | uint (w : Width)
  | int (w : Width)
  | float32
  | float64
  | array (elem : GoType) (len : Nat)
  | slice (elem : GoType)
  | struct (fields : List GoType)
  | map (key : GoType) (elem : GoType)
  | ptr (elem : GoType)
  | string
  | unsupported

/-- The test `t.Kind() == reflect.Bool`. -/
def GoType.isBool : GoType → Bool
  | .bool => true
  | _ => false

/-- A `reflect.Value`.  A float is its IEEE-754 bit pattern.  A nil slice, a
nil map and a nil pointer are values of their own, distinct from the empty
slice and the empty map.  `other` is a value of an unsupported kind. -/
inductive Value where
  | bool (b : Bool)
  | uint (w : Width) (n : Nat)
  | int (w : Width) (i : Int)
  | float32 (bits : Nat)
  | float64 (bits : Nat)
  | array (elems : List Value)
  | nilSlice
  | slice (elems : List Value)
  | struct (fields : List Value)
  | nilMap
  | map (entries : List (Value × Value))
  | nilPtr
  | ptr (elem : Value)
  | string (s : List Byte)
  | other

mutual
/-- The zero value of a type (`reflect.New(t).Elem()`, and what `reflect.MakeSlice`
fills a new slice with): the state of a fresh decode target. -/
def zero : GoType → Value
  | .bool => .bool false
  | .uint w => .uint w 0
  | .int w => .int w 0
  | .float32 => .float32 0
  | .float64 => .float64 0
  | .array elem len => .array (List.replicate len (zero elem))
  | .slice _ => .nilSlice
  | .struct fields => .struct (zeros fields)
  | .map _ _ => .nilMap
  | .ptr _ => .nilPtr
  | .string => .string []
  | .unsupported => .other
/-- The zero values of the fields of a record. -/
def zeros : List GoType → List Value
  | [] => []
  | t :: ts => zero t :: zeros ts
end

/-- Whether a 32-bit pattern is a NaN. -/
def isNaN32 (bits : Nat) : Bool := bits / 2 ^ 23 % 2 ^ 8 == 255 && bits % 2 ^ 23 != 0

/-- Whether a 64-bit pattern is a NaN. -/
def isNaN64 (bits : Nat) : Bool := bits / 2 ^ 52 % 2 ^ 11 == 2047 && bits % 2 ^ 52 != 0

mutual
/-- Go's `==` on map keys, as `reflect.Value.SetMapIndex` uses it.  Floats
compare as IEEE-754 numbers.  A non-nil pointer key made by the decoder is a
fresh allocation and so equals no key already in the map.  Slices and maps are
not key types. -/
def keyEq : Value → Value → Bool
  | .bool a, v => match v with
    | .bool b => a == b
    | _ => false
  | .uint w a, v => match v with
    | .uint w1 b => w == w1 && a == b
    | _ => false
  | .int w a, v => match v with
    | .int w1 b => w == w1 && a == b
    | _ => false
  | .float32 a, v => match v with
    | .float32 b => !isNaN32 a && !isNaN32 b && (a == b || (a % 2 ^ 31 == 0 && b % 2 ^ 31 == 0))
    | _ => false
  | .float64 a, v => match v with
    | .float64 b => !isNaN64 a && !isNaN64 b && (a == b || (a % 2 ^ 63 == 0 && b % 2 ^ 63 == 0))
    | _ => false
  | .array xs, v => match v with
    | .array ys => keyEqList xs ys
    | _ => false
  | .struct xs, v => match v with
    | .struct ys => keyEqList xs ys
    | _ => false
  | .nilPtr, v => match v with
    | .nilPtr => true
    | _ => false
  | .string a, v => match v with
    | .string b => a == b
    | _ => false
  | _, _ => false
/-- Go's `==` on arrays and records: element by element. -/
def keyEqList : List Value → List Value → Bool
  | [], ys => match ys with
    | [] => true
    | _ :: _ => false
  | x :: xs, ys => match ys with
    | [] => false
    | y :: ys1 => keyEq x y && keyEqList xs ys1
end

/-- The method `reflect.Value.SetMapIndex(key, val)` on a non-nil map: the value
of an equal key is replaced, a new key is added. -/
def SetMapIndex : List (Value × Value) → Value → Value → List (Value × Value)
  | [], key, val => [(key, val)]
  | (k, v) :: es, key, val =>
    if keyEq k key then (key, val) :: es else (k, v) :: SetMapIndex es key val

/-! ## Type-directed encoding (`encoder.go`) -/

/-- What a call of an encoder function ends in: it returns, or it panics; in
both cases with the encoder in the state reached. -/
inductive Outcome where
  | done (e : Encoder)
  | panic (e : Encoder)

/-- The Go type `encoderFunc`, a `func(e *Encoder, v reflect.Value)`. -/
abbrev encoderFunc := Encoder → Value → Outcome

/-- The encoder for `bool`: `v.Bool()` panics on a value of another kind. -/
def boolEncoder : encoderFunc := fun e v =>
  match v with
  | .bool b => .done (e.WriteBoolean b)
  | _ => .panic e

/-- The encoder for unsigned integers, by the kind of the value. -/
def uintEncoder : encoderFunc := fun e v =>
  match v with
  | .uint .w8 n => .done (e.WriteU8 (n % 2 ^ 8))
  | .uint .w16 n => .done (e.WriteU16 (n % 2 ^ 16))
  | .uint .w32 n => .done (e.WriteU32 (n % 2 ^ 32))
  | .uint .w64 n => .done (e.WriteU64 (n % 2 ^ 64))
  | _ => .panic e

/-- The encoder for signed integers, by the kind of the value. -/
def intEncoder : encoderFunc := fun e v =>
  match v with
  | .int .w8 i => .done (e.WriteI8 i)
  | .int .w16 i => .done (e.WriteI16 i)
  | .int .w32 i => .done (e.WriteI32 i)
  | .int .w64 i => .done (e.WriteI64 i)
  | _ => .panic e

/-- The conversion of a `float32` to `float64` and back, on bit patterns, as
`float32(v.Float())` and `v.SetFloat(float64(f32))` perform it: a signalling NaN
comes back quiet (bit 22 set), every other pattern comes back as it was. -/
def quiet32 (bits : Nat) : Nat :=
  if isNaN32 bits && bits / 2 ^ 22 % 2 == 0 then bits + 2 ^ 22 else bits

/-- The encoder for floats, by the kind of the value: a `float32` is written
after `float32(v.Float())`, which goes through `float64`; a `float64` is written
as it is. -/
def floatEncoder : encoderFunc := fun e v =>
  match v with
  | .float32 bits => .done (e.WriteF32 (quiet32 bits))
  | .float64 bits => .done (e.WriteF64 bits)
  | _ => .panic e

/-- The loop `for i := 0; i < v.Len(); i++ { elemEncoder(e, v.Index(i)) }`. -/
def encodeElems (elemEncoder : encoderFunc) : Encoder → List Value → Outcome
  | e, [] => .done e
  | e, x :: xs =>
    match elemEncoder e x with
    | .done e1 => encodeElems elemEncoder e1 xs
    | .panic e1 => .panic e1

/-- The method `arrayEncoder.encode`. -/
def arrayEncoder_encode (elemEncoder : encoderFunc) : encoderFunc := fun e v =>
  match v with
  | .array elems => encodeElems elemEncoder e elems
  | _ => .panic e

/-- The method `sliceEncoder.encode`; `uint32(v.Len())` wraps modulo `2^32`. -/
def sliceEncoder_encode (elemEncoder : encoderFunc) : encoderFunc := fun e v =>
  match v with
  | .nilSlice => .done (e.WriteU32 0)
  | .slice elems => encodeElems elemEncoder (e.WriteU32 (elems.length % 2 ^ 32)) elems
  | _ => .panic e

/-- The loop `for i := 0; i < v.NumField(); i++ { sd.elemEncoders[i](e, v.Field(i)) }`. -/
def encodeFields : List encoderFunc → Encoder → List Value → Outcome
  | _, e, [] => .done e
  | [], e, _ :: _ => .panic e
  | f :: fs, e, x :: xs =>
    match f e x with
    | .done e1 => encodeFields fs e1 xs
    | .panic e1 => .panic e1

/-- The method `structEncoder.encode`. -/
def structEncoder_encode (elemEncoders : List encoderFunc) : encoderFunc := fun e v =>
  match v with
  | .struct fields => encodeFields elemEncoders e fields
  | _ => .panic e

/-- The loop `for iter.Next() { sd.elemEncoder(e, iter.Key()) }` of the set encoder. -/
def encodeKeys (elemEncoder : encoderFunc) : Encoder → List (Value × Value) → Outcome
  | e, [] => .done e
  | e, (k, _) :: es =>
    match elemEncoder e k with
    | .done e1 => encodeKeys elemEncoder e1 es
    | .panic e1 => .panic e1

/-- The method `setEncoder.encode`: the count, then the keys in iteration order. -/
def setEncoder_encode (elemEncoder : encoderFunc) : encoderFunc := fun e v =>
  match v with
  | .nilMap => .done (e.WriteU32 0)
  | .map entries => encodeKeys elemEncoder (e.WriteU32 (entries.length % 2 ^ 32)) entries
  | _ => .panic e

/-- The loop of the map encoder: key then value, in iteration order. -/
def encodeEntries (keyEncoder valEncoder : encoderFunc) : Encoder → List (Value × Value) → Outcome
  | e, [] => .done e
  | e, (k, v) :: es =>
    match keyEncoder e k with
    | .done e1 =>
      match valEncoder e1 v with
      | .done e2 => encodeEntries keyEncoder valEncoder e2 es
      | .panic e2 => .panic e2
    | .panic e1 => .panic e1

/-- The method `mapEncoder.encode`: the count, then the entries in iteration order. -/
def mapEncoder_encode (keyEncoder valEncoder : encoderFunc) : encoderFunc := fun e v =>
  match v with
  | .nilMap => .done (e.WriteU32 0)
  | .map entries =>
    encodeEntries keyEncoder valEncoder (e.WriteU32 (entries.length % 2 ^ 32)) entries
  | _ => .panic e

/-- The method `optionEncoder.encode`. -/
def optionEncoder_encode (elemEncoder : encoderFunc) : encoderFunc := fun e v =>
  match v with
  | .nilPtr => .done (e.WriteBoolean false)
  | .ptr elem => elemEncoder (e.WriteBoolean true) elem
  | _ => .panic e

/-- The encoder for strings. -/
def stringEncoder : encoderFunc := fun e v =>
  match v with
  | .string s => .done (e.WriteString s)
  | _ => .panic e

/-- The encoder of the `default` case: it panics when it is called. -/
def unsupportedTypeEncoder : encoderFunc := fun e _ => .panic e

mutual
/-- The function `newTypeEncoder`: the encoder of a type, by its kind. -/
def newTypeEncoder : GoType → encoderFunc
  | .bool => boolEncoder
  | .uint _ => uintEncoder
  | .int _ => intEncoder
  | .float32 => floatEncoder
  | .float64 => floatEncoder
  | .array elem _ => arrayEncoder_encode (newTypeEncoder elem)
  | .slice elem => sliceEncoder_encode (newTypeEncoder elem)
  | .struct fields => structEncoder_encode (newStructEncoder fields)
  | .map key elem =>
    if elem.isBool then setEncoder_encode (newTypeEncoder key)
    else mapEncoder_encode (newTypeEncoder key) (newTypeEncoder elem)
  | .ptr elem => optionEncoder_encode (newTypeEncoder elem)
  | .string => stringEncoder
  | .unsupported => unsupportedTypeEncoder
/-- The loop of `newStructEncoder`: one encoder per field, in declared order. -/
def newStructEncoder : List GoType → List encoderFunc
  | [] => []
  | t :: ts => newTypeEncoder t :: newStructEncoder ts
end

/-- What a call of `Marshal` ends in: it returns bytes and an error, or it panics. -/
inductive MarshalResult where
  | returned (bytes : List Byte) (err : Option Error)
  | panicked

/-- Marshal returns the borsh encoding of v; `t` is the dynamic type of `v`. -/
def Marshal (t : GoType) (v : Value) : MarshalResult :=
  match newTypeEncoder t NewEncoder v with
  | .done e => .returned e.Finish none
  | .panic _ => .panicked

/-! ## Type-directed decoding (`decoder.go`) -/

/-- What a call of a decoder function leaves behind: the error it returns (if
any), the decoder, and the target `v`, which is written in place. -/
structure Decoded where
  /-- The error returned, `none` for `nil`. -/
  err : Option Error
  /-- The decoder after the call. -/
  d : Decoder
  /-- The target after the call. -/
  v : Value

/-- The Go type `decoderFunc`, a `func(d *Decoder, v reflect.Value) error`. -/
abbrev decoderFunc := Decoder → Value → Decoded

/-- The decoder for `bool`. -/
def boolDecoder : decoderFunc := fun d v =>
  match d.ReadBoolean with
  | (.error err, d1) => ⟨some err, d1, v⟩
  | (.ok b, d1) =>
    match v with
    | .bool _ => ⟨none, d1, .bool b⟩
    | _ => ⟨some .reflectPanic, d1, v⟩

/-- The decoder for unsigned integers, by the kind of the target. -/
def uintDecoder : decoderFunc := fun d v =>
  match v with
  | .uint .w8 _ =>
    match d.ReadU8 with
    | (.error err, d1) => ⟨some err, d1, v⟩
    | (.ok u8, d1) => ⟨none, d1, .uint .w8 (u8 % 2 ^ 8)⟩
  | .uint .w16 _ =>
    match d.ReadU16 with
    | (.error err, d1) => ⟨some err, d1, v⟩
    | (.ok u16, d1) => ⟨none, d1, .uint .w16 (u16 % 2 ^ 16)⟩
  | .uint .w32 _ =>
    match d.ReadU32 with
    | (.error err, d1) => ⟨some err, d1, v⟩
    | (.ok u32, d1) => ⟨none, d1, .uint .w32 (u32 % 2 ^ 32)⟩
  | .uint .w64 _ =>
    match d.ReadU64 with
    | (.error err, d1) => ⟨some err, d1, v⟩
    | (.ok u64, d1) => ⟨none, d1, .uint .w64 (u64 % 2 ^ 64)⟩
  | _ => ⟨some .unexpectedType, d, v⟩

/-- The decoder for signed integers, by the kind of the target. -/
def intDecoder : decoderFunc := fun d v =>
  match v with
  | .int .w8 _ =>
    match d.ReadI8 with
    | (.error err, d1) => ⟨some err, d1, v⟩
    | (.ok i8, d1) => ⟨none, d1, .int .w8 i8⟩
  | .int .w16 _ =>
    match d.ReadI16 with
    | (.error err, d1) => ⟨some err, d1, v⟩
    | (.ok i16, d1) => ⟨none, d1, .int .w16 i16⟩
  | .int .w32 _ =>
    match d.ReadI32 with
    | (.error err, d1) => ⟨some err, d1, v⟩
    | (.ok i32, d1) => ⟨none, d1, .int .w32 i32⟩
  | .int .w64 _ =>
    match d.ReadI64 with
    | (.error err, d1) => ⟨some err, d1, v⟩
    | (.ok i64, d1) => ⟨none, d1, .int .w64 i64⟩
  | _ => ⟨some .unexpectedType, d, v⟩

/-- The decoder for floats, by the kind of the target: what `ReadF32` returns is
stored by `v.SetFloat(float64(f32))`, which goes through `float64`; what
`ReadF64` returns is stored as it is. -/
def floatDecoder : decoderFunc := fun d v =>
  match v with
  | .float32 _ =>
    match d.ReadF32 with
    | (.error err, d1) => ⟨some err, d1, v⟩
    | (.ok f32, d1) => ⟨none, d1, .float32 (quiet32 f32)⟩
  | .float64 _ =>
    match d.ReadF64 with
    | (.error err, d1) => ⟨some err, d1, v⟩
    | (.ok f64, d1) => ⟨none, d1, .float64 f64⟩
  | _ => ⟨some .unexpectedType, d, v⟩

/-- The loop `for i := 0; i < v.Len(); i++ { if err := elemDecoder(d, v.Index(i)); err != nil { return err } }`:
each element of the target is decoded in place, up to the first error. -/
def decodeElems (elemDecoder : decoderFunc) : Decoder → List Value → Option Error × Decoder × List Value
  | d, [] => (none, d, [])
  | d, x :: xs =>
    match elemDecoder d x with
    | ⟨some err, d1, x1⟩ => (some err, d1, x1 :: xs)
    | ⟨none, d1, x1⟩ =>
      match decodeElems elemDecoder d1 xs with
      | (err, d2, xs1) => (err, d2, x1 :: xs1)

/-- The method `arrayDecoder.decode`. -/
def arrayDecoder_decode (elemDecoder : decoderFunc) : decoderFunc := fun d v =>
  match v with
  | .array elems =>
    match decodeElems elemDecoder d elems with
    | (err, d1, elems1) => ⟨err, d1, .array elems1⟩
  | _ => ⟨some .reflectPanic, d, v⟩

/-- The method `sliceDecoder.decode`; `elem` is `v.Type().Elem()`.  The target
is replaced by a new slice of `length` zero values before the elements are read. -/
def sliceDecoder_decode (elem : GoType) (elemDecoder : decoderFunc) : decoderFunc := fun d v =>
  match d.ReadU32 with
  | (.error err, d1) => ⟨some err, d1, v⟩
  | (.ok l, d1) =>
    match decodeElems elemDecoder d1 (List.replicate l (zero elem)) with
    | (err, d2, elems) => ⟨err, d2, .slice elems⟩

/-- The loop `for i := 0; i < v.NumField(); i++ { if err := sd.elemDecoders[i](d, v.Field(i)); ... }`. -/
def decodeFields : List decoderFunc → Decoder → List Value → Option Error × Decoder × List Value
  | _, d, [] => (none, d, [])
  | [], d, x :: xs => (some .reflectPanic, d, x :: xs)
  | f :: fs, d, x :: xs =>
    match f d x with
    | ⟨some err, d1, x1⟩ => (some err, d1, x1 :: xs)
    | ⟨none, d1, x1⟩ =>
      match decodeFields fs d1 xs with
      | (err, d2, xs1) => (err, d2, x1 :: xs1)

/-- The method `structDecoder.decode`. -/
def structDecoder_decode (elemDecoders : List decoderFunc) : decoderFunc := fun d v =>
  match v with
  | .struct fields =>
    match decodeFields elemDecoders d fields with
    | (err, d1, fields1) => ⟨err, d1, .struct fields1⟩
  | _ => ⟨some .reflectPanic, d, v⟩

/-- The loop of `setDecoder.decode`, `n` rounds left, `m` the entries set so far:
a fresh key is decoded and set to `true`. -/
def decodeKeys (key : GoType) (elemDecoder : decoderFunc) :
    Nat → Decoder → List (Value × Value) → Option Error × Decoder × List (Value × Value)
  | 0, d, m => (none, d, m)
  | n + 1, d, m =>
    match elemDecoder d (zero key) with
    | ⟨some err, d1, _⟩ => (some err, d1, m)
    | ⟨none, d1, k⟩ => decodeKeys key elemDecoder n d1 (SetMapIndex m k (.bool true))

/-- The method `setDecoder.decode`; `key` is `v.Type().Key()`.  The target is
replaced by a new empty map before the keys are read. -/
def setDecoder_decode (key : GoType) (elemDecoder : decoderFunc) : decoderFunc := fun d v =>
  match d.ReadU32 with
  | (.error err, d1) => ⟨some err, d1, v⟩
  | (.ok length, d1) =>
    match decodeKeys key elemDecoder length d1 [] with
    | (err, d2, m) => ⟨err, d2, .map m⟩

/-- The loop of `mapDecoder.decode`, `n` rounds left, `m` the entries set so far:
a fresh key and a fresh value are decoded and the entry is set. -/
def decodeEntries (key elem : GoType) (keyDecoder valDecoder : decoderFunc) :
    Nat → Decoder → List (Value × Value) → Option Error × Decoder × List (Value × Value)
  | 0, d, m => (none, d, m)
  | n + 1, d, m =>
    match keyDecoder d (zero key) with
    | ⟨some err, d1, _⟩ => (some err, d1, m)
    | ⟨none, d1, k⟩ =>
      match valDecoder d1 (zero elem) with
      | ⟨some err, d2, _⟩ => (some err, d2, m)
      | ⟨none, d2, val⟩ =>
        decodeEntries key elem keyDecoder valDecoder n d2 (SetMapIndex m k val)

/-- The method `mapDecoder.decode`; `key` and `elem` are `v.Type().Key()` and
`v.Type().Elem()`. -/
def mapDecoder_decode (key elem : GoType) (keyDecoder valDecoder : decoderFunc) : decoderFunc :=
  fun d v =>
  match d.ReadU32 with
  | (.error err, d1) => ⟨some err, d1, v⟩
  | (.ok length, d1) =>
    match decodeEntries key elem keyDecoder valDecoder length d1 [] with
    | (err, d2, m) => ⟨err, d2, .map m⟩

/-- The method `optionDecoder.decode`; `elem` is `v.Type().Elem()`.  When the
presence byte is zero the target is left as it is. -/
def optionDecoder_decode (elem : GoType) (elemDecoder : decoderFunc) : decoderFunc := fun d v =>
  match d.ReadBoolean with
  | (.error err, d1) => ⟨some err, d1, v⟩
  | (.ok true, d1) =>
    match elemDecoder d1 (zero elem) with
    | ⟨err, d2, x⟩ => ⟨err, d2, .ptr x⟩
  | (.ok false, d1) => ⟨none, d1, v⟩

/-- The decoder for strings. -/
def stringDecoder : decoderFunc := fun d v =>
  match d.ReadString with
  | (.error err, d1) => ⟨some err, d1, v⟩
  | (.ok s, d1) =>
    match v with
    | .string _ => ⟨none, d1, .string s⟩
    | _ => ⟨some .reflectPanic, d1, v⟩

/-- The decoder of the `default` case: it returns an error and reads nothing. -/
def unsupportedTypeDecoder : decoderFunc := fun d v => ⟨some .unexpectedType, d, v⟩

mutual
/-- The function `newTypeDecoder`: the decoder of a type, by its kind. -/
def newTypeDecoder : GoType → decoderFunc
  | .bool => boolDecoder
  | .uint _ => uintDecoder
  | .int _ => intDecoder
  | .float32 => floatDecoder
  | .float64 => floatDecoder
  | .array elem _ => arrayDecoder_decode (newTypeDecoder elem)
  | .slice elem => sliceDecoder_decode elem (newTypeDecoder elem)
  | .struct fields => structDecoder_decode (newStructDecoder fields)
  | .map key elem =>
    if elem.isBool then setDecoder_decode key (newTypeDecoder key)
    else mapDecoder_decode key elem (newTypeDecoder key) (newTypeDecoder elem)
  | .ptr elem => optionDecoder_decode elem (newTypeDecoder elem)
  | .string => stringDecoder
  | .unsupported => unsupportedTypeDecoder
/-- The loop of `newStructDecoder`: one decoder per field, in declared order. -/
def newStructDecoder : List GoType → List decoderFunc
  | [] => []
  | t :: ts => newTypeDecoder t :: newStructDecoder ts
end

/-- The method `Decoder.reflectValue`; `t` is `v.Type()`. -/
def Decoder.reflectValue (d : Decoder) (t : GoType) (v : Value) : Decoded :=
  newTypeDecoder t d v

/-- Unmarshal parses the borsh-encoded data and stores the result in the value
pointed to by v: `t` is the type pointed to, `v` the value found there before
the call; the result is the error and the value found there after the call. -/
def Unmarshal (data : List Byte) (t : GoType) (v : Value) : Option Error × Value :=
  match (NewDecoder data).reflectValue t v with
  | ⟨err, _, v1⟩ => (err, v1)

/-! ## Statement helpers -/

/-- The writers `WriteU8`, `WriteU16`, `WriteU32`, `WriteU64`, indexed by width. -/
def Encoder.WriteU (w : Width) (e : Encoder) (u : Nat) : Encoder :=
  match w with
  | .w8 => e.WriteU8 u
  | .w16 => e.WriteU16 u
  | .w32 => e.WriteU32 u
  | .w64 => e.WriteU64 u

/-- The writers `WriteI8`, `WriteI16`, `WriteI32`, `WriteI64`, indexed by width. -/
def Encoder.WriteI (w : Width) (e : Encoder) (i : Int) : Encoder :=
  match w with
  | .w8 => e.WriteI8 i
  | .w16 => e.WriteI16 i
  | .w32 => e.WriteI32 i
  | .w64 => e.WriteI64 i

/-- The readers `ReadU8`, `ReadU16`, `ReadU32`, `ReadU64`, indexed by width. -/
def Decoder.ReadU (w : Width) (d : Decoder) : Except Error Nat × Decoder :=
  match w with
  | .w8 => d.ReadU8
  | .w16 => d.ReadU16
  | .w32 => d.ReadU32
  | .w64 => d.ReadU64

/-- The readers `ReadI8`, `ReadI16`, `ReadI32`, `ReadI64`, indexed by width. -/
def Decoder.ReadI (w : Width) (d : Decoder) : Except Error Int × Decoder :=
  match w with
  | .w8 => d.ReadI8
  | .w16 => d.ReadI16
  | .w32 => d.ReadI32
  | .w64 => d.ReadI64

/-- The nine fixed-width reads of the decoder. -/
inductive FixedRead where
  | boolean
  | unsigned (w : Width)
  | signed (w : Width)

/-- The number of bytes a fixed-width read asks for. -/
def FixedRead.width : FixedRead → Nat
  | .boolean => 1
  | .unsigned w => w.bytes
  | .signed w => w.bytes

/-- The error a call returned, `none` for `nil`. -/
def errorOf {α : Type} : Except Error α → Option Error
  | .ok _ => none
  | .error err => some err

/-- Runs a fixed-width read: the error it returns and the decoder it leaves. -/
def FixedRead.run : FixedRead → Decoder → Option Error × Decoder
  | .boolean, d => (errorOf d.ReadBoolean.1, d.ReadBoolean.2)
  | .unsigned w, d => (errorOf (d.ReadU w).1, (d.ReadU w).2)
  | .signed w, d => (errorOf (d.ReadI w).1, (d.ReadI w).2)

/-- The value of a byte string read as a little-endian number:
the sum of `bs[i] * 256^i`. -/
def littleEndianValue (bs : List Byte) : Nat :=
  ∑ i : Fin bs.length, (bs.get i).val * 256 ^ i.val

/-- The keys of a map are pairwise different under Go's `==`: what every Go
map satisfies. -/
def distinctKeys : List (Value × Value) → Bool
  | [] => true
  | (k, _) :: es => es.all (fun kv => !keyEq k kv.1) && distinctKeys es

mutual
/-- Key types whose `==` compares contents and which the model compares the
same way: booleans, integers, strings, and arrays and records of these. -/
def keyKind : GoType → Bool
  | .bool => true
  | .uint _ => true
  | .int _ => true
  | .string => true
  | .array elem _ => keyKind elem
  | .struct fields => keyKinds fields
  | _ => false
/-- All fields are of a key kind. -/
def keyKinds : List GoType → Bool
  | [] => true
  | t :: ts => keyKind t && keyKinds ts
end

/-- The value is the boolean `true`. -/
def isTrueValue : Value → Bool
  | .bool true => true
  | _ => false

/-- An encoder function, called on `v`, returns and has appended exactly `bs`. -/
def Emits (f : encoderFunc) (v : Value) (bs : List Byte) : Prop :=
  ∀ e, ∃ e1, f e v = .done e1 ∧ e1.buf = e.buf ++ bs

/-- A decoder function, called on the target `z` with `bs` at the front of the
input, returns no error, has consumed exactly `bs` and has stored `v`. -/
def Reads (g : decoderFunc) (z : Value) (bs : List Byte) (v : Value) : Prop :=
  ∀ r, g ⟨bs ++ r⟩ z = ⟨none, ⟨r⟩, v⟩

/-- The decoder `g`, into the target `z`, reads back what the encoder `f` writes for `v`. -/
def RoundTrip (f : encoderFunc) (g : decoderFunc) (z v : Value) : Prop :=
  ∃ bs, Emits f v bs ∧ Reads g z bs v

mutual
/-- The values that the wire format can carry without loss: `v` is a value of type `t`,
built without unsupported kinds, in which every integer is in the range of its
type, every float is a bit pattern of its width that is not a NaN, every string,
sequence, map and set has fewer than `2^32` bytes, elements or entries, no slice
and no map is nil, every key type is a key kind, and every entry of a set (a
map to `bool`) is `true`. -/
def faithful : GoType → Value → Bool
  | .bool, v => match v with
    | .bool _ => true
    | _ => false
  | .float32, v => match v with
    | .float32 bits => bits < 2 ^ 32 && !isNaN32 bits
    | _ => false
  | .float64, v => match v with
    | .float64 bits => bits < 2 ^ 64 && !isNaN64 bits
    | _ => false
  | .uint w, v => match v with
    | .uint w1 n => w == w1 && n < 2 ^ w.bits
    | _ => false
  | .int w, v => match v with
    | .int w1 i => w == w1 && decide (-(2 ^ (w.bits - 1) : Int) ≤ i) && decide (i < (2 ^ (w.bits - 1) : Int))
    | _ => false
  | .array elem len, v => match v with
    | .array elems => elems.length == len && elems.all (faithful elem)
    | _ => false
  | .slice elem, v => match v with
    | .slice elems => elems.length < 2 ^ 32 && elems.all (faithful elem)
    | _ => false
  | .struct fields, v => match v with
    | .struct vs => faithfulFields fields vs
    | _ => false
  | .map key elem, v => match v with
    | .map entries =>
      keyKind key && entries.length < 2 ^ 32 && distinctKeys entries &&
        entries.all (fun kv => faithful key kv.1 &&
          if elem.isBool then isTrueValue kv.2 else faithful elem kv.2)
    | _ => false
  | .ptr elem, v => match v with
    | .nilPtr => true
    | .ptr x => faithful elem x
    | _ => false
  | .string, v => match v with
    | .string s => s.length < 2 ^ 32
    | _ => false
  | .unsupported, _ => false
/-- Field by field, `vs` are faithful values of the field types `ts`. -/
def faithfulFields : List GoType → List Value → Bool
  | [], vs => match vs with
    | [] => true
    | _ :: _ => false
  | t :: ts, vs => match vs with
    | [] => false
    | v :: vs1 => faithful t v && faithfulFields ts vs1
end

mutual
/-- Types built only from booleans, integers, strings, fixed arrays,
sequences, records and optionals. -/
def plain : GoType → Bool
  | .bool => true
  | .uint _ => true
  | .int _ => true
  | .string => true
  | .array elem _ => plain elem
  | .slice elem => plain elem
  | .struct fields => plains fields
  | .ptr elem => plain elem
  | _ => false
/-- All fields are plain. -/
def plains : List GoType → Bool
  | [] => true
  | t :: ts => plain t && plains ts
end

/-- An encoder function, called on `v`, panics, whatever the state of the encoder. -/
def Panics (f : encoderFunc) (v : Value) : Prop :=
  ∀ e, ∃ e1, f e v = .panic e1

/-- Whether the call ended in a panic. -/
def Outcome.panicked : Outcome → Bool
  | .done _ => false
  | .panic _ => true

/-- The bytes in the buffer when the call ended. -/
def Outcome.written : Outcome → List Byte
  | .done e => e.buf
  | .panic e => e.buf

/-- The little-endian encoding of `n` on `width` bytes: byte `k` is
`(n div 2^(8k)) mod 256`. -/
def littleEndian (width n : Nat) : List Byte :=
  (List.range width).map (fun k => byte (n / 2 ^ (8 * k)))

/-- The fixed-width scalar types: booleans, integers and floats. -/
def scalar : GoType → Bool
  | .bool => true
  | .uint _ => true
  | .int _ => true
  | .float32 => true
  | .float64 => true
  | _ => false

mutual
/-- The values of the supported shapes whose lengths fit the length prefix: `v` is a value
of type `t`, built without unsupported kinds, in which every string, sequence,
map and set has fewer than `2^32` bytes, elements or entries.  Nil slices,
maps and pointers, floats and sets with `false` entries are included. -/
def sized : GoType → Value → Bool
  | .bool, v => match v with
    | .bool _ => true
    | _ => false
  | .uint w, v => match v with
    | .uint w1 _ => w == w1
    | _ => false
  | .int w, v => match v with
    | .int w1 _ => w == w1
    | _ => false
  | .float32, v => match v with
    | .float32 _ => true
    | _ => false
  | .float64, v => match v with
    | .float64 _ => true
    | _ => false
  | .array elem len, v => match v with
    | .array elems => elems.length == len && elems.all (sized elem)
    | _ => false
  | .slice elem, v => match v with
    | .nilSlice => true
    | .slice elems => elems.length < 2 ^ 32 && elems.all (sized elem)
    | _ => false
  | .struct fields, v => match v with
    | .struct vs => sizedFields fields vs
    | _ => false
  | .map key elem, v => match v with
    | .nilMap => true
    | .map entries =>
      entries.length < 2 ^ 32 && entries.all (fun kv => sized key kv.1 && sized elem kv.2)
    | _ => false
  | .ptr elem, v => match v with
    | .nilPtr => true
    | .ptr x => sized elem x
    | _ => false
  | .string, v => match v with
    | .string s => s.length < 2 ^ 32
    | _ => false
  | .unsupported, _ => false
/-- Field by field, `vs` are sized values of the field types `ts`. -/
def sizedFields : List GoType → List Value → Bool
  | [], vs => match vs with
    | [] => true
    | _ :: _ => false
  | t :: ts, vs => match vs with
    | [] => false
    | v :: vs1 => sized t v && sizedFields ts vs1
end

/-- What a run of decoding steps leaves: the error (if any) and the decoder. -/
abbrev Run := Decoder → Option Error × Decoder

/-- The run of one decoder function on the target `z`. -/
def runOf (g : decoderFunc) (z : Value) : Run :=
  fun d => ((g d z).err, (g d z).d)

/-- One decoder function on the target `z`, then, if it returned no error, the
run `k x` chosen by the value `x` it stored. -/
def bindRun (g : decoderFunc) (z : Value) (k : Value → Run) : Run :=
  fun d =>
    match g d z with
    | ⟨some err, d1, _⟩ => (some err, d1)
    | ⟨none, d1, x⟩ => k x d1

/-- A run is cut by `bs`: given `bs` and anything after it, it returns no error
and leaves exactly what comes after; given `bs` with a non-empty end removed,
it returns an error or leaves nothing unread. -/
def CutRun (run : Run) (bs : List Byte) : Prop :=
  (∀ r, run ⟨bs ++ r⟩ = (none, ⟨r⟩)) ∧
  (∀ p s, bs = p ++ s → s ≠ [] → (run ⟨p⟩).1 ≠ none ∨ (run ⟨p⟩).2 = ⟨[]⟩)

/-- A run is strict on `bs`: given `bs` with a non-empty end removed, it returns an error. -/
def StrictRun (run : Run) (bs : List Byte) : Prop :=
  ∀ p s, bs = p ++ s → s ≠ [] → (run ⟨p⟩).1 ≠ none

/-- The number of bytes of a fixed-width scalar type. -/
def scalarWidth : GoType → Nat
  | .bool => 1
  | .uint w => w.bytes
  | .int w => w.bytes
  | .float32 => 4
  | .float64 => 8
  | _ => 0

mutual
/-- The shapes built only from catalog kinds: no part of the type is of an
unsupported kind. -/
def supported : GoType → Bool
  | .array elem _ => supported elem
  | .slice elem => supported elem
  | .struct fields => supporteds fields
  | .map key elem => supported key && supported elem
  | .ptr elem => supported elem
  | .unsupported => false
  | _ => true
/-- All fields are of supported shapes. -/
def supporteds : List GoType → Bool
  | [] => true
  | t :: ts => supported t && supporteds ts
end

mutual
/-- The value `v` is of type `t`: what `reflect.ValueOf(x)` is for an `x` of
type `t`.  Nothing is asked of lengths or of the range of integers. -/
def hasType : GoType → Value → Bool
  | .bool, v => match v with
    | .bool _ => true
    | _ => false
  | .uint w, v => match v with
    | .uint w1 _ => w == w1
    | _ => false
  | .int w, v => match v with
    | .int w1 _ => w == w1
    | _ => false
  | .float32, v => match v with
    | .float32 _ => true
    | _ => false
  | .float64, v => match v with
    | .float64 _ => true
    | _ => false
  | .array elem len, v => match v with
    | .array elems => elems.length == len && elems.all (hasType elem)
    | _ => false
  | .slice elem, v => match v with
    | .nilSlice => true
    | .slice elems => elems.all (hasType elem)
    | _ => false
  | .struct fields, v => match v with
    | .struct vs => hasTypes fields vs
    | _ => false
  | .map key elem, v => match v with
    | .nilMap => true
    | .map entries => entries.all (fun kv => hasType key kv.1 && hasType elem kv.2)
    | _ => false
  | .ptr elem, v => match v with
    | .nilPtr => true
    | .ptr x => hasType elem x
    | _ => false
  | .string, v => match v with
    | .string _ => true
    | _ => false
  | .unsupported, v => match v with
    | .other => true
    | _ => false
/-- Field by field, `vs` are values of the field types `ts`. -/
def hasTypes : List GoType → List Value → Bool
  | [], vs => match vs with
    | [] => true
    | _ :: _ => false
  | t :: ts, vs => match vs with
    | [] => false
    | v :: vs1 => hasType t v && hasTypes ts vs1
end

/-- The write operations of the encoder, each with its argument. -/
inductive Write where
  | boolean (b : Bool)
  | unsigned (w : Width) (u : Nat)
  | signed (w : Width) (i : Int)
  | f32 (bits : Nat)
  | f64 (bits : Nat)
  | string (s : List Byte)

/-- Performs a write operation on an encoder. -/
def Write.run : Write → Encoder → Encoder
  | .boolean b, e => e.WriteBoolean b
  | .unsigned w u, e => e.WriteU w u
  | .signed w i, e => e.WriteI w i
  | .f32 bits, e => e.WriteF32 bits
  | .f64 bits, e => e.WriteF64 bits
  | .string s, e => e.WriteString s

/-- The bytes a write operation stands for on the wire: one byte for a boolean,
the little-endian bytes of an integer or of a float's bit pattern, and the
four-byte length followed by the bytes of a string. -/
def Write.bytes : Write → List Byte
  | .boolean b => [if b then 1 else 0]
  | .unsigned w u => littleEndian w.bytes u
  | .signed w i => littleEndian w.bytes (toUnsigned w.bits i)
  | .f32 bits => littleEndian 4 bits
  | .f64 bits => littleEndian 8 bits
  | .string s => littleEndian 4 s.length ++ s

/-- A sequence of write operations, performed in order. -/
def Encoder.writes (e : Encoder) (ws : List Write) : Encoder :=
  ws.foldl (fun e1 w => w.run e1) e

/-- The read operations of the decoder: the fixed-width reads, the two float
reads, `ReadString`, and the type-directed `reflectValue` into a target `z`
of type `t`. -/
inductive Read where
  | fixed (r : FixedRead)
  | f32
  | f64
  | string
  | value (t : GoType) (z : Value)

/-- Performs a read operation: the error and the value it returns (the zero
value next to an error, as the named results of the Go methods are), and the
decoder it leaves. -/
def Read.run : Read → Decoder → Decoded
  | .fixed .boolean, d =>
    match d.ReadBoolean with
    | (.ok b, d1) => ⟨none, d1, .bool b⟩
    | (.error err, d1) => ⟨some err, d1, .bool false⟩
  | .fixed (.unsigned w), d =>
    match d.ReadU w with
    | (.ok u, d1) => ⟨none, d1, .uint w u⟩
    | (.error err, d1) => ⟨some err, d1, .uint w 0⟩
  | .fixed (.signed w), d =>
    match d.ReadI w with
    | (.ok i, d1) => ⟨none, d1, .int w i⟩
    | (.error err, d1) => ⟨some err, d1, .int w 0⟩
  | .f32, d =>
    match d.ReadF32 with
    | (.ok bits, d1) => ⟨none, d1, .float32 bits⟩
    | (.error err, d1) => ⟨some err, d1, .float32 0⟩
  | .f64, d =>
    match d.ReadF64 with
    | (.ok bits, d1) => ⟨none, d1, .float64 bits⟩
    | (.error err, d1) => ⟨some err, d1, .float64 0⟩
  | .string, d =>
    match d.ReadString with
    | (.ok s, d1) => ⟨none, d1, .string s⟩
    | (.error err, d1) => ⟨some err, d1, .string []⟩
  | .value t z, d => d.reflectValue t z

/-- A call on a decoder: a read operation, or `Remainder()`. -/
inductive Call where
  | read (r : Read)
  | remainder

/-- Whether the call is a read operation. -/
def Call.isRead : Call → Bool
  | .read _ => true
  | .remainder => false

/-- What a call on a decoder returns. -/
inductive Answer where
  | read (err : Option Error) (v : Value)
  | remainder (bs : List Byte)

/-- Whether the answer is that of a read operation. -/
def Answer.isRead : Answer → Bool
  | .read _ _ => true
  | .remainder _ => false

/-- Performs a call: its answer and the decoder it leaves.  `Remainder()` is
`Buffer.Bytes()`, which leaves the buffer as it is. -/
def Call.run : Call → Decoder → Answer × Decoder
  | .read r, d => (.read (r.run d).err (r.run d).v, (r.run d).d)
  | .remainder, d => (.remainder d.Remainder, d)

/-- A sequence of calls on a decoder, performed in order: the answers, in
order, and the decoder left at the end. -/
def Decoder.calls : Decoder → List Call → List Answer × Decoder
  | d, [] => ([], d)
  | d, c :: cs =>
    match c.run d with
    | (a, d1) =>
      match Decoder.calls d1 cs with
      | (as, d2) => (a :: as, d2)

/-- The method `reflect.Value.MapIndex(key)`, the map lookup `m[key]`: the value
of the entry whose key equals `key`, if there is one. -/
def MapIndex : List (Value × Value) → Value → Option Value
  | [], _ => none
  | (k, v) :: es, key => if keyEq k key then some v else MapIndex es key

/-- The map a decoder builds from the entries it reads, in input order,
starting from the map `m`. -/
def setAll (m : List (Value × Value)) (kvs : List (Value × Value)) : List (Value × Value) :=
  kvs.foldl (fun acc kv => SetMapIndex acc kv.1 kv.2) m

/-- A decoder function only moves forward: what it leaves unread is what was
unread before with some number of bytes dropped from the front. -/
def Advances (g : decoderFunc) : Prop :=
  ∀ d v, ∃ k, (g d v).d.Buffer = d.Buffer.drop k

/-- The value of the last entry of `kvs` whose key equals `key`, if there is one. -/
def lastOccurrence : List (Value × Value) → Value → Option Value
  | [], _ => none
  | (k, v) :: es, key =>
    match lastOccurrence es key with
    | some x => some x
    | none => if keyEq k key then some v else none

/-- The method `bytes.Buffer.Grow(n)` from Go 1.19 on (`growSlice`): nothing
happens when `n` more bytes fit, otherwise the new capacity is `len + n`, or
`2*cap` when that is more.  The allocator may round the capacity up to a size
class, which is left out here. -/
def bufferGrowSlice (e : Encoder) (n : Nat) : Encoder :=
  if n ≤ e.cap - e.buf.length then e
  else { e with cap := max (e.buf.length + n) (2 * e.cap) }

/-- The method `reserveCapacity` over a given `Buffer.Grow`. -/
def Encoder.reserveCapacityWith (grow : Encoder → Nat → Encoder) (e : Encoder)
    (neededCapacity : Nat) : Encoder :=
  let currentCapacity := e.cap - e.buf.length
  if currentCapacity < neededCapacity then
    grow e (max ((3 * e.cap + 1) / 2) (currentCapacity + neededCapacity))
  else e

/-- A Go type as a program writes it: one of the kinds of `GoType`, or the name
of a declared type (`type Node struct ...`), which may occur inside its own
declaration. -/
inductive TypeExpr where
  | bool
  | uint (w : Width)
  | int (w : Width)
  | float32
  | float64
  | array (elem : TypeExpr) (len : Nat)
  | slice (elem : TypeExpr)
  | struct (fields : List TypeExpr)
  | map (key : TypeExpr) (elem : TypeExpr)
  | ptr (elem : TypeExpr)
  | string
  | unsupported
  | named (name : Nat)

/-- The type declarations of a program: the declared type number `name` stands
for `decls[name]`; a name without a declaration is of no supported kind. -/
abbrev Decls := List TypeExpr

/-- All the results of a list of calls, if every one of them has returned. -/
def allSome {α : Type} : List (Option α) → Option (List α)
  | [] => some []
  | none :: _ => none
  | some a :: rest =>
    match allSome rest with
    | some as => some (a :: as)
    | none => none

/-- The nested calls of `newTypeEncoder` (and of `newTypeDecoder`) on a type of
the program: a call looks at the kind of its type and, before it returns, calls
itself on the element type (`newArrayEncoder`, `newSliceEncoder`,
`newOptionEncoder`), on every field type (`newStructEncoder`) or on the key and
value types (`newSetEncoder`, `newMapEncoder`); nothing records the types
already visited.  `fuel` bounds how deep the calls may nest: the result is the
finite type the calls have walked through, or `none` when they nest deeper than
`fuel`. -/
def unfold (ds : Decls) : Nat → TypeExpr → Option GoType
  | 0, _ => none
  | fuel + 1, t =>
    match t with
    | .bool => some .bool
    | .uint w => some (.uint w)
    | .int w => some (.int w)
    | .float32 => some .float32
    | .float64 => some .float64
    | .array elem len => (unfold ds fuel elem).map (fun g => .array g len)
    | .slice elem => (unfold ds fuel elem).map .slice
    | .struct fields => (allSome (fields.map (unfold ds fuel))).map .struct
    | .map key elem =>
      match unfold ds fuel key with
      | some k => (unfold ds fuel elem).map (fun g => .map k g)
      | none => none
    | .ptr elem => (unfold ds fuel elem).map .ptr
    | .string => some .string
    | .unsupported => some .unsupported
    | .named name => unfold ds fuel (ds.getD name .unsupported)

/-- The function `Marshal` on a value of a type of the program, with the nested calls
of `newTypeEncoder` bounded by `fuel`: `none` when `newTypeEncoder` has not
returned within the bound. -/
def MarshalDeclared (ds : Decls) (fuel : Nat) (t : TypeExpr) (v : Value) : Option MarshalResult :=
  (unfold ds fuel t).map (fun g => Marshal g v)

/-- The function `Unmarshal` into a target of a type of the program, with the nested
calls of `newTypeDecoder` bounded by `fuel`: `none` when `newTypeDecoder` has not
returned within the bound. -/
def UnmarshalDeclared (ds : Decls) (fuel : Nat) (data : List Byte) (t : TypeExpr) (v : Value) :
    Option (Option Error × Value) :=
  (unfold ds fuel t).map (fun g => Unmarshal data g v)

/-! ## Sample values -/

/-- The type `Event` of `TestRoundtripStruct`: `struct { Name string; ID uint16 }`. -/
def eventType : GoType := .struct [.string, .uint .w16]

/-- The value `Event{Name: "my event", ID: 3}`. -/
def eventValue : Value :=
  .struct [.string [0x6d, 0x79, 0x20, 0x65, 0x76, 0x65, 0x6e, 0x74], .uint .w16 3]

/-- A nested type: a sequence of records holding a string, an optional `int32`,
a `[2]uint8`, a `map[string]uint8` and a set `map[uint16]bool`. -/
def nestedType : GoType :=
  .slice (.struct [.string, .ptr (.int .w32), .array (.uint .w8) 2,
    .map .string (.uint .w8), .map (.uint .w16) .bool])

/-- A value of `nestedType` with two records. -/
def nestedValue : Value :=
  .slice [
    .struct [.string [0x68, 0x69], .ptr (.int .w32 (-1)), .array [.uint .w8 1, .uint .w8 2],
      .map [(.string [0x62], .uint .w8 1), (.string [0x61], .uint .w8 2)],
      .map [(.uint .w16 257, .bool true)]],
    .struct [.string [], .nilPtr, .array [.uint .w8 0, .uint .w8 255],
      .map [], .map []]]

/-- The type `map[string]uint8` of `TestRoundtripMap`. -/
def stringToU8 : GoType := .map .string (.uint .w8)

/-- The entries `"a": 0, "b": 1, "c": 2`. -/
def abcEntries : List (Value × Value) :=
  [(.string [0x61], .uint .w8 0), (.string [0x62], .uint .w8 1), (.string [0x63], .uint .w8 2)]

/-- The same entries in the order `"c", "a", "b"`. -/
def cabEntries : List (Value × Value) :=
  [(.string [0x63], .uint .w8 2), (.string [0x61], .uint .w8 0), (.string [0x62], .uint .w8 1)]

/-- A record with floats, a nil sequence, a nil map, a set with a `false` entry,
a string and a present optional. -/
def mixedType : GoType :=
  .struct [.float32, .float64, .slice (.uint .w8), .map .string (.int .w64),
    .map (.uint .w16) .bool, .string, .ptr (.array .bool 2)]

/-- A value of `mixedType`. -/
def mixedValue : Value :=
  .struct [.float32 0x7fc00000, .float64 0, .nilSlice, .nilMap,
    .map [(.uint .w16 7, .bool false)], .string [0x68, 0x69],
    .ptr (.array [.bool true, .bool false])]

/-- The entries `"a": 1, "b": 2, "a": 3` of a `map[string]uint8` input, each
with the bytes of its key and of its value. -/
def repeatedEntries : List ((Value × Value) × List Byte × List Byte) :=
  [((.string [0x61], .uint .w8 1), [1, 0, 0, 0, 0x61], [1]),
    ((.string [0x62], .uint .w8 2), [1, 0, 0, 0, 0x62], [2]),
    ((.string [0x61], .uint .w8 3), [1, 0, 0, 0, 0x61], [3])]

/-- The keys `5, 5` of a `map[uint8]bool` input, each with its byte. -/
def repeatedKeys : List (Value × List Byte) :=
  [(.uint .w8 5, [5]), (.uint .w8 5, [5])]

/-- A record of a `float32`, a `float64` and a value of `nestedType`. -/
def readingType : GoType := .struct [.float32, .float64, nestedType]

/-- The floats `3.141592` of `TestRoundtripF32` and `TestRoundtripF64`, by their
bit patterns, next to `nestedValue`. -/
def readingValue : Value :=
  .struct [.float32 0x40490FD8, .float64 0x400921FAFC8B007A, nestedValue]

/-- The declaration `type Node struct { Next *Node }`: a record with one
optional field of its own type. -/
def nodeDecls : Decls := [.struct [.ptr (.named 0)]]

/-- The declaration `type Leaf struct { Next *uint8 }`. -/
def leafDecls : Decls := [.struct [.ptr (.uint .w8)]]

/-! ## Little-endian arithmetic and the primitive reads and writes -/

theorem PutUint_length (n v : Nat) : (PutUint n v).length = n := by
  induction n generalizing v with
  | zero => rfl
  | succ n ih => simp [PutUint, ih]

theorem Uint_PutUint (n v : Nat) : Uint (PutUint n v) = v % 256 ^ n := by
  induction n generalizing v with
  | zero => simp [PutUint, Uint, Nat.mod_one]
  | succ n ih =>
    simp only [PutUint, Uint, ih, byte]
    rw [pow_succ, Nat.mul_comm (256 ^ n) 256, Nat.mod_mul]

theorem PutUint_get (n v k : Nat) (hk : k < (PutUint n v).length) :
    ((PutUint n v).get ⟨k, hk⟩).val = v / 2 ^ (8 * k) % 256 := by
  induction n generalizing v k with
  | zero => simp [PutUint] at hk
  | succ n ih =>
    cases k with
    | zero => simp [PutUint, byte]
    | succ k =>
      simp only [PutUint, List.get_cons_succ]
      rw [ih]
      rw [Nat.div_div_eq_div_mul]
      congr 2
      rw [Nat.mul_succ, pow_add]
      norm_num
      ring

theorem Uint_lt (bs : List Byte) : Uint bs < 256 ^ bs.length := by
  induction bs with
  | nil => simp [Uint]
  | cons b bs ih =>
    simp only [Uint, List.length_cons, pow_succ]
    have := b.isLt
    omega

theorem ReadFull_eq (d : Decoder) (n : Nat) (hn : 0 < n) :
    ReadFull d n =
      if d.Buffer.length = 0 then ([], some Error.EOF, d)
      else if d.Buffer.length < n then (d.Buffer, some Error.ErrUnexpectedEOF, ⟨[]⟩)
      else (d.Buffer.take n, none, ⟨d.Buffer.drop n⟩) := by
  obtain ⟨m, rfl⟩ : ∃ m, n = m + 1 := ⟨n - 1, by omega⟩
  by_cases h0 : d.Buffer.length = 0
  · simp [ReadFull, readLoop, bufferRead, h0]
  · by_cases h1 : d.Buffer.length < m + 1
    · have h2 : d.Buffer.length ≤ m + 1 := by omega
      have h3 : m + 1 - d.Buffer.length ≠ 0 := by omega
      simp [ReadFull, readLoop, bufferRead, h0, h1, List.take_of_length_le h2,
        List.drop_of_length_le h2, h3]
      rw [if_neg (by omega), if_pos (by omega)]
    · have h2 : m + 1 ≤ d.Buffer.length := by omega
      simp [ReadFull, readLoop, bufferRead, h0, h1, h2, List.length_take]

theorem binaryRead_eq (d : Decoder) (n : Nat) (hn : 0 < n) :
    binaryRead d n =
      if d.Buffer.length = 0 then (.error Error.EOF, d)
      else if d.Buffer.length < n then (.error Error.ErrUnexpectedEOF, ⟨[]⟩)
      else (.ok (d.Buffer.take n), ⟨d.Buffer.drop n⟩) := by
  rw [binaryRead, ReadFull_eq d n hn]
  split_ifs <;> rfl

theorem binaryRead_ok (d : Decoder) (n : Nat) (hn : 0 < n) (h : n ≤ d.Buffer.length) :
    binaryRead d n = (.ok (d.Buffer.take n), ⟨d.Buffer.drop n⟩) := by
  rw [binaryRead_eq d n hn, if_neg (by omega), if_neg (by omega)]

theorem binaryRead_append (bs r : List Byte) (hn : 0 < bs.length) :
    binaryRead ⟨bs ++ r⟩ bs.length = (.ok bs, ⟨r⟩) := by
  rw [binaryRead_ok _ _ hn (by simp)]
  simp

theorem binaryRead_fail (d : Decoder) (n : Nat) (hn : 0 < n) (h : d.Buffer.length < n) :
    ∃ err, binaryRead d n = (.error err, ⟨[]⟩) ∧ err.isEndOfInput = true := by
  rw [binaryRead_eq d n hn]
  by_cases h0 : d.Buffer.length = 0
  · refine ⟨.EOF, ?_, rfl⟩
    rw [if_pos h0]
    have : d.Buffer = [] := List.length_eq_zero.mp h0
    cases d
    simp_all
  · exact ⟨.ErrUnexpectedEOF, by rw [if_neg h0, if_pos h], rfl⟩

theorem Width.bytes_pos (w : Width) : 0 < w.bytes := by cases w <;> decide

theorem ReadU_eq (w : Width) (d : Decoder) :
    d.ReadU w = match binaryRead d w.bytes with
      | (.ok bs, d1) => (.ok (Uint bs), d1)
      | (.error err, d1) => (.error err, d1) := by
  cases w <;> rfl

theorem ReadI_eq (w : Width) (d : Decoder) :
    d.ReadI w = match binaryRead d w.bytes with
      | (.ok bs, d1) => (.ok (toSigned w.bits (Uint bs)), d1)
      | (.error err, d1) => (.error err, d1) := by
  cases w <;> rfl

theorem littleEndianValue_eq (bs : List Byte) : littleEndianValue bs = Uint bs := by
  induction bs with
  | nil => simp [littleEndianValue, Uint]
  | cons b bs ih =>
    rw [Uint, ← ih]
    simp only [littleEndianValue, List.length_cons]
    rw [Fin.sum_univ_succ]
    simp [Finset.mul_sum, pow_succ]
    apply Finset.sum_congr rfl
    intro i _
    ring

theorem toSigned_spec (bits u : Nat) (hb : 0 < bits) (hu : u < 2 ^ bits) :
    (toSigned bits u - (u : Int)) % 2 ^ bits = 0 ∧
      -(2 ^ (bits - 1) : Int) ≤ toSigned bits u ∧ toSigned bits u < 2 ^ (bits - 1) := by
  obtain ⟨k, rfl⟩ : ∃ k, bits = k + 1 := ⟨bits - 1, by omega⟩
  have hm : u % 2 ^ (k + 1) = u := Nat.mod_eq_of_lt hu
  have hp : (2 : Int) ^ (k + 1) = 2 * 2 ^ k := by rw [pow_succ]; ring
  have hpn : (2 : Nat) ^ (k + 1) = 2 * 2 ^ k := by rw [pow_succ]; ring
  have hk : (0 : Int) < 2 ^ k := by positivity
  simp only [toSigned, hm, Nat.add_sub_cancel]
  split_ifs with h
  · refine ⟨by simp, by omega, by exact_mod_cast h⟩
  · have h2 : (2 : Int) ^ k ≤ u := by exact_mod_cast (not_lt.mp h)
    have h3 : (u : Int) < 2 * 2 ^ k := by rw [← hp]; exact_mod_cast hu
    refine ⟨by simp, by rw [hp]; omega, by rw [hp]; omega⟩

theorem bufferWrite_buf (e : Encoder) (p : List Byte) : (bufferWrite e p).buf = e.buf ++ p := rfl

theorem reserveCapacity_buf (e : Encoder) (n : Nat) : (e.reserveCapacity n).buf = e.buf := by
  unfold Encoder.reserveCapacity bufferGrow
  dsimp only
  split_ifs <;> rfl

theorem WriteU_buf (w : Width) (e : Encoder) (u : Nat) :
    (e.WriteU w u).buf = e.buf ++ PutUint w.bytes u := by
  cases w <;>
    simp [Encoder.WriteU, Encoder.WriteU8, Encoder.WriteU16, Encoder.WriteU32, Encoder.WriteU64,
      bufferWrite_buf, reserveCapacity_buf, Width.bytes]

theorem WriteI_buf (w : Width) (e : Encoder) (i : Int) :
    (e.WriteI w i).buf = e.buf ++ PutUint w.bytes (toUnsigned w.bits i) := by
  cases w <;>
    simp [Encoder.WriteI, Encoder.WriteI8, Encoder.WriteI16, Encoder.WriteI32, Encoder.WriteI64,
      bufferWrite_buf, reserveCapacity_buf, Width.bytes, Width.bits]

theorem PutUint_eq_map (n v : Nat) :
    PutUint n v = (List.range n).map (fun k => byte (v / 2 ^ (8 * k))) := by
  apply List.ext_get
  · simp [PutUint_length]
  · intro k h1 h2
    apply Fin.ext
    rw [PutUint_get]
    simp [byte]

theorem PutUint_mod (n v : Nat) : PutUint n (v % 2 ^ (8 * n)) = PutUint n v := by
  induction n generalizing v with
  | zero => rfl
  | succ n ih =>
    simp only [PutUint]
    have h1 : (2 : Nat) ^ (8 * (n + 1)) = 256 * 2 ^ (8 * n) := by
      rw [Nat.mul_succ, pow_add]; norm_num; ring
    congr 1
    · apply Fin.ext
      simp only [byte]
      rw [h1]
      exact Nat.mod_mod_of_dvd _ (Dvd.intro _ rfl)
    · rw [h1, Nat.mod_mul_right_div_self, ih]

/-- Claim C6 (integer encoding): for every width and every unsigned `v` or signed `i`,
`WriteUw` / `WriteIw` appends exactly `w/8` bytes, and byte `k` is
`((v mod 2^w) div 2^(8k)) mod 256` (little-endian, two's complement for signed
values); `u16 257` gives `[0x01, 0x01]` and `i32 -1` gives four bytes `0xFF`. -/
theorem integer_encoding (w : Width) (e : Encoder) (v : Nat) (i : Int) :
    (e.WriteU w v).Finish =
        e.Finish ++ (List.range w.bytes).map (fun k => byte (v % 2 ^ w.bits / 2 ^ (8 * k))) ∧
    (e.WriteI w i).Finish =
        e.Finish ++ (List.range w.bytes).map (fun k => byte ((i % 2 ^ w.bits).toNat / 2 ^ (8 * k))) ∧
    (NewEncoder.WriteU16 257).Finish = [0x01, 0x01] ∧
    (NewEncoder.WriteI32 (-1)).Finish = [0xFF, 0xFF, 0xFF, 0xFF] := by
  refine ⟨?_, ?_, by decide, by decide⟩
  · rw [Encoder.Finish, WriteU_buf, ← PutUint_eq_map, Width.bits, PutUint_mod]
    rfl
  · rw [Encoder.Finish, WriteI_buf, ← PutUint_eq_map]
    rfl

theorem Width.pow_bits (w : Width) : 256 ^ w.bytes = 2 ^ w.bits := by cases w <;> decide

/-- Claim C7 (integer decoding on success): with at least `w/8` unread bytes, `ReadUw`
returns the little-endian unsigned value `u` of the next `w/8` bytes, `ReadIw`
returns the signed `i` of the same bits (`i ≡ u mod 2^w` and
`-2^(w-1) ≤ i < 2^(w-1)`), and the remainder afterwards is the previous
remainder without its first `w/8` bytes. -/
theorem integer_decoding (w : Width) (d : Decoder) (h : w.bytes ≤ d.Remainder.length) :
    ∃ u i d1, d.ReadU w = (.ok u, d1) ∧ d.ReadI w = (.ok i, d1) ∧
      d1.Remainder = d.Remainder.drop w.bytes ∧
      u = littleEndianValue (d.Remainder.take w.bytes) ∧
      (i - (u : Int)) % 2 ^ w.bits = 0 ∧
      -(2 ^ (w.bits - 1) : Int) ≤ i ∧ i < 2 ^ (w.bits - 1) := by
  have h : w.bytes ≤ d.Buffer.length := h
  have hr := binaryRead_ok d w.bytes w.bytes_pos h
  have hlt : Uint (d.Buffer.take w.bytes) < 2 ^ w.bits := by
    have := Uint_lt (d.Buffer.take w.bytes)
    rw [List.length_take, Nat.min_eq_left h, Width.pow_bits] at this
    exact this
  have hs := toSigned_spec w.bits _ (by cases w <;> decide) hlt
  refine ⟨Uint (d.Buffer.take w.bytes), toSigned w.bits (Uint (d.Buffer.take w.bytes)),
    ⟨d.Buffer.drop w.bytes⟩, ?_, ?_, rfl, ?_, hs.1, hs.2.1, hs.2.2⟩
  · rw [ReadU_eq, hr]
  · rw [ReadI_eq, hr]
  · rw [littleEndianValue_eq]; rfl

theorem integer_decoding_witness :
    Width.w16.bytes ≤ (NewDecoder [0xFE, 0xFF, 0x03]).Remainder.length ∧
    ∃ u i d1, (NewDecoder [0xFE, 0xFF, 0x03]).ReadU .w16 = (.ok u, d1) ∧
      (NewDecoder [0xFE, 0xFF, 0x03]).ReadI .w16 = (.ok i, d1) ∧
      d1.Remainder = (NewDecoder [0xFE, 0xFF, 0x03]).Remainder.drop Width.w16.bytes ∧
      u = littleEndianValue ((NewDecoder [0xFE, 0xFF, 0x03]).Remainder.take Width.w16.bytes) ∧
      (i - (u : Int)) % 2 ^ Width.w16.bits = 0 ∧
      -(2 ^ (Width.w16.bits - 1) : Int) ≤ i ∧ i < 2 ^ (Width.w16.bits - 1) :=
  ⟨by decide, integer_decoding .w16 (NewDecoder [0xFE, 0xFF, 0x03]) (by decide)⟩

theorem run_eq (r : FixedRead) (d : Decoder) :
    r.run d = (errorOf (binaryRead d r.width).1, (binaryRead d r.width).2) := by
  cases r with
  | boolean =>
    simp only [FixedRead.run, FixedRead.width, Decoder.ReadBoolean, Decoder.ReadU8]
    rcases binaryRead d 1 with ⟨_ | _, _⟩ <;> rfl
  | unsigned w =>
    simp only [FixedRead.run, FixedRead.width, ReadU_eq]
    rcases binaryRead d w.bytes with ⟨_ | _, _⟩ <;> rfl
  | signed w =>
    simp only [FixedRead.run, FixedRead.width, ReadI_eq]
    rcases binaryRead d w.bytes with ⟨_ | _, _⟩ <;> rfl

theorem FixedRead.width_pos (r : FixedRead) : 0 < r.width := by
  cases r with
  | boolean => decide
  | unsigned w => exact w.bytes_pos
  | signed w => exact w.bytes_pos

/-- Claim C8 (boundary failure of fixed-width reads): each of `ReadBoolean`,
`ReadU8..ReadU64`, `ReadI8..ReadI64` fails with an end-of-input error exactly
when fewer bytes remain than its width, and returns no error exactly when
enough remain. -/
theorem fixed_width_read_fails_iff (r : FixedRead) (d : Decoder) :
    ((∃ err, (r.run d).1 = some err ∧ err.isEndOfInput = true) ↔ d.Remainder.length < r.width) ∧
    ((r.run d).1 = none ↔ r.width ≤ d.Remainder.length) := by
  rw [run_eq]
  by_cases h : d.Remainder.length < r.width
  · obtain ⟨err, he, hend⟩ := binaryRead_fail d r.width r.width_pos h
    rw [he]
    exact ⟨⟨fun _ => h, fun _ => ⟨err, rfl, hend⟩⟩,
      ⟨fun h1 => (by cases h1), fun h1 => absurd h (not_lt.mpr h1)⟩⟩
  · have h1 : r.width ≤ d.Buffer.length := by simpa [Decoder.Remainder] using h
    rw [binaryRead_ok d r.width r.width_pos h1]
    exact ⟨⟨fun ⟨_, h2, _⟩ => (by cases h2), fun h2 => absurd h2 h⟩, ⟨fun _ => h1, fun _ => rfl⟩⟩

/-- Claim C9, counterexample: `ReadU16` on a decoder holding the single byte `0xFF`
fails, and the remainder afterwards is empty, not `[0xFF]`: the failed read
has moved the cursor. -/
theorem failed_read_moves_cursor :
    ((FixedRead.unsigned .w16).run (NewDecoder [0xFF])).1 = some Error.ErrUnexpectedEOF ∧
    (NewDecoder [0xFF]).Remainder = [0xFF] ∧
    ((FixedRead.unsigned .w16).run (NewDecoder [0xFF])).2.Remainder = [] ∧
    (Decoder.ReadU16 (NewDecoder [0xFF])).2.Remainder ≠ (NewDecoder [0xFF]).Remainder := by
  decide

/-- Claim C9, as amended: a fixed-width read that finds fewer bytes than its width
fails and leaves nothing unread, so the remainder afterwards is empty. -/
theorem failed_read_drains (r : FixedRead) (d : Decoder) (h : d.Remainder.length < r.width) :
    (r.run d).1 ≠ none ∧ (r.run d).2.Remainder = [] := by
  rw [run_eq]
  obtain ⟨err, he, _⟩ := binaryRead_fail d r.width r.width_pos h
  rw [he]
  exact ⟨by simp [errorOf], rfl⟩

theorem failed_read_drains_witness :
    (NewDecoder [0x01, 0x02, 0x03]).Remainder.length < (FixedRead.signed .w32).width ∧
    ((FixedRead.signed .w32).run (NewDecoder [0x01, 0x02, 0x03])).1 ≠ none ∧
    ((FixedRead.signed .w32).run (NewDecoder [0x01, 0x02, 0x03])).2.Remainder = [] :=
  ⟨by decide, failed_read_drains (.signed .w32) (NewDecoder [0x01, 0x02, 0x03]) (by decide)⟩

/-- Claim C10, the code at the failing input: the length prefix announces five bytes
and two follow; `ReadString` and the decoding of a string shape return the two
bytes with no error, while the same bytes decoded as a sequence of `u8` fail
with an end-of-input error. -/
theorem ReadString_truncated_payload :
    Decoder.ReadString (NewDecoder [0x05, 0x00, 0x00, 0x00, 0x61, 0x62]) =
      (.ok [0x61, 0x62], NewDecoder []) ∧
    Unmarshal [0x05, 0x00, 0x00, 0x00, 0x61, 0x62] .string (zero .string) =
      (none, .string [0x61, 0x62]) ∧
    (Unmarshal [0x05, 0x00, 0x00, 0x00, 0x61, 0x62] (.slice (.uint .w8)) (zero (.slice (.uint .w8)))).1 =
      some Error.EOF := by
  refine ⟨rfl, rfl, rfl⟩

/-- Claim C3, the code at the failing input: a map whose iteration hands out key
`"b"` before key `"a"` is written with `"b"` first, although the encoding of
`"a"` is the smaller byte sequence; the same map iterated in the other order
gives other bytes. -/
theorem map_entries_not_sorted :
    Marshal (.map .string (.uint .w8))
        (.map [(.string [0x62], .uint .w8 1), (.string [0x61], .uint .w8 2)]) =
      .returned [2, 0, 0, 0, 1, 0, 0, 0, 0x62, 1, 1, 0, 0, 0, 0x61, 2] none ∧
    Marshal (.map .string (.uint .w8))
        (.map [(.string [0x61], .uint .w8 2), (.string [0x62], .uint .w8 1)]) =
      .returned [2, 0, 0, 0, 1, 0, 0, 0, 0x61, 2, 1, 0, 0, 0, 0x62, 1] none ∧
    Marshal .string (.string [0x61]) = .returned [1, 0, 0, 0, 0x61] none ∧
    Marshal .string (.string [0x62]) = .returned [1, 0, 0, 0, 0x62] none ∧
    ([1, 0, 0, 0, 0x61] : List Byte) < [1, 0, 0, 0, 0x62] := by
  refine ⟨rfl, rfl, rfl, rfl, by decide⟩

/-! ## What the encoder writes, the decoder reads back -/

theorem binaryRead_front (bs r : List Byte) (n : Nat) (hl : bs.length = n) (hn : 0 < n) :
    binaryRead ⟨bs ++ r⟩ n = (.ok bs, ⟨r⟩) := by
  subst hl
  exact binaryRead_append bs r hn

theorem ReadU_PutUint (w : Width) (v : Nat) (r : List Byte) :
    Decoder.ReadU w ⟨PutUint w.bytes v ++ r⟩ = (.ok (v % 2 ^ w.bits), ⟨r⟩) := by
  rw [ReadU_eq, binaryRead_front _ _ _ (PutUint_length _ _) w.bytes_pos]
  simp only [Uint_PutUint, Width.pow_bits]

theorem toSigned_toUnsigned (bits : Nat) (i : Int) (hb : 0 < bits)
    (h1 : -(2 ^ (bits - 1) : Int) ≤ i) (h2 : i < 2 ^ (bits - 1)) :
    toSigned bits (toUnsigned bits i) = i := by
  obtain ⟨k, rfl⟩ : ∃ k, bits = k + 1 := ⟨bits - 1, by omega⟩
  simp only [Nat.add_sub_cancel] at h1 h2
  have hp : (2 : Int) ^ (k + 1) = 2 * 2 ^ k := by rw [pow_succ]; ring
  have hk : (0 : Int) < 2 ^ k := by positivity
  have hnn : 0 ≤ i % 2 ^ (k + 1) := Int.emod_nonneg _ (by positivity)
  have hlt : i % 2 ^ (k + 1) < 2 ^ (k + 1) := Int.emod_lt_of_pos _ (by positivity)
  have hcast : ((toUnsigned (k + 1) i : Nat) : Int) = i % 2 ^ (k + 1) := by
    simp only [toUnsigned]
    exact Int.toNat_of_nonneg hnn
  have hltn : toUnsigned (k + 1) i < 2 ^ (k + 1) := by
    have : ((toUnsigned (k + 1) i : Nat) : Int) < ((2 ^ (k + 1) : Nat) : Int) := by
      rw [hcast]; push_cast; exact hlt
    exact_mod_cast this
  simp only [toSigned, Nat.mod_eq_of_lt hltn, Nat.add_sub_cancel]
  by_cases hi : 0 ≤ i
  · have he : i % 2 ^ (k + 1) = i := Int.emod_eq_of_lt hi (by rw [hp]; omega)
    have hc : ((toUnsigned (k + 1) i : Nat) : Int) < ((2 ^ k : Nat) : Int) := by
      rw [hcast, he]; push_cast; exact h2
    rw [if_pos (by exact_mod_cast hc), hcast, he]
  · have he : i % 2 ^ (k + 1) = i + 2 ^ (k + 1) := by
      have h3 : (i + 2 ^ (k + 1)) % 2 ^ (k + 1) = i + 2 ^ (k + 1) :=
        Int.emod_eq_of_lt (by rw [hp]; omega) (by omega)
      rw [← h3, Int.add_emod_self]
    have hc : ¬ ((toUnsigned (k + 1) i : Nat) : Int) < ((2 ^ k : Nat) : Int) := by
      rw [hcast, he, hp]; push_cast; omega
    rw [if_neg (by exact_mod_cast hc), hcast, he]
    ring

theorem ReadI_PutUint (w : Width) (i : Int) (r : List Byte)
    (h1 : -(2 ^ (w.bits - 1) : Int) ≤ i) (h2 : i < 2 ^ (w.bits - 1)) :
    Decoder.ReadI w ⟨PutUint w.bytes (toUnsigned w.bits i) ++ r⟩ = (.ok i, ⟨r⟩) := by
  rw [ReadI_eq, binaryRead_front _ _ _ (PutUint_length _ _) w.bytes_pos]
  simp only [Uint_PutUint, Width.pow_bits]
  have hb : 0 < w.bits := by cases w <;> decide
  have hm : toUnsigned w.bits i % 2 ^ w.bits = toUnsigned w.bits i := by
    apply Nat.mod_eq_of_lt
    have hnn : 0 ≤ i % 2 ^ w.bits := Int.emod_nonneg _ (by positivity)
    have hlt : i % 2 ^ w.bits < 2 ^ w.bits := Int.emod_lt_of_pos _ (by positivity)
    have : ((toUnsigned w.bits i : Nat) : Int) < ((2 ^ w.bits : Nat) : Int) := by
      simp only [toUnsigned]
      rw [Int.toNat_of_nonneg hnn]; push_cast; exact hlt
    exact_mod_cast this
  rw [hm, toSigned_toUnsigned _ _ hb h1 h2]

theorem WriteBoolean_buf (e : Encoder) (b : Bool) :
    (e.WriteBoolean b).buf = e.buf ++ [if b then 1 else 0] := by
  cases b <;>
    simp [Encoder.WriteBoolean, Encoder.WriteU8, bufferWrite_buf, reserveCapacity_buf, PutUint, byte]

theorem ReadBoolean_cons (b : Bool) (r : List Byte) :
    Decoder.ReadBoolean ⟨[if b then 1 else 0] ++ r⟩ = (.ok b, ⟨r⟩) := by
  have h := binaryRead_front [if b then (1 : Byte) else 0] r 1 rfl (by decide)
  simp only [Decoder.ReadBoolean, Decoder.ReadU8, h]
  cases b <;> rfl

theorem WriteString_buf (e : Encoder) (s : List Byte) :
    (e.WriteString s).buf = e.buf ++ (PutUint 4 (s.length % 2 ^ 32) ++ s) := by
  simp [Encoder.WriteString, Encoder.WriteU32, bufferWrite_buf, reserveCapacity_buf]

theorem WriteU32_buf (e : Encoder) (u : Nat) : (e.WriteU32 u).buf = e.buf ++ PutUint 4 u :=
  WriteU_buf .w32 e u

theorem ReadU32_PutUint (v : Nat) (r : List Byte) :
    Decoder.ReadU32 ⟨PutUint 4 v ++ r⟩ = (.ok (v % 2 ^ 32), ⟨r⟩) :=
  ReadU_PutUint .w32 v r

theorem ReadString_front (s r : List Byte) (h : s.length < 2 ^ 32) :
    Decoder.ReadString ⟨(PutUint 4 (s.length % 2 ^ 32) ++ s) ++ r⟩ = (.ok s, ⟨r⟩) := by
  rw [List.append_assoc]
  simp only [Decoder.ReadString, ReadU32_PutUint, bufferNext]
  rw [Nat.mod_mod, Nat.mod_eq_of_lt h]
  simp

theorem roundTrip_bool (b z : Bool) : RoundTrip boolEncoder boolDecoder (.bool z) (.bool b) := by
  refine ⟨[if b then 1 else 0], fun e => ⟨e.WriteBoolean b, rfl, WriteBoolean_buf e b⟩, fun r => ?_⟩
  simp only [boolDecoder, ReadBoolean_cons]

theorem uintEncoder_eq (w : Width) (n : Nat) (e : Encoder) :
    uintEncoder e (.uint w n) = .done (e.WriteU w (n % 2 ^ w.bits)) := by
  cases w <;> rfl

theorem uintDecoder_eq (w : Width) (z : Nat) (d : Decoder) :
    uintDecoder d (.uint w z) =
      match d.ReadU w with
      | (.error err, d1) => ⟨some err, d1, .uint w z⟩
      | (.ok u, d1) => ⟨none, d1, .uint w (u % 2 ^ w.bits)⟩ := by
  cases w <;> rfl

theorem roundTrip_uint (w : Width) (n z : Nat) (h : n < 2 ^ w.bits) :
    RoundTrip uintEncoder uintDecoder (.uint w z) (.uint w n) := by
  refine ⟨PutUint w.bytes n, fun e => ⟨e.WriteU w (n % 2 ^ w.bits), uintEncoder_eq w n e, ?_⟩,
    fun r => ?_⟩
  · rw [WriteU_buf, Nat.mod_eq_of_lt h]
  · rw [uintDecoder_eq, ReadU_PutUint]
    simp only [Nat.mod_mod, Nat.mod_eq_of_lt h]

theorem intEncoder_eq (w : Width) (i : Int) (e : Encoder) :
    intEncoder e (.int w i) = .done (e.WriteI w i) := by
  cases w <;> rfl

theorem intDecoder_eq (w : Width) (z : Int) (d : Decoder) :
    intDecoder d (.int w z) =
      match d.ReadI w with
      | (.error err, d1) => ⟨some err, d1, .int w z⟩
      | (.ok i, d1) => ⟨none, d1, .int w i⟩ := by
  cases w <;> rfl

theorem roundTrip_int (w : Width) (i z : Int)
    (h1 : -(2 ^ (w.bits - 1) : Int) ≤ i) (h2 : i < 2 ^ (w.bits - 1)) :
    RoundTrip intEncoder intDecoder (.int w z) (.int w i) := by
  refine ⟨PutUint w.bytes (toUnsigned w.bits i),
    fun e => ⟨e.WriteI w i, intEncoder_eq w i e, WriteI_buf w e i⟩, fun r => ?_⟩
  rw [intDecoder_eq, ReadI_PutUint w i r h1 h2]

theorem quiet32_eq (bits : Nat) (h : isNaN32 bits = false) : quiet32 bits = bits := by
  simp [quiet32, h]

theorem roundTrip_float32 (bits z : Nat) (h1 : bits < 2 ^ 32) (h2 : isNaN32 bits = false) :
    RoundTrip floatEncoder floatDecoder (.float32 z) (.float32 bits) := by
  refine ⟨PutUint 4 bits, fun e => ⟨e.WriteF32 bits, ?_, ?_⟩, fun r => ?_⟩
  · simp only [floatEncoder, quiet32_eq bits h2]
  · simp only [Encoder.WriteF32, bufferWrite_buf, reserveCapacity_buf]
  · have h := ReadU_PutUint .w32 bits r
    simp only [Decoder.ReadU, Decoder.ReadU32, Width.bytes, Width.bits] at h
    simp only [floatDecoder, Decoder.ReadF32, h]
    rw [Nat.mod_eq_of_lt h1, quiet32_eq bits h2]

theorem roundTrip_float64 (bits z : Nat) (h1 : bits < 2 ^ 64) :
    RoundTrip floatEncoder floatDecoder (.float64 z) (.float64 bits) := by
  refine ⟨PutUint 8 bits, fun e => ⟨e.WriteF64 bits, rfl, ?_⟩, fun r => ?_⟩
  · simp only [Encoder.WriteF64, bufferWrite_buf, reserveCapacity_buf]
  · have h := ReadU_PutUint .w64 bits r
    simp only [Decoder.ReadU, Decoder.ReadU64, Width.bytes, Width.bits] at h
    simp only [floatDecoder, Decoder.ReadF64, h]
    rw [Nat.mod_eq_of_lt h1]

theorem roundTrip_string (s z : List Byte) (h : s.length < 2 ^ 32) :
    RoundTrip stringEncoder stringDecoder (.string z) (.string s) := by
  refine ⟨PutUint 4 (s.length % 2 ^ 32) ++ s,
    fun e => ⟨e.WriteString s, rfl, WriteString_buf e s⟩, fun r => ?_⟩
  simp only [stringDecoder, ReadString_front s r h]

theorem roundTrip_elems (f : encoderFunc) (g : decoderFunc) (z : Value) (xs : List Value)
    (h : ∀ x ∈ xs, RoundTrip f g z x) :
    ∃ bs, (∀ e, ∃ e1, encodeElems f e xs = .done e1 ∧ e1.buf = e.buf ++ bs) ∧
      ∀ r, decodeElems g ⟨bs ++ r⟩ (List.replicate xs.length z) = (none, ⟨r⟩, xs) := by
  induction xs with
  | nil => exact ⟨[], fun e => ⟨e, rfl, by simp⟩, fun r => rfl⟩
  | cons x xs ih =>
    obtain ⟨b1, he1, hd1⟩ := h x (List.mem_cons_self _ _)
    obtain ⟨b2, he2, hd2⟩ := ih (fun y hy => h y (List.mem_cons_of_mem _ hy))
    refine ⟨b1 ++ b2, fun e => ?_, fun r => ?_⟩
    · obtain ⟨e1, h1, h1b⟩ := he1 e
      obtain ⟨e2, h2, h2b⟩ := he2 e1
      refine ⟨e2, ?_, ?_⟩
      · simp only [encodeElems, h1, h2]
      · rw [h2b, h1b, List.append_assoc]
    · simp only [List.length_cons, List.replicate_succ, decodeElems]
      rw [List.append_assoc, hd1 (b2 ++ r)]
      simp only [hd2 r]

theorem roundTrip_array (f : encoderFunc) (g : decoderFunc) (z : Value) (xs : List Value)
    (h : ∀ x ∈ xs, RoundTrip f g z x) :
    RoundTrip (arrayEncoder_encode f) (arrayDecoder_decode g)
      (.array (List.replicate xs.length z)) (.array xs) := by
  obtain ⟨bs, he, hd⟩ := roundTrip_elems f g z xs h
  refine ⟨bs, fun e => he e, fun r => ?_⟩
  simp only [arrayDecoder_decode, hd r]

theorem roundTrip_slice (elem : GoType) (f : encoderFunc) (g : decoderFunc) (z0 : Value)
    (xs : List Value) (hl : xs.length < 2 ^ 32) (h : ∀ x ∈ xs, RoundTrip f g (zero elem) x) :
    RoundTrip (sliceEncoder_encode f) (sliceDecoder_decode elem g) z0 (.slice xs) := by
  obtain ⟨bs, he, hd⟩ := roundTrip_elems f g (zero elem) xs h
  refine ⟨PutUint 4 (xs.length % 2 ^ 32) ++ bs, fun e => ?_, fun r => ?_⟩
  · obtain ⟨e1, h1, h1b⟩ := he (e.WriteU32 (xs.length % 2 ^ 32))
    exact ⟨e1, h1, by rw [h1b, WriteU32_buf, List.append_assoc]⟩
  · simp only [sliceDecoder_decode, List.append_assoc, ReadU32_PutUint, Nat.mod_mod,
      Nat.mod_eq_of_lt hl, hd r]

theorem roundTrip_option_nil (elem : GoType) (f : encoderFunc) (g : decoderFunc) :
    RoundTrip (optionEncoder_encode f) (optionDecoder_decode elem g) .nilPtr .nilPtr := by
  refine ⟨[0], fun e => ⟨e.WriteBoolean false, rfl, WriteBoolean_buf e false⟩, fun r => ?_⟩
  have hb := ReadBoolean_cons false r
  simp only [Bool.false_eq_true, if_false] at hb
  simp only [optionDecoder_decode, hb]

theorem roundTrip_option_some (elem : GoType) (f : encoderFunc) (g : decoderFunc) (z0 x : Value)
    (h : RoundTrip f g (zero elem) x) :
    RoundTrip (optionEncoder_encode f) (optionDecoder_decode elem g) z0 (.ptr x) := by
  obtain ⟨bs, he, hd⟩ := h
  refine ⟨[1] ++ bs, fun e => ?_, fun r => ?_⟩
  · obtain ⟨e1, h1, h1b⟩ := he (e.WriteBoolean true)
    exact ⟨e1, h1, by rw [h1b, WriteBoolean_buf, List.append_assoc]; rfl⟩
  · have hb := ReadBoolean_cons true (bs ++ r)
    simp only [if_true] at hb
    simp only [optionDecoder_decode, List.append_assoc, hb, hd r]

theorem SetMapIndex_fresh (m : List (Value × Value)) (k v : Value)
    (h : ∀ kv ∈ m, keyEq kv.1 k = false) : SetMapIndex m k v = m ++ [(k, v)] := by
  induction m with
  | nil => rfl
  | cons a m ih =>
    obtain ⟨k1, v1⟩ := a
    have h1 : keyEq k1 k = false := h (k1, v1) (List.mem_cons_self _ _)
    simp only [SetMapIndex, h1, Bool.false_eq_true, if_false, List.cons_append]
    rw [ih (fun kv hkv => h kv (List.mem_cons_of_mem _ hkv))]

theorem roundTrip_entries (key elem : GoType) (fk fv : encoderFunc) (gk gv : decoderFunc)
    (es : List (Value × Value))
    (h : ∀ kv ∈ es, RoundTrip fk gk (zero key) kv.1 ∧ RoundTrip fv gv (zero elem) kv.2)
    (hd : distinctKeys es = true) :
    ∃ bs, (∀ e, ∃ e1, encodeEntries fk fv e es = .done e1 ∧ e1.buf = e.buf ++ bs) ∧
      ∀ r m, (∀ a ∈ m, ∀ b ∈ es, keyEq a.1 b.1 = false) →
        decodeEntries key elem gk gv es.length ⟨bs ++ r⟩ m = (none, ⟨r⟩, m ++ es) := by
  induction es with
  | nil => exact ⟨[], fun e => ⟨e, rfl, by simp⟩, fun r m _ => by simp [decodeEntries]⟩
  | cons a es ih =>
    obtain ⟨k, v⟩ := a
    obtain ⟨⟨b1, he1, hd1⟩, ⟨b2, he2, hd2⟩⟩ := h (k, v) (List.mem_cons_self _ _)
    simp only [distinctKeys, Bool.and_eq_true, List.all_eq_true, Bool.not_eq_true'] at hd
    obtain ⟨b3, he3, hd3⟩ := ih (fun y hy => h y (List.mem_cons_of_mem _ hy)) hd.2
    refine ⟨b1 ++ (b2 ++ b3), fun e => ?_, fun r m hm => ?_⟩
    · obtain ⟨e1, h1, h1b⟩ := he1 e
      obtain ⟨e2, h2, h2b⟩ := he2 e1
      obtain ⟨e3, h3, h3b⟩ := he3 e2
      refine ⟨e3, ?_, ?_⟩
      · simp only [encodeEntries, h1, h2, h3]
      · rw [h3b, h2b, h1b]; simp
    · have hd1r := hd1 ((b2 ++ b3) ++ r)
      have hd2r := hd2 (b3 ++ r)
      simp only [List.append_assoc] at hd1r hd2r ⊢
      simp only [List.length_cons, decodeEntries, hd1r, hd2r]
      rw [SetMapIndex_fresh m k v (fun a ha => hm a ha (k, v) (List.mem_cons_self _ _))]
      rw [hd3 r (m ++ [(k, v)])]
      · simp
      · intro a ha b hb
        rcases List.mem_append.mp ha with ha | ha
        · exact hm a ha b (List.mem_cons_of_mem _ hb)
        · simp only [List.mem_singleton] at ha
          subst ha
          exact hd.1 b hb

theorem roundTrip_keys (key : GoType) (fk : encoderFunc) (gk : decoderFunc)
    (es : List (Value × Value))
    (h : ∀ kv ∈ es, RoundTrip fk gk (zero key) kv.1 ∧ kv.2 = .bool true)
    (hd : distinctKeys es = true) :
    ∃ bs, (∀ e, ∃ e1, encodeKeys fk e es = .done e1 ∧ e1.buf = e.buf ++ bs) ∧
      ∀ r m, (∀ a ∈ m, ∀ b ∈ es, keyEq a.1 b.1 = false) →
        decodeKeys key gk es.length ⟨bs ++ r⟩ m = (none, ⟨r⟩, m ++ es) := by
  induction es with
  | nil => exact ⟨[], fun e => ⟨e, rfl, by simp⟩, fun r m _ => by simp [decodeKeys]⟩
  | cons a es ih =>
    obtain ⟨k, v⟩ := a
    obtain ⟨⟨b1, he1, hd1⟩, hv⟩ := h (k, v) (List.mem_cons_self _ _)
    simp only at hv
    subst hv
    simp only [distinctKeys, Bool.and_eq_true, List.all_eq_true, Bool.not_eq_true'] at hd
    obtain ⟨b3, he3, hd3⟩ := ih (fun y hy => h y (List.mem_cons_of_mem _ hy)) hd.2
    refine ⟨b1 ++ b3, fun e => ?_, fun r m hm => ?_⟩
    · obtain ⟨e1, h1, h1b⟩ := he1 e
      obtain ⟨e3, h3, h3b⟩ := he3 e1
      refine ⟨e3, ?_, ?_⟩
      · simp only [encodeKeys, h1, h3]
      · rw [h3b, h1b]; simp
    · have hd1r := hd1 (b3 ++ r)
      simp only [List.append_assoc] at hd1r ⊢
      simp only [List.length_cons, decodeKeys, hd1r]
      rw [SetMapIndex_fresh m k _ (fun a ha => hm a ha (k, Value.bool true) (List.mem_cons_self _ _))]
      rw [hd3 r (m ++ [(k, Value.bool true)])]
      · simp
      · intro a ha b hb
        rcases List.mem_append.mp ha with ha | ha
        · exact hm a ha b (List.mem_cons_of_mem _ hb)
        · simp only [List.mem_singleton] at ha
          subst ha
          exact hd.1 b hb

theorem roundTrip_map (key elem : GoType) (fk fv : encoderFunc) (gk gv : decoderFunc)
    (z0 : Value) (es : List (Value × Value)) (hl : es.length < 2 ^ 32)
    (h : ∀ kv ∈ es, RoundTrip fk gk (zero key) kv.1 ∧ RoundTrip fv gv (zero elem) kv.2)
    (hd : distinctKeys es = true) :
    RoundTrip (mapEncoder_encode fk fv) (mapDecoder_decode key elem gk gv) z0 (.map es) := by
  obtain ⟨bs, he, hdec⟩ := roundTrip_entries key elem fk fv gk gv es h hd
  refine ⟨PutUint 4 (es.length % 2 ^ 32) ++ bs, fun e => ?_, fun r => ?_⟩
  · obtain ⟨e1, h1, h1b⟩ := he (e.WriteU32 (es.length % 2 ^ 32))
    exact ⟨e1, h1, by rw [h1b, WriteU32_buf, List.append_assoc]⟩
  · simp only [mapDecoder_decode, List.append_assoc, ReadU32_PutUint, Nat.mod_mod,
      Nat.mod_eq_of_lt hl]
    rw [hdec r [] (fun a ha => by cases ha)]
    rfl

theorem roundTrip_set (key : GoType) (fk : encoderFunc) (gk : decoderFunc)
    (z0 : Value) (es : List (Value × Value)) (hl : es.length < 2 ^ 32)
    (h : ∀ kv ∈ es, RoundTrip fk gk (zero key) kv.1 ∧ kv.2 = .bool true)
    (hd : distinctKeys es = true) :
    RoundTrip (setEncoder_encode fk) (setDecoder_decode key gk) z0 (.map es) := by
  obtain ⟨bs, he, hdec⟩ := roundTrip_keys key fk gk es h hd
  refine ⟨PutUint 4 (es.length % 2 ^ 32) ++ bs, fun e => ?_, fun r => ?_⟩
  · obtain ⟨e1, h1, h1b⟩ := he (e.WriteU32 (es.length % 2 ^ 32))
    exact ⟨e1, h1, by rw [h1b, WriteU32_buf, List.append_assoc]⟩
  · simp only [setDecoder_decode, List.append_assoc, ReadU32_PutUint, Nat.mod_mod,
      Nat.mod_eq_of_lt hl]
    rw [hdec r [] (fun a ha => by cases ha)]
    rfl

theorem newTypeEncoder_map (key elem : GoType) :
    newTypeEncoder (.map key elem) =
      if elem.isBool then setEncoder_encode (newTypeEncoder key)
      else mapEncoder_encode (newTypeEncoder key) (newTypeEncoder elem) := by
  simp only [newTypeEncoder]

theorem newTypeDecoder_map (key elem : GoType) :
    newTypeDecoder (.map key elem) =
      if elem.isBool then setDecoder_decode key (newTypeDecoder key)
      else mapDecoder_decode key elem (newTypeDecoder key) (newTypeDecoder elem) := by
  simp only [newTypeDecoder]

theorem isTrueValue_eq (v : Value) (h : isTrueValue v = true) : v = .bool true := by
  cases v with
  | bool b => cases b <;> simp_all [isTrueValue]
  | _ => simp [isTrueValue] at h

mutual
theorem roundTrip_type : (t : GoType) → (v : Value) → faithful t v = true →
    RoundTrip (newTypeEncoder t) (newTypeDecoder t) (zero t) v
  | .bool, v, h => by
    cases v <;> try (simp [faithful] at h; done)
    case bool b =>
      simp only [newTypeEncoder, newTypeDecoder, zero]
      exact roundTrip_bool b false
  | .uint w, v, h => by
    cases v <;> try (simp [faithful] at h; done)
    case uint w1 n =>
      simp only [faithful, Bool.and_eq_true, beq_iff_eq, decide_eq_true_eq] at h
      obtain ⟨rfl, hn⟩ := h
      simp only [newTypeEncoder, newTypeDecoder, zero]
      exact roundTrip_uint w n 0 hn
  | .int w, v, h => by
    cases v <;> try (simp [faithful] at h; done)
    case int w1 i =>
      simp only [faithful, Bool.and_eq_true, beq_iff_eq, decide_eq_true_eq] at h
      obtain ⟨⟨rfl, h1⟩, h2⟩ := h
      simp only [newTypeEncoder, newTypeDecoder, zero]
      exact roundTrip_int w i 0 h1 h2
  | .float32, v, h => by
    cases v <;> try (simp [faithful] at h; done)
    case float32 bits =>
      simp only [faithful, Bool.and_eq_true, decide_eq_true_eq, Bool.not_eq_true_eq_eq_false] at h
      simp only [newTypeEncoder, newTypeDecoder, zero]
      exact roundTrip_float32 bits 0 h.1 h.2
  | .float64, v, h => by
    cases v <;> try (simp [faithful] at h; done)
    case float64 bits =>
      simp only [faithful, Bool.and_eq_true, decide_eq_true_eq] at h
      simp only [newTypeEncoder, newTypeDecoder, zero]
      exact roundTrip_float64 bits 0 h.1
  | .array elem len, v, h => by
    cases v <;> try (simp [faithful] at h; done)
    case array xs =>
      simp only [faithful, Bool.and_eq_true, beq_iff_eq, List.all_eq_true] at h
      obtain ⟨rfl, hx⟩ := h
      simp only [newTypeEncoder, newTypeDecoder, zero]
      exact roundTrip_array _ _ _ xs (fun x hxm => roundTrip_type elem x (hx x hxm))
  | .slice elem, v, h => by
    cases v <;> try (simp [faithful] at h; done)
    case slice xs =>
      simp only [faithful, Bool.and_eq_true, decide_eq_true_eq, List.all_eq_true] at h
      obtain ⟨hl, hx⟩ := h
      simp only [newTypeEncoder, newTypeDecoder]
      exact roundTrip_slice elem _ _ _ xs hl (fun x hxm => roundTrip_type elem x (hx x hxm))
  | .struct fields, v, h => by
    cases v <;> try (simp [faithful] at h; done)
    case struct vs =>
      simp only [faithful] at h
      obtain ⟨bs, he, hd⟩ := roundTrip_fields fields vs h
      refine ⟨bs, fun e => he e, fun r => ?_⟩
      simp only [newTypeDecoder, zero, structDecoder_decode, hd r]
  | .map key elem, v, h => by
    cases v <;> try (simp [faithful] at h; done)
    case map es =>
      simp only [faithful, Bool.and_eq_true, decide_eq_true_eq, List.all_eq_true] at h
      obtain ⟨⟨⟨_, hl⟩, hd⟩, hx⟩ := h
      rw [newTypeEncoder_map, newTypeDecoder_map]
      by_cases hb : elem.isBool = true
      · simp only [hb, if_true] at hx ⊢
        exact roundTrip_set key _ _ _ es hl
          (fun kv hkv => ⟨roundTrip_type key kv.1 (hx kv hkv).1, isTrueValue_eq _ (hx kv hkv).2⟩) hd
      · simp only [hb, Bool.false_eq_true, if_false] at hx ⊢
        exact roundTrip_map key elem _ _ _ _ _ es hl
          (fun kv hkv => ⟨roundTrip_type key kv.1 (hx kv hkv).1,
            roundTrip_type elem kv.2 (hx kv hkv).2⟩) hd
  | .ptr elem, v, h => by
    cases v <;> try (simp [faithful] at h; done)
    case nilPtr =>
      simp only [newTypeEncoder, newTypeDecoder, zero]
      exact roundTrip_option_nil elem _ _
    case ptr x =>
      simp only [faithful] at h
      simp only [newTypeEncoder, newTypeDecoder]
      exact roundTrip_option_some elem _ _ _ x (roundTrip_type elem x h)
  | .string, v, h => by
    cases v <;> try (simp [faithful] at h; done)
    case string s =>
      simp only [faithful, decide_eq_true_eq] at h
      simp only [newTypeEncoder, newTypeDecoder, zero]
      exact roundTrip_string s [] h
  | .unsupported, v, h => by simp [faithful] at h
theorem roundTrip_fields : (ts : List GoType) → (vs : List Value) → faithfulFields ts vs = true →
    ∃ bs, (∀ e, ∃ e1, encodeFields (newStructEncoder ts) e vs = .done e1 ∧ e1.buf = e.buf ++ bs) ∧
      ∀ r, decodeFields (newStructDecoder ts) ⟨bs ++ r⟩ (zeros ts) = (none, ⟨r⟩, vs)
  | [], vs, h => by
    cases vs with
    | nil => exact ⟨[], fun e => ⟨e, rfl, by simp⟩, fun r => rfl⟩
    | cons v vs => simp [faithfulFields] at h
  | t :: ts, vs, h => by
    cases vs with
    | nil => simp [faithfulFields] at h
    | cons v vs =>
      simp only [faithfulFields, Bool.and_eq_true] at h
      obtain ⟨b1, he1, hd1⟩ := roundTrip_type t v h.1
      obtain ⟨b2, he2, hd2⟩ := roundTrip_fields ts vs h.2
      refine ⟨b1 ++ b2, fun e => ?_, fun r => ?_⟩
      · obtain ⟨e1, h1, h1b⟩ := he1 e
        obtain ⟨e2, h2, h2b⟩ := he2 e1
        refine ⟨e2, ?_, ?_⟩
        · simp only [newStructEncoder, encodeFields, h1, h2]
        · rw [h2b, h1b, List.append_assoc]
      · simp only [newStructDecoder, zeros, decodeFields]
        rw [List.append_assoc, hd1 (b2 ++ r)]
        simp only [hd2 r]
end

/-! ## Round trips through `Marshal` and `Unmarshal` -/

theorem Marshal_of_emits (t : GoType) (x : Value) (bs : List Byte)
    (he : Emits (newTypeEncoder t) x bs) : Marshal t x = .returned bs none := by
  obtain ⟨e1, h1, h1b⟩ := he NewEncoder
  rw [Marshal, h1]
  simp only [Encoder.Finish, h1b, NewEncoder, List.nil_append]

theorem Unmarshal_Marshal (t : GoType) (x : Value) (h : faithful t x = true) :
    ∃ bytes, Marshal t x = .returned bytes none ∧ Unmarshal bytes t (zero t) = (none, x) := by
  obtain ⟨bs, he, hd⟩ := roundTrip_type t x h
  refine ⟨bs, Marshal_of_emits t x bs he, ?_⟩
  have := hd []
  simp only [List.append_nil] at this
  simp only [Unmarshal, NewDecoder, Decoder.reflectValue, this]

/-- Claim C1, as amended: for every type built from booleans, integers, floats,
fixed arrays, sequences, strings, records, maps, sets and optionals, and every
faithful value `x` of it (no float a NaN, lengths and counts below `2^32`, no nil
sequence or map, every set entry `true`), `Marshal` returns bytes and a nil
error, and `Unmarshal` of these bytes into a fresh target returns no error and
leaves `x` in the target. -/
theorem round_trip (t : GoType) (x : Value) (h : faithful t x = true) :
    ∃ bytes, Marshal t x = .returned bytes none ∧ Unmarshal bytes t (zero t) = (none, x) :=
  Unmarshal_Marshal t x h

theorem round_trip_witness :
    faithful readingType readingValue = true ∧
    (∃ bytes, Marshal readingType readingValue = .returned bytes none ∧
      Unmarshal bytes readingType (zero readingType) = (none, readingValue)) ∧
    Marshal .float32 (.float32 0x40490FD8) = .returned [0xD8, 0x0F, 0x49, 0x40] none ∧
    Unmarshal [0xD8, 0x0F, 0x49, 0x40] .float32 (zero .float32) = (none, .float32 0x40490FD8) ∧
    Marshal .float64 (.float64 0x400921FAFC8B007A) =
      .returned [0x7A, 0x00, 0x8B, 0xFC, 0xFA, 0x21, 0x09, 0x40] none ∧
    Unmarshal [0x7A, 0x00, 0x8B, 0xFC, 0xFA, 0x21, 0x09, 0x40] .float64 (zero .float64) =
      (none, .float64 0x400921FAFC8B007A) :=
  ⟨by decide, round_trip readingType readingValue (by decide), rfl, rfl, rfl, rfl⟩

/-- Claim C1, counterexample: the set `map[uint8]bool{5: false}` is written as a count
and the key, and comes back as `{5: true}`, which is not the value encoded.  Among
floats only a NaN fails to come back equal: the signalling NaN `0x7fa00000` is
written and read back as the quiet NaN `0x7fe00000`, and no NaN is `==` to
itself. -/
theorem round_trip_fails_on_false_entry :
    Marshal (.map (.uint .w8) .bool) (.map [(.uint .w8 5, .bool false)]) =
      .returned [1, 0, 0, 0, 5] none ∧
    Unmarshal [1, 0, 0, 0, 5] (.map (.uint .w8) .bool) (zero (.map (.uint .w8) .bool)) =
      (none, .map [(.uint .w8 5, .bool true)]) ∧
    Value.map [(.uint .w8 5, .bool true)] ≠ Value.map [(.uint .w8 5, .bool false)] ∧
    Marshal .float32 (.float32 0x7fa00000) = .returned [0x00, 0x00, 0xe0, 0x7f] none ∧
    Unmarshal [0x00, 0x00, 0xe0, 0x7f] .float32 (zero .float32) = (none, .float32 0x7fe00000) ∧
    Value.float32 0x7fe00000 ≠ Value.float32 0x7fa00000 ∧
    keyEq (.float32 0x7fe00000) (.float32 0x7fe00000) = false := by
  refine ⟨rfl, rfl, fun hp => ?_, rfl, rfl, fun hp => ?_, rfl⟩
  · simp at hp
  · simp at hp

/-- Claim C2, as amended: for every plain type (booleans, integers, strings, fixed
arrays, sequences, records, optionals), every faithful value `x` of it (every
string and sequence shorter than `2^32`, no sequence nil) and every byte
string `r`, a decoder over `Marshal(x) ++ r` decoding into a fresh target
returns no error, leaves `x` in the target and leaves exactly `r` as remainder. -/
theorem round_trip_with_trailing_data (t : GoType) (x : Value) (r : List Byte)
    (_hp : plain t = true) (h : faithful t x = true) :
    ∃ bytes, Marshal t x = .returned bytes none ∧
      ((NewDecoder (bytes ++ r)).reflectValue t (zero t)).err = none ∧
      ((NewDecoder (bytes ++ r)).reflectValue t (zero t)).v = x ∧
      ((NewDecoder (bytes ++ r)).reflectValue t (zero t)).d.Remainder = r := by
  obtain ⟨bs, he, hd⟩ := roundTrip_type t x h
  refine ⟨bs, Marshal_of_emits t x bs he, ?_⟩
  simp only [NewDecoder, Decoder.reflectValue, hd r, Decoder.Remainder, and_self]

theorem round_trip_with_trailing_data_witness :
    plain eventType = true ∧ faithful eventType eventValue = true ∧
    ∃ bytes, Marshal eventType eventValue = .returned bytes none ∧
      ((NewDecoder (bytes ++ [0x01, 0x02, 0x02])).reflectValue eventType (zero eventType)).err = none ∧
      ((NewDecoder (bytes ++ [0x01, 0x02, 0x02])).reflectValue eventType (zero eventType)).v =
        eventValue ∧
      ((NewDecoder (bytes ++ [0x01, 0x02, 0x02])).reflectValue eventType
        (zero eventType)).d.Remainder = [0x01, 0x02, 0x02] :=
  ⟨by decide, by decide,
    round_trip_with_trailing_data eventType eventValue [0x01, 0x02, 0x02] (by decide) (by decide)⟩

/-- Claim C2, counterexample: a nil `[]uint8` is written as the count `0`; decoding
these bytes (followed by `[7]`) into a fresh target succeeds and leaves `[7]`,
but the target then holds an empty non-nil slice, not the nil slice encoded. -/
theorem nil_slice_comes_back_empty :
    Marshal (.slice (.uint .w8)) .nilSlice = .returned [0, 0, 0, 0] none ∧
    ((NewDecoder ([0, 0, 0, 0] ++ [7])).reflectValue (.slice (.uint .w8))
      (zero (.slice (.uint .w8)))).err = none ∧
    ((NewDecoder ([0, 0, 0, 0] ++ [7])).reflectValue (.slice (.uint .w8))
      (zero (.slice (.uint .w8)))).v = .slice [] ∧
    ((NewDecoder ([0, 0, 0, 0] ++ [7])).reflectValue (.slice (.uint .w8))
      (zero (.slice (.uint .w8)))).d.Remainder = [7] ∧
    Value.slice [] ≠ Value.nilSlice := by
  refine ⟨rfl, rfl, rfl, rfl, fun hp => ?_⟩
  cases hp

theorem nilMap_comes_back_empty (key elem : GoType) :
    Marshal (.map key elem) .nilMap = .returned [0, 0, 0, 0] none ∧
      Unmarshal [0, 0, 0, 0] (.map key elem) (zero (.map key elem)) = (none, .map []) := by
  have h0 : Decoder.ReadU32 ⟨[0, 0, 0, 0]⟩ = (.ok 0, ⟨[]⟩) := ReadU32_PutUint 0 []
  by_cases hb : elem.isBool = true
  · refine ⟨?_, ?_⟩
    · simp only [Marshal, newTypeEncoder, hb, if_true, setEncoder_encode]
      rfl
    · simp only [Unmarshal, NewDecoder, Decoder.reflectValue, newTypeDecoder, hb, if_true,
        setDecoder_decode, h0, decodeKeys]
  · refine ⟨?_, ?_⟩
    · simp only [Marshal, newTypeEncoder, hb, Bool.false_eq_true, if_false, mapEncoder_encode]
      rfl
    · simp only [Unmarshal, NewDecoder, Decoder.reflectValue, newTypeDecoder, hb,
        Bool.false_eq_true, if_false, mapDecoder_decode, h0, decodeEntries]

/-- Claim C4, as amended: for every map `m` with fewer than `2^32` entries, keys of a
key kind and values not of kind bool, all faithful (strings shorter than
`2^32` bytes), and for every order `m1` in which the encoder iterates the
entries, `Unmarshal(Marshal(m))` into a fresh target returns no error and
leaves a map whose entries are exactly the entries of `m`; a nil map comes
back as the empty map. -/
theorem map_round_trip (key elem : GoType) (m m1 : List (Value × Value)) (hperm : m1.Perm m)
    (_hb : elem.isBool = false) (h : faithful (.map key elem) (.map m1) = true) :
    (∃ bytes res, Marshal (.map key elem) (.map m1) = .returned bytes none ∧
      Unmarshal bytes (.map key elem) (zero (.map key elem)) = (none, .map res) ∧
      res.Perm m) ∧
    (Marshal (.map key elem) .nilMap = .returned [0, 0, 0, 0] none ∧
      Unmarshal [0, 0, 0, 0] (.map key elem) (zero (.map key elem)) = (none, .map [])) := by
  obtain ⟨bytes, h1, h2⟩ := Unmarshal_Marshal (.map key elem) (.map m1) h
  exact ⟨⟨bytes, m1, h1, h2, hperm⟩, nilMap_comes_back_empty key elem⟩

theorem map_round_trip_witness :
    cabEntries.Perm abcEntries ∧ (GoType.uint .w8).isBool = false ∧
    faithful stringToU8 (.map cabEntries) = true ∧
    (∃ bytes res, Marshal (.map .string (.uint .w8)) (.map cabEntries) = .returned bytes none ∧
      Unmarshal bytes (.map .string (.uint .w8)) (zero (.map .string (.uint .w8))) =
        (none, .map res) ∧
      res.Perm abcEntries) ∧
    (Marshal (.map .string (.uint .w8)) .nilMap = .returned [0, 0, 0, 0] none ∧
      Unmarshal [0, 0, 0, 0] (.map .string (.uint .w8)) (zero (.map .string (.uint .w8))) =
        (none, .map [])) :=
  ⟨(List.Perm.swap _ _ _).trans ((List.Perm.swap _ _ _).cons _), rfl, by decide,
    map_round_trip .string (.uint .w8) abcEntries cabEntries
      ((List.Perm.swap _ _ _).trans ((List.Perm.swap _ _ _).cons _)) rfl (by decide)⟩

theorem Marshal_string_u8_entry (s : List Byte) (v : Nat) :
    Marshal (.map .string (.uint .w8)) (.map [(.string s, .uint .w8 v)]) =
      .returned (PutUint 4 1 ++ ((PutUint 4 (s.length % 2 ^ 32) ++ s) ++ PutUint 1 (v % 2 ^ 8))) none := by
  apply Marshal_of_emits
  intro e
  refine ⟨((e.WriteU32 (1 % 2 ^ 32)).WriteString s).WriteU8 (v % 2 ^ 8), rfl, ?_⟩
  have h8 : ∀ (e : Encoder) (u : Nat), (e.WriteU8 u).buf = e.buf ++ PutUint 1 u := WriteU_buf .w8
  rw [h8, WriteString_buf, WriteU32_buf]
  simp only [List.append_assoc]
  rfl

theorem Marshal_long_key (R : List Byte) (v : Nat) (hv : v < 256)
    (hlen : (0 :: R : List Byte).length % 2 ^ 32 = 0) :
    Marshal (.map .string (.uint .w8)) (.map [(.string (0 :: R), .uint .w8 v)]) =
      .returned ([1, 0, 0, 0] ++ ([0, 0, 0, 0] ++ 0 :: (R ++ [byte v]))) none := by
  rw [Marshal_string_u8_entry, hlen]
  have h1 : PutUint 1 (v % 2 ^ 8) = [byte v] := by
    have : v % 2 ^ 8 = v := Nat.mod_eq_of_lt hv
    rw [this]
    rfl
  rw [h1]
  simp only [List.append_assoc, List.cons_append]
  rfl

theorem Unmarshal_empty_key (b : Byte) (rest : List Byte) :
    Unmarshal ([1, 0, 0, 0] ++ ([0, 0, 0, 0] ++ b :: rest)) (.map .string (.uint .w8))
        (zero (.map .string (.uint .w8))) =
      (none, .map [(.string [], .uint .w8 b.val)]) := by
  have h1 : Decoder.ReadU32 ⟨[1, 0, 0, 0] ++ ([0, 0, 0, 0] ++ b :: rest)⟩ =
      (.ok 1, ⟨[0, 0, 0, 0] ++ b :: rest⟩) := ReadU32_PutUint 1 _
  have h2 : Decoder.ReadU32 ⟨[0, 0, 0, 0] ++ b :: rest⟩ = (.ok 0, ⟨b :: rest⟩) :=
    ReadU32_PutUint 0 _
  have h3 : Decoder.ReadU8 ⟨b :: rest⟩ = (.ok b.val, ⟨rest⟩) := by
    have := binaryRead_front [b] rest 1 rfl (by decide)
    simp only [Decoder.ReadU8, List.singleton_append] at this ⊢
    rw [this]
    simp [Uint]
  have hb : b.val % 2 ^ 8 = b.val := Nat.mod_eq_of_lt b.isLt
  simp only [Unmarshal, NewDecoder, Decoder.reflectValue, newTypeDecoder, GoType.isBool,
    Bool.false_eq_true, if_false, mapDecoder_decode, h1, decodeEntries, stringDecoder,
    Decoder.ReadString, h2, bufferNext, zero, uintDecoder, h3, hb, SetMapIndex,
    List.take_zero, List.drop_zero]

/-- Claim C4, counterexample: a `map[string]uint8` with the single entry `K: 7`, where
`K` is a string of `2^32` zero bytes.  The length prefix of `K` wraps to `0`, so
the decoder reads the empty key, takes the first byte of `K` as the value and
returns the map `{"": 0}`, which does not hold the association `K: 7`. -/
theorem map_round_trip_fails_on_long_key :
    Marshal (.map .string (.uint .w8))
        (.map [(.string (0 :: List.replicate 4294967295 0), .uint .w8 7)]) =
      .returned ([1, 0, 0, 0] ++ ([0, 0, 0, 0] ++ 0 :: (List.replicate 4294967295 0 ++ [7]))) none ∧
    Unmarshal ([1, 0, 0, 0] ++ ([0, 0, 0, 0] ++ 0 :: (List.replicate 4294967295 0 ++ [7])))
        (.map .string (.uint .w8)) (zero (.map .string (.uint .w8))) =
      (none, .map [(.string [], .uint .w8 0)]) ∧
    ¬ List.Perm [(Value.string [], Value.uint .w8 0)]
        [(Value.string (0 :: List.replicate 4294967295 0), Value.uint .w8 7)] := by
  refine ⟨Marshal_long_key _ 7 (by norm_num) ?_, Unmarshal_empty_key 0 _, fun hp => ?_⟩
  · rw [List.length_cons, List.length_replicate]
    norm_num
  · have h1 := List.perm_singleton.mp hp
    have h2 := (Prod.mk.inj (List.cons.inj h1).1).2
    have h3 : (0 : Nat) = 7 := by injection h2
    exact absurd h3 (by decide)

/-- Claim C5, as amended: for every set (a `map[T]bool`) with fewer than `2^32` entries,
keys of a key kind, all faithful, and every entry `true`, `Unmarshal(Marshal(s))`
into a fresh target returns no error and leaves a map with exactly the
entries of `s`; a nil set comes back as the empty map. -/
theorem set_round_trip (key : GoType) (s : List (Value × Value))
    (h : faithful (.map key .bool) (.map s) = true) :
    (∃ bytes, Marshal (.map key .bool) (.map s) = .returned bytes none ∧
      Unmarshal bytes (.map key .bool) (zero (.map key .bool)) = (none, .map s)) ∧
    (Marshal (.map key .bool) .nilMap = .returned [0, 0, 0, 0] none ∧
      Unmarshal [0, 0, 0, 0] (.map key .bool) (zero (.map key .bool)) = (none, .map [])) :=
  ⟨Unmarshal_Marshal (.map key .bool) (.map s) h, nilMap_comes_back_empty key .bool⟩

theorem set_round_trip_witness :
    faithful (.map .string .bool)
      (.map [(.string [0x62], .bool true), (.string [0x61], .bool true)]) = true ∧
    (∃ bytes, Marshal (.map .string .bool)
        (.map [(.string [0x62], .bool true), (.string [0x61], .bool true)]) =
          .returned bytes none ∧
      Unmarshal bytes (.map .string .bool) (zero (.map .string .bool)) =
        (none, .map [(.string [0x62], .bool true), (.string [0x61], .bool true)])) ∧
    (Marshal (.map .string .bool) .nilMap = .returned [0, 0, 0, 0] none ∧
      Unmarshal [0, 0, 0, 0] (.map .string .bool) (zero (.map .string .bool)) = (none, .map [])) :=
  ⟨by decide, set_round_trip .string _ (by decide)⟩

/-- Claim C5, counterexample: the set `{"a": true, "b": false}` is written as the
count `2` and both keys, and comes back as `{"a": true, "b": true}`: the entry
`"b": false` is not in the decoded map. -/
theorem set_round_trip_fails_on_false_entry :
    Marshal (.map .string .bool)
        (.map [(.string [0x61], .bool true), (.string [0x62], .bool false)]) =
      .returned [2, 0, 0, 0, 1, 0, 0, 0, 0x61, 1, 0, 0, 0, 0x62] none ∧
    Unmarshal [2, 0, 0, 0, 1, 0, 0, 0, 0x61, 1, 0, 0, 0, 0x62] (.map .string .bool)
        (zero (.map .string .bool)) =
      (none, .map [(.string [0x61], .bool true), (.string [0x62], .bool true)]) ∧
    ¬ List.Perm [(Value.string [0x61], Value.bool true), (Value.string [0x62], Value.bool true)]
        [(Value.string [0x61], Value.bool true), (Value.string [0x62], Value.bool false)] := by
  refine ⟨rfl, rfl, fun hp => ?_⟩
  have hm := hp.mem_iff.mpr (List.mem_cons_of_mem _ (List.mem_singleton.mpr rfl))
  simp at hm


/-! ## The bytes an encoder appends do not depend on the encoder's state -/

theorem emits_or_panics_elems (f : encoderFunc) (xs : List Value)
    (h : ∀ x ∈ xs, (∃ bs, Emits f x bs) ∨ Panics f x) :
    (∃ bs, ∀ e, ∃ e1, encodeElems f e xs = .done e1 ∧ e1.buf = e.buf ++ bs) ∨
      (∀ e, ∃ e1, encodeElems f e xs = .panic e1) := by
  induction xs with
  | nil => exact Or.inl ⟨[], fun e => ⟨e, rfl, by simp⟩⟩
  | cons x xs ih =>
    rcases h x (List.mem_cons_self _ _) with ⟨b1, h1⟩ | hp
    · rcases ih (fun y hy => h y (List.mem_cons_of_mem _ hy)) with ⟨b2, h2⟩ | hp2
      · refine Or.inl ⟨b1 ++ b2, fun e => ?_⟩
        obtain ⟨e1, he1, hb1⟩ := h1 e
        obtain ⟨e2, he2, hb2⟩ := h2 e1
        exact ⟨e2, by simp only [encodeElems, he1, he2], by rw [hb2, hb1, List.append_assoc]⟩
      · refine Or.inr fun e => ?_
        obtain ⟨e1, he1, _⟩ := h1 e
        obtain ⟨e2, he2⟩ := hp2 e1
        exact ⟨e2, by simp only [encodeElems, he1, he2]⟩
    · refine Or.inr fun e => ?_
      obtain ⟨e1, he1⟩ := hp e
      exact ⟨e1, by simp only [encodeElems, he1]⟩

theorem emits_or_panics_keys (f : encoderFunc) (es : List (Value × Value))
    (h : ∀ kv ∈ es, (∃ bs, Emits f kv.1 bs) ∨ Panics f kv.1) :
    (∃ bs, ∀ e, ∃ e1, encodeKeys f e es = .done e1 ∧ e1.buf = e.buf ++ bs) ∨
      (∀ e, ∃ e1, encodeKeys f e es = .panic e1) := by
  induction es with
  | nil => exact Or.inl ⟨[], fun e => ⟨e, rfl, by simp⟩⟩
  | cons a es ih =>
    obtain ⟨k, v⟩ := a
    rcases h (k, v) (List.mem_cons_self _ _) with ⟨b1, h1⟩ | hp
    · rcases ih (fun y hy => h y (List.mem_cons_of_mem _ hy)) with ⟨b2, h2⟩ | hp2
      · refine Or.inl ⟨b1 ++ b2, fun e => ?_⟩
        obtain ⟨e1, he1, hb1⟩ := h1 e
        obtain ⟨e2, he2, hb2⟩ := h2 e1
        exact ⟨e2, by simp only [encodeKeys, he1, he2], by rw [hb2, hb1, List.append_assoc]⟩
      · refine Or.inr fun e => ?_
        obtain ⟨e1, he1, _⟩ := h1 e
        obtain ⟨e2, he2⟩ := hp2 e1
        exact ⟨e2, by simp only [encodeKeys, he1, he2]⟩
    · refine Or.inr fun e => ?_
      obtain ⟨e1, he1⟩ := hp e
      exact ⟨e1, by simp only [encodeKeys, he1]⟩

theorem emits_or_panics_entries (fk fv : encoderFunc) (es : List (Value × Value))
    (h : ∀ kv ∈ es, ((∃ bs, Emits fk kv.1 bs) ∨ Panics fk kv.1) ∧
      ((∃ bs, Emits fv kv.2 bs) ∨ Panics fv kv.2)) :
    (∃ bs, ∀ e, ∃ e1, encodeEntries fk fv e es = .done e1 ∧ e1.buf = e.buf ++ bs) ∨
      (∀ e, ∃ e1, encodeEntries fk fv e es = .panic e1) := by
  induction es with
  | nil => exact Or.inl ⟨[], fun e => ⟨e, rfl, by simp⟩⟩
  | cons a es ih =>
    obtain ⟨k, v⟩ := a
    obtain ⟨hk, hv⟩ := h (k, v) (List.mem_cons_self _ _)
    rcases hk with ⟨b1, h1⟩ | hp
    · rcases hv with ⟨b2, h2⟩ | hp2
      · rcases ih (fun y hy => h y (List.mem_cons_of_mem _ hy)) with ⟨b3, h3⟩ | hp3
        · refine Or.inl ⟨b1 ++ (b2 ++ b3), fun e => ?_⟩
          obtain ⟨e1, he1, hb1⟩ := h1 e
          obtain ⟨e2, he2, hb2⟩ := h2 e1
          obtain ⟨e3, he3, hb3⟩ := h3 e2
          exact ⟨e3, by simp only [encodeEntries, he1, he2, he3],
            by rw [hb3, hb2, hb1]; simp⟩
        · refine Or.inr fun e => ?_
          obtain ⟨e1, he1, _⟩ := h1 e
          obtain ⟨e2, he2, _⟩ := h2 e1
          obtain ⟨e3, he3⟩ := hp3 e2
          exact ⟨e3, by simp only [encodeEntries, he1, he2, he3]⟩
      · refine Or.inr fun e => ?_
        obtain ⟨e1, he1, _⟩ := h1 e
        obtain ⟨e2, he2⟩ := hp2 e1
        exact ⟨e2, by simp only [encodeEntries, he1, he2]⟩
    · refine Or.inr fun e => ?_
      obtain ⟨e1, he1⟩ := hp e
      exact ⟨e1, by simp only [encodeEntries, he1]⟩

theorem counted_emits_or_panics (body : Encoder → Outcome) (n : Nat)
    (h : (∃ bs, ∀ e, ∃ e1, body e = .done e1 ∧ e1.buf = e.buf ++ bs) ∨
      (∀ e, ∃ e1, body e = .panic e1)) :
    (∃ bs, ∀ e : Encoder, ∃ e1, body (e.WriteU32 n) = .done e1 ∧ e1.buf = e.buf ++ bs) ∨
      (∀ e : Encoder, ∃ e1, body (e.WriteU32 n) = .panic e1) := by
  rcases h with ⟨bs, hb⟩ | hp
  · refine Or.inl ⟨PutUint 4 n ++ bs, fun e => ?_⟩
    obtain ⟨e1, he1, hb1⟩ := hb (e.WriteU32 n)
    exact ⟨e1, he1, by rw [hb1, WriteU32_buf, List.append_assoc]⟩
  · exact Or.inr fun e => hp _

mutual
theorem emits_or_panics : (t : GoType) → (v : Value) →
    (∃ bs, Emits (newTypeEncoder t) v bs) ∨ Panics (newTypeEncoder t) v
  | .bool, v => by
    simp only [newTypeEncoder]
    cases v <;> first
      | exact Or.inr fun e => ⟨e, rfl⟩
      | exact Or.inl ⟨_, fun e => ⟨_, rfl, WriteBoolean_buf e _⟩⟩
  | .uint _, v => by
    simp only [newTypeEncoder]
    cases v <;> try exact Or.inr fun e => ⟨e, rfl⟩
    case uint w n =>
      exact Or.inl ⟨_, fun e => ⟨_, uintEncoder_eq w n e, WriteU_buf w e _⟩⟩
  | .int _, v => by
    simp only [newTypeEncoder]
    cases v <;> try exact Or.inr fun e => ⟨e, rfl⟩
    case int w i =>
      exact Or.inl ⟨_, fun e => ⟨_, intEncoder_eq w i e, WriteI_buf w e _⟩⟩
  | .float32, v => by
    simp only [newTypeEncoder]
    cases v <;> try exact Or.inr fun e => ⟨e, rfl⟩
    case float32 b =>
      exact Or.inl ⟨PutUint 4 (quiet32 b), fun e => ⟨_, rfl, by
        simp [Encoder.WriteF32, bufferWrite_buf, reserveCapacity_buf]⟩⟩
    case float64 b =>
      exact Or.inl ⟨PutUint 8 b, fun e => ⟨_, rfl, by
        simp [Encoder.WriteF64, bufferWrite_buf, reserveCapacity_buf]⟩⟩
  | .float64, v => by
    simp only [newTypeEncoder]
    cases v <;> try exact Or.inr fun e => ⟨e, rfl⟩
    case float32 b =>
      exact Or.inl ⟨PutUint 4 (quiet32 b), fun e => ⟨_, rfl, by
        simp [Encoder.WriteF32, bufferWrite_buf, reserveCapacity_buf]⟩⟩
    case float64 b =>
      exact Or.inl ⟨PutUint 8 b, fun e => ⟨_, rfl, by
        simp [Encoder.WriteF64, bufferWrite_buf, reserveCapacity_buf]⟩⟩
  | .array elem _, v => by
    simp only [newTypeEncoder]
    cases v <;> try exact Or.inr fun e => ⟨e, rfl⟩
    case array xs =>
      exact emits_or_panics_elems _ xs (fun x _ => emits_or_panics elem x)
  | .slice elem, v => by
    simp only [newTypeEncoder]
    cases v <;> try exact Or.inr fun e => ⟨e, rfl⟩
    case nilSlice => exact Or.inl ⟨_, fun e => ⟨_, rfl, WriteU32_buf e 0⟩⟩
    case slice xs =>
      exact counted_emits_or_panics (fun e => encodeElems (newTypeEncoder elem) e xs) _
        (emits_or_panics_elems _ xs (fun x _ => emits_or_panics elem x))
  | .struct fields, v => by
    simp only [newTypeEncoder]
    cases v <;> try exact Or.inr fun e => ⟨e, rfl⟩
    case struct vs => exact emits_or_panics_fields fields vs
  | .map key elem, v => by
    rw [newTypeEncoder_map]
    by_cases hb : elem.isBool = true
    · simp only [hb, if_true]
      cases v with
      | nilMap => exact Or.inl ⟨_, fun e => ⟨_, rfl, WriteU32_buf e 0⟩⟩
      | map es =>
        exact counted_emits_or_panics (fun e => encodeKeys (newTypeEncoder key) e es) _
          (emits_or_panics_keys _ es (fun kv _ => emits_or_panics key kv.1))
      | _ => exact Or.inr fun e => ⟨e, rfl⟩
    · simp only [hb, Bool.false_eq_true, if_false]
      cases v with
      | nilMap => exact Or.inl ⟨_, fun e => ⟨_, rfl, WriteU32_buf e 0⟩⟩
      | map es =>
        exact counted_emits_or_panics
          (fun e => encodeEntries (newTypeEncoder key) (newTypeEncoder elem) e es) _
          (emits_or_panics_entries _ _ es
            (fun kv _ => ⟨emits_or_panics key kv.1, emits_or_panics elem kv.2⟩))
      | _ => exact Or.inr fun e => ⟨e, rfl⟩
  | .ptr elem, v => by
    simp only [newTypeEncoder]
    cases v <;> try exact Or.inr fun e => ⟨e, rfl⟩
    case nilPtr => exact Or.inl ⟨_, fun e => ⟨_, rfl, WriteBoolean_buf e false⟩⟩
    case ptr x =>
      rcases emits_or_panics elem x with ⟨bs, hb⟩ | hp
      · refine Or.inl ⟨[1] ++ bs, fun e => ?_⟩
        obtain ⟨e1, he1, hb1⟩ := hb (e.WriteBoolean true)
        exact ⟨e1, he1, by rw [hb1, WriteBoolean_buf, List.append_assoc]; rfl⟩
      · exact Or.inr fun e => hp _
  | .string, v => by
    simp only [newTypeEncoder]
    cases v <;> try exact Or.inr fun e => ⟨e, rfl⟩
    case string s => exact Or.inl ⟨_, fun e => ⟨_, rfl, WriteString_buf e s⟩⟩
  | .unsupported, v => Or.inr fun e => ⟨e, by simp only [newTypeEncoder, unsupportedTypeEncoder]⟩
theorem emits_or_panics_fields : (ts : List GoType) → (vs : List Value) →
    (∃ bs, ∀ e, ∃ e1, encodeFields (newStructEncoder ts) e vs = .done e1 ∧ e1.buf = e.buf ++ bs) ∨
      (∀ e, ∃ e1, encodeFields (newStructEncoder ts) e vs = .panic e1)
  | ts, [] => Or.inl ⟨[], fun e => ⟨e, by cases ts <;> rfl, by simp⟩⟩
  | [], v :: vs => Or.inr fun e => ⟨e, rfl⟩
  | t :: ts, v :: vs => by
    rcases emits_or_panics t v with ⟨b1, h1⟩ | hp
    · rcases emits_or_panics_fields ts vs with ⟨b2, h2⟩ | hp2
      · refine Or.inl ⟨b1 ++ b2, fun e => ?_⟩
        obtain ⟨e1, he1, hb1⟩ := h1 e
        obtain ⟨e2, he2, hb2⟩ := h2 e1
        exact ⟨e2, by simp only [newStructEncoder, encodeFields, he1, he2],
          by rw [hb2, hb1, List.append_assoc]⟩
      · refine Or.inr fun e => ?_
        obtain ⟨e1, he1, _⟩ := h1 e
        obtain ⟨e2, he2⟩ := hp2 e1
        exact ⟨e2, by simp only [newStructEncoder, encodeFields, he1, he2]⟩
    · refine Or.inr fun e => ?_
      obtain ⟨e1, he1⟩ := hp e
      exact ⟨e1, by simp only [newStructEncoder, encodeFields, he1]⟩
end

theorem Marshal_of_panics (t : GoType) (v : Value) (h : Panics (newTypeEncoder t) v) :
    Marshal t v = .panicked := by
  obtain ⟨e1, h1⟩ := h NewEncoder
  rw [Marshal, h1]

theorem emits_of_Marshal (t : GoType) (v : Value) (bs : List Byte)
    (h : Marshal t v = .returned bs none) : Emits (newTypeEncoder t) v bs := by
  rcases emits_or_panics t v with ⟨b1, h1⟩ | hp
  · have h2 := Marshal_of_emits t v b1 h1
    rw [h] at h2
    injection h2 with h3
    rw [h3]
    exact h1
  · rw [Marshal_of_panics t v hp] at h
    cases h


/-! ## Encodings of composite values -/

theorem PutUint_littleEndian (n : Nat) : PutUint 4 (n % 2 ^ 32) = littleEndian 4 n := by
  have h := PutUint_mod 4 n
  simp only [Nat.reduceMul] at h
  rw [h, PutUint_eq_map]
  rfl

theorem emits_elems (f : encoderFunc) (l : List (Value × List Byte))
    (h : ∀ p ∈ l, Emits f p.1 p.2) :
    ∀ e, ∃ e1, encodeElems f e (l.map Prod.fst) = .done e1 ∧
      e1.buf = e.buf ++ (l.map Prod.snd).flatten := by
  induction l with
  | nil => exact fun e => ⟨e, rfl, by simp⟩
  | cons p l ih =>
    intro e
    obtain ⟨e1, he1, hb1⟩ := h p (List.mem_cons_self _ _) e
    obtain ⟨e2, he2, hb2⟩ := ih (fun q hq => h q (List.mem_cons_of_mem _ hq)) e1
    exact ⟨e2, by simp only [List.map_cons, encodeElems, he1, he2],
      by rw [hb2, hb1]; simp⟩

theorem emits_keys (f : encoderFunc) (l : List ((Value × Value) × List Byte))
    (h : ∀ p ∈ l, Emits f p.1.1 p.2) :
    ∀ e, ∃ e1, encodeKeys f e (l.map Prod.fst) = .done e1 ∧
      e1.buf = e.buf ++ (l.map Prod.snd).flatten := by
  induction l with
  | nil => exact fun e => ⟨e, rfl, by simp⟩
  | cons p l ih =>
    intro e
    obtain ⟨⟨k, v⟩, bs⟩ := p
    obtain ⟨e1, he1, hb1⟩ := h ((k, v), bs) (List.mem_cons_self _ _) e
    obtain ⟨e2, he2, hb2⟩ := ih (fun q hq => h q (List.mem_cons_of_mem _ hq)) e1
    exact ⟨e2, by simp only [List.map_cons, encodeKeys, he1, he2],
      by rw [hb2, hb1]; simp⟩

theorem emits_fields (l : List (GoType × Value × List Byte))
    (h : ∀ p ∈ l, Emits (newTypeEncoder p.1) p.2.1 p.2.2) :
    ∀ e, ∃ e1, encodeFields (newStructEncoder (l.map (fun p => p.1))) e (l.map (fun p => p.2.1)) =
        .done e1 ∧
      e1.buf = e.buf ++ (l.map (fun p => p.2.2)).flatten := by
  induction l with
  | nil => exact fun e => ⟨e, rfl, by simp⟩
  | cons p l ih =>
    intro e
    obtain ⟨e1, he1, hb1⟩ := h p (List.mem_cons_self _ _) e
    obtain ⟨e2, he2, hb2⟩ := ih (fun q hq => h q (List.mem_cons_of_mem _ hq)) e1
    exact ⟨e2, by simp only [List.map_cons, newStructEncoder, encodeFields, he1, he2],
      by rw [hb2, hb1]; simp⟩

theorem emits_counted (body : Encoder → Outcome) (n : Nat) (bs : List Byte)
    (h : ∀ e, ∃ e1, body e = .done e1 ∧ e1.buf = e.buf ++ bs) :
    ∀ e : Encoder, ∃ e1, body (e.WriteU32 (n % 2 ^ 32)) = .done e1 ∧
      e1.buf = e.buf ++ (littleEndian 4 n ++ bs) := by
  intro e
  obtain ⟨e1, he1, hb1⟩ := h (e.WriteU32 (n % 2 ^ 32))
  exact ⟨e1, he1, by rw [hb1, WriteU32_buf, PutUint_littleEndian, List.append_assoc]⟩

theorem Marshal_map_front (key elem : GoType) (es : List (Value × Value)) :
    Marshal (.map key elem) (.map es) = .panicked ∨
      ∃ rest, Marshal (.map key elem) (.map es) = .returned (littleEndian 4 es.length ++ rest) none := by
  rcases emits_or_panics (.map key elem) (.map es) with ⟨bs, hb⟩ | hp
  · right
    rw [newTypeEncoder_map] at hb
    by_cases hbool : elem.isBool = true
    · simp only [hbool, if_true] at hb
      rcases emits_or_panics_keys (newTypeEncoder key) es
        (fun kv _ => emits_or_panics key kv.1) with ⟨b2, h2⟩ | hp2
      · refine ⟨b2, Marshal_of_emits _ _ _ ?_⟩
        rw [newTypeEncoder_map]
        simp only [hbool, if_true]
        exact emits_counted (fun e => encodeKeys (newTypeEncoder key) e es) es.length b2 h2
      · obtain ⟨e1, he1, _⟩ := hb NewEncoder
        obtain ⟨e2, he2⟩ := hp2 (NewEncoder.WriteU32 (es.length % 2 ^ 32))
        simp only [setEncoder_encode, he2] at he1
        cases he1
    · simp only [hbool, Bool.false_eq_true, if_false] at hb
      rcases emits_or_panics_entries (newTypeEncoder key) (newTypeEncoder elem) es
        (fun kv _ => ⟨emits_or_panics key kv.1, emits_or_panics elem kv.2⟩) with ⟨b2, h2⟩ | hp2
      · refine ⟨b2, Marshal_of_emits _ _ _ ?_⟩
        rw [newTypeEncoder_map]
        simp only [hbool, Bool.false_eq_true, if_false]
        exact emits_counted
          (fun e => encodeEntries (newTypeEncoder key) (newTypeEncoder elem) e es) es.length b2 h2
      · obtain ⟨e1, he1, _⟩ := hb NewEncoder
        obtain ⟨e2, he2⟩ := hp2 (NewEncoder.WriteU32 (es.length % 2 ^ 32))
        simp only [mapEncoder_encode, he2] at he1
        cases he1
  · exact Or.inl (Marshal_of_panics _ _ hp)

theorem Marshal_slice_front (t : GoType) (xs : List Value) :
    Marshal (.slice t) (.slice xs) = .panicked ∨
      ∃ rest, Marshal (.slice t) (.slice xs) = .returned (littleEndian 4 xs.length ++ rest) none := by
  rcases emits_or_panics_elems (newTypeEncoder t) xs (fun x _ => emits_or_panics t x) with
    ⟨b2, h2⟩ | hp2
  · refine Or.inr ⟨b2, Marshal_of_emits _ _ _ ?_⟩
    simp only [newTypeEncoder]
    exact emits_counted (fun e => encodeElems (newTypeEncoder t) e xs) xs.length b2 h2
  · refine Or.inl (Marshal_of_panics _ _ fun e => ?_)
    simp only [newTypeEncoder]
    exact hp2 _


theorem reads_elems (g : decoderFunc) (m : List (Value × List Byte × Value))
    (h : ∀ p ∈ m, Reads g p.1 p.2.1 p.2.2) :
    ∀ r, decodeElems g ⟨(m.map (fun p => p.2.1)).flatten ++ r⟩ (m.map (fun p => p.1)) =
      (none, ⟨r⟩, m.map (fun p => p.2.2)) := by
  induction m with
  | nil => exact fun r => rfl
  | cons p m ih =>
    intro r
    have h1 := h p (List.mem_cons_self _ _) ((m.map (fun p => p.2.1)).flatten ++ r)
    have h2 := ih (fun q hq => h q (List.mem_cons_of_mem _ hq)) r
    simp only [List.map_cons, List.flatten_cons, List.append_assoc, decodeElems, h1, h2]

theorem reads_keys (key : GoType) (g : decoderFunc) (l : List (Value × List Byte))
    (h : ∀ p ∈ l, Reads g (zero key) p.2 p.1) :
    ∀ r m0, decodeKeys key g l.length ⟨(l.map Prod.snd).flatten ++ r⟩ m0 =
      (none, ⟨r⟩, (l.map Prod.fst).foldl (fun m k => SetMapIndex m k (.bool true)) m0) := by
  induction l with
  | nil => exact fun r m0 => rfl
  | cons p l ih =>
    intro r m0
    have h1 := h p (List.mem_cons_self _ _) ((l.map Prod.snd).flatten ++ r)
    have h2 := ih (fun q hq => h q (List.mem_cons_of_mem _ hq)) r
    simp only [List.map_cons, List.flatten_cons, List.append_assoc, List.length_cons, decodeKeys,
      h1, h2, List.foldl_cons]

theorem SetMapIndex_true (m : List (Value × Value)) (k : Value)
    (h : ∀ kv ∈ m, kv.2 = Value.bool true) :
    ∀ kv ∈ SetMapIndex m k (.bool true), kv.2 = Value.bool true := by
  induction m with
  | nil =>
    intro kv hkv
    simp only [SetMapIndex, List.mem_singleton] at hkv
    rw [hkv]
  | cons a m ih =>
    obtain ⟨k1, v1⟩ := a
    intro kv hkv
    simp only [SetMapIndex] at hkv
    split_ifs at hkv
    · rcases List.mem_cons.mp hkv with h1 | h1
      · rw [h1]
      · exact h kv (List.mem_cons_of_mem _ h1)
    · rcases List.mem_cons.mp hkv with h1 | h1
      · rw [h1]; exact h (k1, v1) (List.mem_cons_self _ _)
      · exact ih (fun q hq => h q (List.mem_cons_of_mem _ hq)) kv h1

theorem foldl_SetMapIndex_true (ks : List Value) (m : List (Value × Value))
    (h : ∀ kv ∈ m, kv.2 = Value.bool true) :
    ∀ kv ∈ ks.foldl (fun m k => SetMapIndex m k (.bool true)) m, kv.2 = Value.bool true := by
  induction ks generalizing m with
  | nil => exact h
  | cons k ks ih => exact ih _ (SetMapIndex_true m k h)

theorem ReadBoolean_byte (b : Byte) (rest : List Byte) :
    Decoder.ReadBoolean ⟨b :: rest⟩ = (.ok (decide (b ≠ 0)), ⟨rest⟩) := by
  have h := binaryRead_front [b] rest 1 rfl (by decide)
  simp only [List.singleton_append] at h
  simp only [Decoder.ReadBoolean, Decoder.ReadU8, h, Uint]
  congr 2
  by_cases hb : b = 0
  · subst hb; rfl
  · have : b.val ≠ 0 := fun h0 => hb (Fin.ext h0)
    simp [hb, this]

/-- Claim C12 (boolean codec): `WriteBoolean(true)` appends exactly `[0x01]` and
`WriteBoolean(false)` exactly `[0x00]`; on a decoder whose next unread byte is
`b`, `ReadBoolean` returns `false` if `b = 0` and `true` otherwise, and the
remainder afterwards is what followed `b`. -/
theorem boolean_codec (e : Encoder) (b : Byte) (rest : List Byte) :
    (e.WriteBoolean true).Finish = e.Finish ++ [0x01] ∧
    (e.WriteBoolean false).Finish = e.Finish ++ [0x00] ∧
    (NewDecoder (b :: rest)).ReadBoolean.1 = .ok (decide (b ≠ 0)) ∧
    (NewDecoder (b :: rest)).ReadBoolean.2.Remainder = rest := by
  refine ⟨WriteBoolean_buf e true, WriteBoolean_buf e false, ?_, ?_⟩
  · rw [NewDecoder, ReadBoolean_byte]
  · rw [NewDecoder, ReadBoolean_byte]; rfl

/-- Claim C13 (string encoding): `WriteString(s)` appends the four-byte little-endian
encoding of the number of bytes of `s`, then exactly the bytes of `s`, and
nothing else; `"hi"` gives `[0x02, 0x00, 0x00, 0x00, 0x68, 0x69]`. -/
theorem string_encoding (e : Encoder) (s : List Byte) :
    (e.WriteString s).Finish = e.Finish ++ (littleEndian 4 s.length ++ s) ∧
    (NewEncoder.WriteString [0x68, 0x69]).Finish = [0x02, 0x00, 0x00, 0x00, 0x68, 0x69] := by
  refine ⟨?_, by decide⟩
  rw [Encoder.Finish, WriteString_buf, PutUint_littleEndian]
  rfl

/-- Claim C14 (optional encoding): for every element shape `t0`, supported or not, the
absent optional is encoded as exactly `[0x00]`; a present optional holding a
value whose encoding is `bs` is encoded as `0x01` followed by exactly `bs`.
Both hold for `Marshal` and for the encoder called in any state. -/
theorem optional_encoding (t0 t : GoType) (x : Value) (bs : List Byte)
    (h : Marshal t x = .returned bs none) :
    Marshal (.ptr t0) .nilPtr = .returned [0x00] none ∧
    Emits (newTypeEncoder (.ptr t0)) .nilPtr [0x00] ∧
    Marshal (.ptr t) (.ptr x) = .returned (0x01 :: bs) none ∧
    Emits (newTypeEncoder (.ptr t)) (.ptr x) (0x01 :: bs) := by
  have h0 : Emits (newTypeEncoder (.ptr t0)) .nilPtr [0x00] := by
    intro e
    exact ⟨e.WriteBoolean false, by simp only [newTypeEncoder, optionEncoder_encode],
      WriteBoolean_buf e false⟩
  have h1 : Emits (newTypeEncoder (.ptr t)) (.ptr x) (0x01 :: bs) := by
    intro e
    obtain ⟨e1, he1, hb1⟩ := emits_of_Marshal t x bs h (e.WriteBoolean true)
    refine ⟨e1, by simp only [newTypeEncoder, optionEncoder_encode, he1], ?_⟩
    rw [hb1, WriteBoolean_buf]
    simp
  exact ⟨Marshal_of_emits _ _ _ h0, h0, Marshal_of_emits _ _ _ h1, h1⟩

theorem optional_encoding_witness :
    Marshal (.uint .w32) (.uint .w32 16843009) = .returned [0x01, 0x01, 0x01, 0x01] none ∧
    Marshal (.ptr .unsupported) .nilPtr = .returned [0x00] none ∧
    Emits (newTypeEncoder (.ptr .unsupported)) .nilPtr [0x00] ∧
    Marshal (.ptr (.uint .w32)) (.ptr (.uint .w32 16843009)) =
      .returned [0x01, 0x01, 0x01, 0x01, 0x01] none ∧
    Emits (newTypeEncoder (.ptr (.uint .w32))) (.ptr (.uint .w32 16843009))
      [0x01, 0x01, 0x01, 0x01, 0x01] :=
  ⟨rfl, optional_encoding .unsupported (.uint .w32) (.uint .w32 16843009) [0x01, 0x01, 0x01, 0x01] rfl⟩

/-- Claim C15, the decoder of an optional on any target `v`: one presence byte is read;
if it is zero the call returns no error, consumes nothing more and leaves the
target as it was; otherwise the target becomes a present optional holding
what the element decoder stores, and the error and the bytes consumed are
those of the element decoder.  At the failing input, a target that holds
`5` and the input `[0x00]`, the target still holds `5` after the call; a
fresh target stays absent. -/
theorem optional_decoding (elem : GoType) (b : Byte) (rest : List Byte) (v : Value) :
    newTypeDecoder (.ptr elem) (NewDecoder (b :: rest)) v =
      (if b = 0 then ⟨none, ⟨rest⟩, v⟩
       else ⟨(newTypeDecoder elem ⟨rest⟩ (zero elem)).err, (newTypeDecoder elem ⟨rest⟩ (zero elem)).d,
          .ptr (newTypeDecoder elem ⟨rest⟩ (zero elem)).v⟩) ∧
    Unmarshal [0x00] (.ptr (.uint .w8)) (.ptr (.uint .w8 5)) = (none, .ptr (.uint .w8 5)) ∧
    Unmarshal [0x00] (.ptr (.uint .w8)) (zero (.ptr (.uint .w8))) = (none, .nilPtr) := by
  refine ⟨?_, rfl, rfl⟩
  simp only [newTypeDecoder, optionDecoder_decode, NewDecoder, ReadBoolean_byte]
  by_cases hb : b = 0
  · simp [hb]
  · simp [hb]


theorem emits_unique (f : encoderFunc) (v : Value) (b1 b2 : List Byte)
    (h1 : Emits f v b1) (h2 : Emits f v b2) : b1 = b2 := by
  obtain ⟨e1, he1, hb1⟩ := h1 NewEncoder
  obtain ⟨e2, he2, hb2⟩ := h2 NewEncoder
  rw [he1] at he2
  injection he2 with h3
  rw [h3, hb2] at hb1
  exact (List.append_cancel_left hb1).symm

theorem reads_of_Marshal (t : GoType) (v : Value) (bs : List Byte) (hf : faithful t v = true)
    (h : Marshal t v = .returned bs none) : Reads (newTypeDecoder t) (zero t) bs v := by
  obtain ⟨b1, he, hd⟩ := roundTrip_type t v hf
  rw [emits_unique _ _ _ _ (emits_of_Marshal t v bs h) he]
  exact hd

theorem emits_scalar (t : GoType) (v : Value) (hs : scalar t = true) (hv : sized t v = true) :
    ∃ bs, Emits (newTypeEncoder t) v bs ∧ bs.length = scalarWidth t := by
  cases t <;> try (simp [scalar] at hs; done)
  case bool =>
    cases v <;> try (simp [sized] at hv; done)
    case bool b => exact ⟨_, fun e => ⟨_, rfl, WriteBoolean_buf e b⟩, rfl⟩
  case uint w =>
    cases v <;> try (simp [sized] at hv; done)
    case uint w1 n =>
      simp only [sized, beq_iff_eq] at hv
      subst hv
      exact ⟨_, fun e => ⟨_, uintEncoder_eq w n e, WriteU_buf w e _⟩, PutUint_length _ _⟩
  case int w =>
    cases v <;> try (simp [sized] at hv; done)
    case int w1 i =>
      simp only [sized, beq_iff_eq] at hv
      subst hv
      exact ⟨_, fun e => ⟨_, intEncoder_eq w i e, WriteI_buf w e _⟩, PutUint_length _ _⟩
  case float32 =>
    cases v <;> try (simp [sized] at hv; done)
    case float32 b =>
      exact ⟨PutUint 4 (quiet32 b), fun e => ⟨_, rfl, by
        simp [Encoder.WriteF32, bufferWrite_buf, reserveCapacity_buf]⟩, PutUint_length _ _⟩
  case float64 =>
    cases v <;> try (simp [sized] at hv; done)
    case float64 b =>
      exact ⟨PutUint 8 b, fun e => ⟨_, rfl, by
        simp [Encoder.WriteF64, bufferWrite_buf, reserveCapacity_buf]⟩, PutUint_length _ _⟩

theorem emits_scalars (t : GoType) (xs : List Value) (hs : scalar t = true)
    (hx : ∀ x ∈ xs, sized t x = true) :
    ∃ bs, (∀ e, ∃ e1, encodeElems (newTypeEncoder t) e xs = .done e1 ∧ e1.buf = e.buf ++ bs) ∧
      bs.length = xs.length * scalarWidth t := by
  induction xs with
  | nil => exact ⟨[], fun e => ⟨e, rfl, by simp⟩, by simp⟩
  | cons x xs ih =>
    obtain ⟨b1, h1, hl1⟩ := emits_scalar t x hs (hx x (List.mem_cons_self _ _))
    obtain ⟨b2, h2, hl2⟩ := ih (fun y hy => hx y (List.mem_cons_of_mem _ hy))
    refine ⟨b1 ++ b2, fun e => ?_, ?_⟩
    · obtain ⟨e1, he1, hb1⟩ := h1 e
      obtain ⟨e2, he2, hb2⟩ := h2 e1
      exact ⟨e2, by simp only [encodeElems, he1, he2], by rw [hb2, hb1, List.append_assoc]⟩
    · simp only [List.length_append, hl1, hl2, List.length_cons]
      ring

theorem littleEndian_length (width n : Nat) : (littleEndian width n).length = width := by
  simp [littleEndian]

/-- Claim C11, counterexample: the shape `[]T` with `T` of an unsupported kind holds an
unsupported kind, yet the empty sequence of it is encoded (as the count `0`) and
these bytes are decoded without failure.  And in a record `{u8; T}` the
failure comes only after the first field: the encoder panics with the byte
`7` already written, the decoder returns its error with one byte already read. -/
theorem unsupported_element_not_static :
    Marshal (.slice .unsupported) (.slice []) = .returned [0, 0, 0, 0] none ∧
    Unmarshal [0, 0, 0, 0] (.slice .unsupported) (zero (.slice .unsupported)) = (none, .slice []) ∧
    (newTypeEncoder (.struct [.uint .w8, .unsupported]) NewEncoder
      (.struct [.uint .w8 7, .other])).panicked = true ∧
    (newTypeEncoder (.struct [.uint .w8, .unsupported]) NewEncoder
      (.struct [.uint .w8 7, .other])).written = [7] ∧
    (NewDecoder [7, 9]).reflectValue (.struct [.uint .w8, .unsupported])
        (zero (.struct [.uint .w8, .unsupported])) =
      ⟨some Error.unexpectedType, NewDecoder [9], .struct [.uint .w8 7, .other]⟩ := by
  refine ⟨rfl, rfl, rfl, rfl, rfl⟩

/-- Claim C11, as amended: for a shape whose own kind is unsupported, the encoder panics
on every value with the encoder untouched and `Marshal` panics; the decoder
returns an error on every input with the decoder and the target untouched.
Deeper in a shape the failure comes when a value of that kind is reached: a
present optional and a non-empty sequence of an unsupported element type
panic after the presence byte, or the count, has been written, while the
absent optional and the empty sequence are encoded and decoded without failure. -/
theorem unsupported_fails_when_reached (e : Encoder) (d : Decoder) (data : List Byte)
    (v x : Value) (xs : List Value) :
    newTypeEncoder .unsupported e v = .panic e ∧
    Marshal .unsupported v = .panicked ∧
    newTypeDecoder .unsupported d v = ⟨some Error.unexpectedType, d, v⟩ ∧
    Unmarshal data .unsupported v = (some Error.unexpectedType, v) ∧
    newTypeEncoder (.ptr .unsupported) e (.ptr x) = .panic (e.WriteBoolean true) ∧
    newTypeEncoder (.slice .unsupported) e (.slice (x :: xs)) =
      .panic (e.WriteU32 ((x :: xs).length % 2 ^ 32)) ∧
    Marshal (.ptr .unsupported) .nilPtr = .returned [0] none ∧
    Unmarshal [0] (.ptr .unsupported) (zero (.ptr .unsupported)) = (none, .nilPtr) ∧
    Marshal (.slice .unsupported) (.slice []) = .returned [0, 0, 0, 0] none ∧
    Unmarshal [0, 0, 0, 0] (.slice .unsupported) (zero (.slice .unsupported)) = (none, .slice []) := by
  refine ⟨rfl, rfl, rfl, rfl, rfl, rfl, rfl, rfl, rfl, rfl⟩

/-- Claim C17 (record encoding): the encoding of a record whose fields, in declared
order, have the types, values and encodings listed in `l` is exactly the
concatenation of these encodings; the record with no fields is encoded as no
bytes. -/
theorem record_encoding (l : List (GoType × Value × List Byte))
    (h : ∀ p ∈ l, Marshal p.1 p.2.1 = .returned p.2.2 none) :
    Marshal (.struct (l.map (fun p => p.1))) (.struct (l.map (fun p => p.2.1))) =
      .returned (l.map (fun p => p.2.2)).flatten none ∧
    Marshal (.struct []) (.struct []) = .returned [] none := by
  refine ⟨?_, rfl⟩
  apply Marshal_of_emits
  simp only [newTypeEncoder]
  exact emits_fields l (fun p hp => emits_of_Marshal p.1 p.2.1 p.2.2 (h p hp))

theorem record_encoding_witness :
    (∀ p ∈ [(GoType.string, Value.string [0x6d, 0x79], ([2, 0, 0, 0, 0x6d, 0x79] : List Byte)),
        (GoType.uint .w16, Value.uint .w16 3, [3, 0])],
      Marshal p.1 p.2.1 = .returned p.2.2 none) ∧
    Marshal (.struct [.string, .uint .w16]) (.struct [.string [0x6d, 0x79], .uint .w16 3]) =
      .returned [2, 0, 0, 0, 0x6d, 0x79, 3, 0] none ∧
    Marshal (.struct []) (.struct []) = .returned [] none := by
  have hl : ∀ p ∈ [(GoType.string, Value.string [0x6d, 0x79],
      ([2, 0, 0, 0, 0x6d, 0x79] : List Byte)), (GoType.uint .w16, Value.uint .w16 3, [3, 0])],
      Marshal p.1 p.2.1 = .returned p.2.2 none := by
    intro p hp
    simp only [List.mem_cons, List.mem_singleton, List.not_mem_nil, or_false] at hp
    rcases hp with rfl | rfl <;> rfl
  exact ⟨hl, record_encoding _ hl⟩

/-- Claim C18 (fixed-array encoding): the encoding of a fixed array whose elements have
the encodings listed in `l` is exactly the concatenation of these encodings,
with no length prefix; an array of `n` scalars of width `w` is encoded on
exactly `n * w` bytes; and the decoder reads the elements one after the other,
each from its own bytes, into the elements of the target in index order. -/
theorem fixed_array_encoding (t t2 : GoType) (l : List (Value × List Byte))
    (xs : List Value) (m : List (Value × List Byte × Value))
    (h : ∀ p ∈ l, Marshal t p.1 = .returned p.2 none)
    (hs : scalar t2 = true) (hx : ∀ x ∈ xs, sized t2 x = true)
    (hm : ∀ p ∈ m, Reads (newTypeDecoder t) p.1 p.2.1 p.2.2) :
    Marshal (.array t l.length) (.array (l.map Prod.fst)) =
      .returned (l.map Prod.snd).flatten none ∧
    (∃ bs, Marshal (.array t2 xs.length) (.array xs) = .returned bs none ∧
      bs.length = xs.length * scalarWidth t2) ∧
    Reads (newTypeDecoder (.array t m.length)) (.array (m.map (fun p => p.1)))
      (m.map (fun p => p.2.1)).flatten (.array (m.map (fun p => p.2.2))) := by
  refine ⟨?_, ?_, ?_⟩
  · apply Marshal_of_emits
    simp only [newTypeEncoder]
    exact emits_elems (newTypeEncoder t) l (fun p hp => emits_of_Marshal t p.1 p.2 (h p hp))
  · obtain ⟨bs, hb, hlen⟩ := emits_scalars t2 xs hs hx
    refine ⟨bs, Marshal_of_emits _ _ _ ?_, hlen⟩
    simp only [newTypeEncoder]
    exact hb
  · intro r
    simp only [newTypeDecoder, arrayDecoder_decode, reads_elems (newTypeDecoder t) m hm r]

theorem fixed_array_encoding_witness :
    (∀ p ∈ [(Value.uint .w16 257, ([1, 1] : List Byte)), (Value.uint .w16 2, [2, 0])],
      Marshal (.uint .w16) p.1 = .returned p.2 none) ∧
    scalar (.int .w32) = true ∧
    (∀ x ∈ [Value.int .w32 (-1), Value.int .w32 7, Value.int .w32 0], sized (.int .w32) x = true) ∧
    (∀ p ∈ [(Value.uint .w16 0, ([1, 1] : List Byte), Value.uint .w16 257),
        (Value.uint .w16 0, [2, 0], Value.uint .w16 2)],
      Reads (newTypeDecoder (.uint .w16)) p.1 p.2.1 p.2.2) ∧
    Marshal (.array (.uint .w16) 2) (.array [.uint .w16 257, .uint .w16 2]) =
      .returned [1, 1, 2, 0] none ∧
    (∃ bs, Marshal (.array (.int .w32) 3) (.array [.int .w32 (-1), .int .w32 7, .int .w32 0]) =
        .returned bs none ∧ bs.length = 3 * scalarWidth (.int .w32)) ∧
    Reads (newTypeDecoder (.array (.uint .w16) 2)) (.array [.uint .w16 0, .uint .w16 0])
      [1, 1, 2, 0] (.array [.uint .w16 257, .uint .w16 2]) := by
  have hl : ∀ p ∈ [(Value.uint .w16 257, ([1, 1] : List Byte)), (Value.uint .w16 2, [2, 0])],
      Marshal (.uint .w16) p.1 = .returned p.2 none := by
    intro p hp
    simp only [List.mem_cons, List.mem_singleton, List.not_mem_nil, or_false] at hp
    rcases hp with rfl | rfl <;> rfl
  have hx : ∀ x ∈ [Value.int .w32 (-1), Value.int .w32 7, Value.int .w32 0],
      sized (.int .w32) x = true := by
    intro x hx
    simp only [List.mem_cons, List.mem_singleton, List.not_mem_nil, or_false] at hx
    rcases hx with rfl | rfl | rfl <;> rfl
  have hm : ∀ p ∈ [(Value.uint .w16 0, ([1, 1] : List Byte), Value.uint .w16 257),
      (Value.uint .w16 0, [2, 0], Value.uint .w16 2)],
      Reads (newTypeDecoder (.uint .w16)) p.1 p.2.1 p.2.2 := by
    intro p hp
    simp only [List.mem_cons, List.mem_singleton, List.not_mem_nil, or_false] at hp
    rcases hp with rfl | rfl
    · exact reads_of_Marshal (.uint .w16) (.uint .w16 257) [1, 1] (by decide) rfl
    · exact reads_of_Marshal (.uint .w16) (.uint .w16 2) [2, 0] (by decide) rfl
  have h := fixed_array_encoding (.uint .w16) (.int .w32) _ _ _ hl rfl hx hm
  exact ⟨hl, rfl, hx, hm, h.1, h.2.1, h.2.2⟩

/-- Claim C19 (set wire form): for a map to `bool` whose keys have the encodings listed
in `l`, the encoding is the four-byte count followed by the encodings of the
keys only, of length 4 plus the sum of the key lengths, whatever the booleans
are; the decoder, given a count and then that many encoded keys `m`, reads
them all and sets each key to `true`. -/
theorem set_wire_form (key : GoType) (l : List ((Value × Value) × List Byte))
    (m : List (Value × List Byte)) (z : Value) (r : List Byte)
    (h : ∀ p ∈ l, Marshal key p.1.1 = .returned p.2 none)
    (hr : ∀ p ∈ m, Reads (newTypeDecoder key) (zero key) p.2 p.1)
    (hl : m.length < 2 ^ 32) :
    Marshal (.map key .bool) (.map (l.map Prod.fst)) =
      .returned (littleEndian 4 l.length ++ (l.map Prod.snd).flatten) none ∧
    (littleEndian 4 l.length ++ (l.map Prod.snd).flatten).length =
      4 + (l.map (fun p => p.2.length)).sum ∧
    Marshal (.map key .bool) .nilMap = .returned (littleEndian 4 0) none ∧
    newTypeDecoder (.map key .bool)
        (NewDecoder ((littleEndian 4 m.length ++ (m.map Prod.snd).flatten) ++ r)) z =
      ⟨none, NewDecoder r,
        .map ((m.map Prod.fst).foldl (fun acc k => SetMapIndex acc k (.bool true)) [])⟩ ∧
    ∀ kv ∈ (m.map Prod.fst).foldl (fun acc k => SetMapIndex acc k (.bool true)) [],
      kv.2 = Value.bool true := by
  refine ⟨?_, ?_, (nilMap_comes_back_empty key .bool).1, ?_,
    foldl_SetMapIndex_true _ [] (fun kv hkv => by cases hkv)⟩
  · apply Marshal_of_emits
    rw [newTypeEncoder_map]
    simp only [GoType.isBool, if_true]
    have h1 := emits_keys (newTypeEncoder key) l
      (fun p hp => emits_of_Marshal key p.1.1 p.2 (h p hp))
    have h2 := emits_counted (fun e => encodeKeys (newTypeEncoder key) e (l.map Prod.fst))
      l.length _ h1
    intro e
    obtain ⟨e1, he1, hb1⟩ := h2 e
    exact ⟨e1, by simp only [setEncoder_encode, List.length_map, he1], hb1⟩
  · simp only [List.length_append, littleEndian_length, List.length_flatten, List.map_map]
    rfl
  · rw [newTypeDecoder_map]
    simp only [GoType.isBool, if_true, setDecoder_decode, NewDecoder, List.append_assoc]
    rw [← PutUint_littleEndian, ReadU32_PutUint]
    simp only [Nat.mod_mod, Nat.mod_eq_of_lt hl, reads_keys key (newTypeDecoder key) m hr r []]

theorem set_wire_form_witness :
    (∀ p ∈ [((Value.string [0x62], Value.bool true), ([1, 0, 0, 0, 0x62] : List Byte)),
        ((Value.string [0x61], Value.bool false), [1, 0, 0, 0, 0x61])],
      Marshal .string p.1.1 = .returned p.2 none) ∧
    (∀ p ∈ [(Value.string [0x62], ([1, 0, 0, 0, 0x62] : List Byte)),
        (Value.string [0x61], [1, 0, 0, 0, 0x61])],
      Reads (newTypeDecoder .string) (zero .string) p.2 p.1) ∧
    [(Value.string [0x62], ([1, 0, 0, 0, 0x62] : List Byte)),
      (Value.string [0x61], [1, 0, 0, 0, 0x61])].length < 2 ^ 32 ∧
    Marshal (.map .string .bool)
        (.map [(.string [0x62], .bool true), (.string [0x61], .bool false)]) =
      .returned [2, 0, 0, 0, 1, 0, 0, 0, 0x62, 1, 0, 0, 0, 0x61] none ∧
    newTypeDecoder (.map .string .bool)
        (NewDecoder ([2, 0, 0, 0, 1, 0, 0, 0, 0x62, 1, 0, 0, 0, 0x61] ++ [9])) .nilMap =
      ⟨none, NewDecoder [9], .map [(.string [0x62], .bool true), (.string [0x61], .bool true)]⟩ := by
  have hl : ∀ p ∈ [((Value.string [0x62], Value.bool true), ([1, 0, 0, 0, 0x62] : List Byte)),
      ((Value.string [0x61], Value.bool false), [1, 0, 0, 0, 0x61])],
      Marshal .string p.1.1 = .returned p.2 none := by
    intro p hp
    simp only [List.mem_cons, List.mem_singleton, List.not_mem_nil, or_false] at hp
    rcases hp with rfl | rfl <;> rfl
  have hr : ∀ p ∈ [(Value.string [0x62], ([1, 0, 0, 0, 0x62] : List Byte)),
      (Value.string [0x61], [1, 0, 0, 0, 0x61])],
      Reads (newTypeDecoder .string) (zero .string) p.2 p.1 := by
    intro p hp
    simp only [List.mem_cons, List.mem_singleton, List.not_mem_nil, or_false] at hp
    rcases hp with rfl | rfl
    · exact reads_of_Marshal .string (.string [0x62]) _ (by decide) rfl
    · exact reads_of_Marshal .string (.string [0x61]) _ (by decide) rfl
  have h := set_wire_form .string _ _ .nilMap [9] hl hr (by decide)
  exact ⟨hl, hr, by decide, h.1, h.2.2.2.1⟩

/-! ## Decoding an encoding whose end is missing -/

theorem CutRun.on_empty {run : Run} {bs : List Byte} (h : CutRun run bs) :
    (run ⟨[]⟩).1 ≠ none ∨ (run ⟨[]⟩).2 = ⟨[]⟩ := by
  by_cases hb : bs = []
  · subst hb
    have := h.1 []
    simp only [List.append_nil] at this
    right
    rw [this]
  · exact h.2 [] bs rfl hb

theorem CutRun_nil : CutRun (fun d => (none, d)) [] := by
  refine ⟨fun r => rfl, fun p s hps hs => ?_⟩
  have := List.append_eq_nil.mp hps.symm
  exact absurd this.2 hs

theorem bindRun_of_ok (g : decoderFunc) (z : Value) (k : Value → Run) (d d1 : Decoder)
    (h : runOf g z d = (none, d1)) : bindRun g z k d = k (g d z).v d1 := by
  rcases hg : g d z with ⟨err, d2, x⟩
  simp only [runOf, hg, Prod.mk.injEq] at h
  obtain ⟨rfl, rfl⟩ := h
  simp only [bindRun, hg]

theorem bindRun_of_error (g : decoderFunc) (z : Value) (k : Value → Run) (d : Decoder)
    (h : (runOf g z d).1 ≠ none) : (bindRun g z k d).1 ≠ none := by
  rcases hg : g d z with ⟨err, d2, x⟩
  simp only [runOf, hg] at h
  cases err with
  | none => exact absurd rfl h
  | some e => simp [bindRun, hg]

theorem bindRun_cases (g : decoderFunc) (z : Value) (k : Value → Run) (d : Decoder) :
    (bindRun g z k d).1 ≠ none ∨
      ((runOf g z d).1 = none ∧ bindRun g z k d = k (g d z).v (runOf g z d).2) := by
  rcases hg : g d z with ⟨err, d2, x⟩
  cases err with
  | none => right; simp [bindRun, runOf, hg]
  | some e => left; simp [bindRun, hg]

theorem CutRun_bind (g : decoderFunc) (z : Value) (k : Value → Run) (bs1 bs2 : List Byte)
    (h1 : CutRun (runOf g z) bs1) (h2 : ∀ x, CutRun (k x) bs2) :
    CutRun (bindRun g z k) (bs1 ++ bs2) := by
  refine ⟨fun r => ?_, fun p s hps hs => ?_⟩
  · rw [List.append_assoc, bindRun_of_ok g z k _ _ (h1.1 (bs2 ++ r))]
    exact (h2 _).1 r
  · rcases List.append_eq_append_iff.mp hps with ⟨a, hp, hs2⟩ | ⟨c, hb1, hs2⟩
    · -- `p = bs1 ++ a`, `bs2 = a ++ s`
      rw [hp, bindRun_of_ok g z k _ _ (h1.1 a)]
      exact (h2 _).2 a s hs2 hs
    · -- `bs1 = p ++ c`, `s = c ++ bs2`
      by_cases hc : c = []
      · subst hc
        simp only [List.append_nil] at hb1
        have hfull := h1.1 []
        simp only [List.append_nil] at hfull
        rw [← hb1, bindRun_of_ok g z k _ _ hfull]
        exact (h2 _).on_empty
      · rcases bindRun_cases g z k ⟨p⟩ with he | ⟨hn, heq⟩
        · exact Or.inl he
        · rcases h1.2 p c hb1 hc with h3 | h3
          · exact absurd hn h3
          · rw [heq, h3]
            exact (h2 _).on_empty

theorem StrictRun_bind (g : decoderFunc) (z : Value) (k : Value → Run) (bs1 bs2 : List Byte)
    (h1 : CutRun (runOf g z) bs1) (h2 : ∀ x, StrictRun (k x) bs2) (hne : bs2 ≠ []) :
    StrictRun (bindRun g z k) (bs1 ++ bs2) := by
  intro p s hps hs
  rcases List.append_eq_append_iff.mp hps with ⟨a, hp, hs2⟩ | ⟨c, hb1, hs2⟩
  · rw [hp, bindRun_of_ok g z k _ _ (h1.1 a)]
    exact h2 _ a s hs2 hs
  · by_cases hc : c = []
    · subst hc
      simp only [List.append_nil] at hb1
      have hfull := h1.1 []
      simp only [List.append_nil] at hfull
      rw [← hb1, bindRun_of_ok g z k _ _ hfull]
      exact h2 _ [] bs2 rfl hne
    · rcases bindRun_cases g z k ⟨p⟩ with he | ⟨hn, heq⟩
      · exact he
      · rcases h1.2 p c hb1 hc with h3 | h3
        · exact absurd hn h3
        · rw [heq, h3]
          exact h2 _ [] bs2 rfl hne

theorem StrictRun_bind_first (g : decoderFunc) (z : Value) (k : Value → Run) (bs : List Byte)
    (h : StrictRun (runOf g z) bs) : StrictRun (bindRun g z k) (bs ++ []) := by
  intro p s hps hs
  rw [List.append_nil] at hps
  exact bindRun_of_error g z k _ (h p s hps hs)

theorem binaryRead_short (p : List Byte) (n : Nat) (hn : 0 < n) (h : p.length < n) :
    ∃ err d1, binaryRead ⟨p⟩ n = (.error err, d1) := by
  obtain ⟨err, he, _⟩ := binaryRead_fail ⟨p⟩ n hn h
  exact ⟨err, _, he⟩

theorem cut_fixed (g : decoderFunc) (z : Value) (n : Nat) (hn : 0 < n)
    (hg : ∀ d, runOf g z d = (errorOf (binaryRead d n).1, (binaryRead d n).2))
    (bs : List Byte) (hl : bs.length = n) :
    CutRun (runOf g z) bs ∧ StrictRun (runOf g z) bs := by
  have hstrict : StrictRun (runOf g z) bs := by
    intro p s hps hs
    have hlen : p.length < n := by
      have := congrArg List.length hps
      simp only [List.length_append] at this
      have hs0 : 0 < s.length := List.length_pos.mpr hs
      omega
    obtain ⟨err, d1, he⟩ := binaryRead_short p n hn hlen
    rw [hg, he]
    simp [errorOf]
  refine ⟨⟨fun r => ?_, fun p s hps hs => Or.inl (hstrict p s hps hs)⟩, hstrict⟩
  rw [hg, binaryRead_front bs r n hl hn]
  rfl


theorem ReadU32_short (p : List Byte) (h : p.length < 4) :
    ∃ err d1, Decoder.ReadU32 ⟨p⟩ = (.error err, d1) := by
  obtain ⟨err, d1, he⟩ := binaryRead_short p 4 (by decide) h
  exact ⟨err, d1, by simp only [Decoder.ReadU32, he]⟩

theorem cut_counted (run : Nat → Run) (n : Nat) (hn : n < 2 ^ 32) (body : List Byte)
    (h : CutRun (run n) body) :
    CutRun (fun d => match d.ReadU32 with
      | (.error err, d1) => (some err, d1)
      | (.ok l, d1) => run l d1) (PutUint 4 n ++ body) := by
  have hmod : n % 2 ^ 32 = n := Nat.mod_eq_of_lt hn
  refine ⟨fun r => ?_, fun p s hps hs => ?_⟩
  · simp only [List.append_assoc, ReadU32_PutUint, hmod]
    exact h.1 r
  · rcases List.append_eq_append_iff.mp hps with ⟨a, hp, hs2⟩ | ⟨c, hb1, hs2⟩
    · simp only [hp, ReadU32_PutUint, hmod]
      exact h.2 a s hs2 hs
    · by_cases hc : c = []
      · subst hc
        simp only [List.append_nil] at hb1
        have h0 := ReadU32_PutUint n []
        simp only [List.append_nil, hmod] at h0
        simp only [← hb1, h0]
        exact h.on_empty
      · left
        have hlen : p.length < 4 := by
          have := congrArg List.length hb1
          simp only [List.length_append, PutUint_length] at this
          have hc0 : 0 < c.length := List.length_pos.mpr hc
          omega
        obtain ⟨err, d1, he⟩ := ReadU32_short p hlen
        simp only [he]
        simp

theorem runOf_bool (z : Bool) (d : Decoder) :
    runOf boolDecoder (.bool z) d = (errorOf (binaryRead d 1).1, (binaryRead d 1).2) := by
  simp only [runOf, boolDecoder, Decoder.ReadBoolean, Decoder.ReadU8]
  rcases binaryRead d 1 with ⟨_ | _, _⟩ <;> rfl

theorem runOf_uint (w : Width) (z : Nat) (d : Decoder) :
    runOf uintDecoder (.uint w z) d =
      (errorOf (binaryRead d w.bytes).1, (binaryRead d w.bytes).2) := by
  simp only [runOf, uintDecoder_eq, ReadU_eq]
  rcases binaryRead d w.bytes with ⟨_ | _, _⟩ <;> rfl

theorem runOf_int (w : Width) (z : Int) (d : Decoder) :
    runOf intDecoder (.int w z) d =
      (errorOf (binaryRead d w.bytes).1, (binaryRead d w.bytes).2) := by
  simp only [runOf, intDecoder_eq, ReadI_eq]
  rcases binaryRead d w.bytes with ⟨_ | _, _⟩ <;> rfl

theorem runOf_float32 (z : Nat) (d : Decoder) :
    runOf floatDecoder (.float32 z) d = (errorOf (binaryRead d 4).1, (binaryRead d 4).2) := by
  simp only [runOf, floatDecoder, Decoder.ReadF32]
  rcases binaryRead d 4 with ⟨_ | _, _⟩ <;> rfl

theorem runOf_float64 (z : Nat) (d : Decoder) :
    runOf floatDecoder (.float64 z) d = (errorOf (binaryRead d 8).1, (binaryRead d 8).2) := by
  simp only [runOf, floatDecoder, Decoder.ReadF64]
  rcases binaryRead d 8 with ⟨_ | _, _⟩ <;> rfl

/-- Every value of a scalar type has an encoding of at least one byte, and its
decoder fails on every input that ends inside it. -/
theorem cut_scalar (t : GoType) (v : Value) (hs : scalar t = true) (hv : sized t v = true) :
    ∃ bs, Emits (newTypeEncoder t) v bs ∧ CutRun (runOf (newTypeDecoder t) (zero t)) bs ∧
      StrictRun (runOf (newTypeDecoder t) (zero t)) bs ∧ bs ≠ [] := by
  have hne : ∀ (bs : List Byte) (n : Nat), 0 < n → bs.length = n → bs ≠ [] := by
    intro bs n hn hl hb
    subst hb
    simp at hl
    omega
  cases t <;> try (simp [scalar] at hs; done)
  case bool =>
    cases v <;> try (simp [sized] at hv; done)
    case bool b =>
      have hc := cut_fixed boolDecoder (.bool false) 1 (by decide) (runOf_bool false)
        [if b then 1 else 0] rfl
      simp only [newTypeEncoder, newTypeDecoder, zero]
      exact ⟨_, fun e => ⟨_, rfl, WriteBoolean_buf e b⟩, hc.1, hc.2, by simp⟩
  case uint w =>
    cases v <;> try (simp [sized] at hv; done)
    case uint w1 n =>
      simp only [sized, beq_iff_eq] at hv
      subst hv
      have hc := cut_fixed uintDecoder (.uint w 0) w.bytes w.bytes_pos (runOf_uint w 0)
        (PutUint w.bytes (n % 2 ^ w.bits)) (PutUint_length _ _)
      simp only [newTypeEncoder, newTypeDecoder, zero]
      exact ⟨_, fun e => ⟨_, uintEncoder_eq w n e, WriteU_buf w e _⟩, hc.1, hc.2,
        hne _ _ w.bytes_pos (PutUint_length _ _)⟩
  case int w =>
    cases v <;> try (simp [sized] at hv; done)
    case int w1 i =>
      simp only [sized, beq_iff_eq] at hv
      subst hv
      have hc := cut_fixed intDecoder (.int w 0) w.bytes w.bytes_pos (runOf_int w 0)
        (PutUint w.bytes (toUnsigned w.bits i)) (PutUint_length _ _)
      simp only [newTypeEncoder, newTypeDecoder, zero]
      exact ⟨_, fun e => ⟨_, intEncoder_eq w i e, WriteI_buf w e _⟩, hc.1, hc.2,
        hne _ _ w.bytes_pos (PutUint_length _ _)⟩
  case float32 =>
    cases v <;> try (simp [sized] at hv; done)
    case float32 b =>
      have hc := cut_fixed floatDecoder (.float32 0) 4 (by decide) (runOf_float32 0)
        (PutUint 4 (quiet32 b)) (PutUint_length _ _)
      simp only [newTypeEncoder, newTypeDecoder, zero]
      exact ⟨_, fun e => ⟨_, rfl, by simp [Encoder.WriteF32, bufferWrite_buf, reserveCapacity_buf]⟩,
        hc.1, hc.2, hne _ 4 (by decide) (PutUint_length _ _)⟩
  case float64 =>
    cases v <;> try (simp [sized] at hv; done)
    case float64 b =>
      have hc := cut_fixed floatDecoder (.float64 0) 8 (by decide) (runOf_float64 0)
        (PutUint 8 b) (PutUint_length _ _)
      simp only [newTypeEncoder, newTypeDecoder, zero]
      exact ⟨_, fun e => ⟨_, rfl, by simp [Encoder.WriteF64, bufferWrite_buf, reserveCapacity_buf]⟩,
        hc.1, hc.2, hne _ 8 (by decide) (PutUint_length _ _)⟩

theorem cut_string (s z : List Byte) (hl : s.length < 2 ^ 32) :
    CutRun (runOf stringDecoder (.string z)) (PutUint 4 (s.length % 2 ^ 32) ++ s) := by
  have heq : runOf stringDecoder (.string z) = (fun d => match d.ReadU32 with
      | (.error err, d1) => (some err, d1)
      | (.ok l, d1) => (fun (l : Nat) (d : Decoder) => (none, ⟨d.Buffer.drop l⟩)) l d1) := by
    funext d
    simp only [runOf, stringDecoder, Decoder.ReadString, bufferNext]
    rcases d.ReadU32 with ⟨_ | _, _⟩ <;> rfl
  rw [heq, Nat.mod_eq_of_lt hl]
  apply cut_counted (fun (l : Nat) (d : Decoder) => (none, ⟨d.Buffer.drop l⟩)) s.length hl s
  refine ⟨fun r => by simp, fun p t hps ht => Or.inr ?_⟩
  have hlen : p.length ≤ s.length := by
    have := congrArg List.length hps
    simp only [List.length_append] at this
    omega
  simp [List.drop_of_length_le hlen]


theorem elemsRun_cons (g : decoderFunc) (z : Value) (zs : List Value) :
    (fun d => ((decodeElems g d (z :: zs)).1, (decodeElems g d (z :: zs)).2.1)) =
      bindRun g z (fun _ d => ((decodeElems g d zs).1, (decodeElems g d zs).2.1)) := by
  funext d
  simp only [decodeElems, bindRun]
  rcases g d z with ⟨_ | _, _, _⟩ <;> rfl

theorem fieldsRun_cons (g : decoderFunc) (gs : List decoderFunc) (z : Value) (zs : List Value) :
    (fun d => ((decodeFields (g :: gs) d (z :: zs)).1, (decodeFields (g :: gs) d (z :: zs)).2.1)) =
      bindRun g z (fun _ d => ((decodeFields gs d zs).1, (decodeFields gs d zs).2.1)) := by
  funext d
  simp only [decodeFields, bindRun]
  rcases g d z with ⟨_ | _, _, _⟩ <;> rfl

theorem keysRun_succ (key : GoType) (g : decoderFunc) (n : Nat) (m : List (Value × Value)) :
    (fun d => ((decodeKeys key g (n + 1) d m).1, (decodeKeys key g (n + 1) d m).2.1)) =
      bindRun g (zero key) (fun k d =>
        ((decodeKeys key g n d (SetMapIndex m k (.bool true))).1,
          (decodeKeys key g n d (SetMapIndex m k (.bool true))).2.1)) := by
  funext d
  simp only [decodeKeys, bindRun]
  rcases g d (zero key) with ⟨_ | _, _, _⟩ <;> rfl

theorem entriesRun_succ (key elem : GoType) (gk gv : decoderFunc) (n : Nat)
    (m : List (Value × Value)) :
    (fun d => ((decodeEntries key elem gk gv (n + 1) d m).1,
        (decodeEntries key elem gk gv (n + 1) d m).2.1)) =
      bindRun gk (zero key) (fun k => bindRun gv (zero elem) (fun val d =>
        ((decodeEntries key elem gk gv n d (SetMapIndex m k val)).1,
          (decodeEntries key elem gk gv n d (SetMapIndex m k val)).2.1))) := by
  funext d
  simp only [decodeEntries, bindRun]
  rcases gk d (zero key) with ⟨_ | _, d1, _⟩
  · simp only
    rcases gv d1 (zero elem) with ⟨_ | _, _, _⟩ <;> rfl
  · rfl

theorem cut_elems (f : encoderFunc) (g : decoderFunc) (z : Value) (xs : List Value)
    (h : ∀ x ∈ xs, ∃ bs, Emits f x bs ∧ CutRun (runOf g z) bs) :
    ∃ bs, (∀ e, ∃ e1, encodeElems f e xs = .done e1 ∧ e1.buf = e.buf ++ bs) ∧
      CutRun (fun d => ((decodeElems g d (List.replicate xs.length z)).1,
        (decodeElems g d (List.replicate xs.length z)).2.1)) bs := by
  induction xs with
  | nil => exact ⟨[], fun e => ⟨e, rfl, by simp⟩, CutRun_nil⟩
  | cons x xs ih =>
    obtain ⟨b1, he1, hc1⟩ := h x (List.mem_cons_self _ _)
    obtain ⟨b2, he2, hc2⟩ := ih (fun y hy => h y (List.mem_cons_of_mem _ hy))
    refine ⟨b1 ++ b2, fun e => ?_, ?_⟩
    · obtain ⟨e1, h1, h1b⟩ := he1 e
      obtain ⟨e2, h2, h2b⟩ := he2 e1
      exact ⟨e2, by simp only [encodeElems, h1, h2], by rw [h2b, h1b, List.append_assoc]⟩
    · simp only [List.length_cons, List.replicate_succ]
      rw [elemsRun_cons]
      exact CutRun_bind g z _ b1 b2 hc1 (fun _ => hc2)

theorem cut_keys (key : GoType) (f : encoderFunc) (g : decoderFunc) (es : List (Value × Value))
    (h : ∀ kv ∈ es, ∃ bs, Emits f kv.1 bs ∧ CutRun (runOf g (zero key)) bs) :
    ∃ bs, (∀ e, ∃ e1, encodeKeys f e es = .done e1 ∧ e1.buf = e.buf ++ bs) ∧
      ∀ m, CutRun (fun d => ((decodeKeys key g es.length d m).1,
        (decodeKeys key g es.length d m).2.1)) bs := by
  induction es with
  | nil => exact ⟨[], fun e => ⟨e, rfl, by simp⟩, fun _ => CutRun_nil⟩
  | cons a es ih =>
    obtain ⟨k, v⟩ := a
    obtain ⟨b1, he1, hc1⟩ := h (k, v) (List.mem_cons_self _ _)
    obtain ⟨b2, he2, hc2⟩ := ih (fun y hy => h y (List.mem_cons_of_mem _ hy))
    refine ⟨b1 ++ b2, fun e => ?_, fun m => ?_⟩
    · obtain ⟨e1, h1, h1b⟩ := he1 e
      obtain ⟨e2, h2, h2b⟩ := he2 e1
      exact ⟨e2, by simp only [encodeKeys, h1, h2], by rw [h2b, h1b, List.append_assoc]⟩
    · simp only [List.length_cons]
      rw [keysRun_succ]
      exact CutRun_bind g (zero key) _ b1 b2 hc1 (fun _ => hc2 _)

theorem cut_entries (key elem : GoType) (fk fv : encoderFunc) (gk gv : decoderFunc)
    (es : List (Value × Value))
    (h : ∀ kv ∈ es, (∃ bs, Emits fk kv.1 bs ∧ CutRun (runOf gk (zero key)) bs) ∧
      (∃ bs, Emits fv kv.2 bs ∧ CutRun (runOf gv (zero elem)) bs)) :
    ∃ bs, (∀ e, ∃ e1, encodeEntries fk fv e es = .done e1 ∧ e1.buf = e.buf ++ bs) ∧
      ∀ m, CutRun (fun d => ((decodeEntries key elem gk gv es.length d m).1,
        (decodeEntries key elem gk gv es.length d m).2.1)) bs := by
  induction es with
  | nil => exact ⟨[], fun e => ⟨e, rfl, by simp⟩, fun _ => CutRun_nil⟩
  | cons a es ih =>
    obtain ⟨k, v⟩ := a
    obtain ⟨⟨b1, he1, hc1⟩, ⟨b2, he2, hc2⟩⟩ := h (k, v) (List.mem_cons_self _ _)
    obtain ⟨b3, he3, hc3⟩ := ih (fun y hy => h y (List.mem_cons_of_mem _ hy))
    refine ⟨b1 ++ (b2 ++ b3), fun e => ?_, fun m => ?_⟩
    · obtain ⟨e1, h1, h1b⟩ := he1 e
      obtain ⟨e2, h2, h2b⟩ := he2 e1
      obtain ⟨e3, h3, h3b⟩ := he3 e2
      exact ⟨e3, by simp only [encodeEntries, h1, h2, h3], by rw [h3b, h2b, h1b]; simp⟩
    · simp only [List.length_cons]
      rw [entriesRun_succ]
      exact CutRun_bind gk (zero key) _ b1 (b2 ++ b3) hc1
        (fun _ => CutRun_bind gv (zero elem) _ b2 b3 hc2 (fun _ => hc3 _))

theorem cut_counted_emits (body : Encoder → Outcome) (run : Nat → Run) (g : decoderFunc)
    (z : Value) (n : Nat) (hn : n < 2 ^ 32) (bs : List Byte)
    (he : ∀ e, ∃ e1, body e = .done e1 ∧ e1.buf = e.buf ++ bs)
    (hg : runOf g z = (fun d => match d.ReadU32 with
      | (.error err, d1) => (some err, d1)
      | (.ok l, d1) => run l d1))
    (hc : CutRun (run n) bs) :
    (∀ e : Encoder, ∃ e1, body (e.WriteU32 (n % 2 ^ 32)) = .done e1 ∧
      e1.buf = e.buf ++ (PutUint 4 n ++ bs)) ∧ CutRun (runOf g z) (PutUint 4 n ++ bs) := by
  refine ⟨fun e => ?_, ?_⟩
  · obtain ⟨e1, he1, hb1⟩ := he (e.WriteU32 (n % 2 ^ 32))
    exact ⟨e1, he1, by rw [hb1, WriteU32_buf, Nat.mod_eq_of_lt hn, List.append_assoc]⟩
  · rw [hg]
    exact cut_counted run n hn bs hc

theorem runOf_slice (elem : GoType) (g : decoderFunc) (z : Value) :
    runOf (sliceDecoder_decode elem g) z = (fun d => match d.ReadU32 with
      | (.error err, d1) => (some err, d1)
      | (.ok l, d1) => (fun (l : Nat) (d : Decoder) =>
          ((decodeElems g d (List.replicate l (zero elem))).1,
            (decodeElems g d (List.replicate l (zero elem))).2.1)) l d1) := by
  funext d
  simp only [runOf, sliceDecoder_decode]
  rcases d.ReadU32 with ⟨_ | _, _⟩ <;> rfl

theorem runOf_set (key : GoType) (g : decoderFunc) (z : Value) :
    runOf (setDecoder_decode key g) z = (fun d => match d.ReadU32 with
      | (.error err, d1) => (some err, d1)
      | (.ok l, d1) => (fun (l : Nat) (d : Decoder) =>
          ((decodeKeys key g l d []).1, (decodeKeys key g l d []).2.1)) l d1) := by
  funext d
  simp only [runOf, setDecoder_decode]
  rcases d.ReadU32 with ⟨_ | _, _⟩ <;> rfl

theorem runOf_map (key elem : GoType) (gk gv : decoderFunc) (z : Value) :
    runOf (mapDecoder_decode key elem gk gv) z = (fun d => match d.ReadU32 with
      | (.error err, d1) => (some err, d1)
      | (.ok l, d1) => (fun (l : Nat) (d : Decoder) =>
          ((decodeEntries key elem gk gv l d []).1,
            (decodeEntries key elem gk gv l d []).2.1)) l d1) := by
  funext d
  simp only [runOf, mapDecoder_decode]
  rcases d.ReadU32 with ⟨_ | _, _⟩ <;> rfl

theorem runOf_array (g : decoderFunc) (zs : List Value) :
    runOf (arrayDecoder_decode g) (.array zs) =
      (fun d => ((decodeElems g d zs).1, (decodeElems g d zs).2.1)) := by
  funext d
  simp only [runOf, arrayDecoder_decode]

theorem runOf_struct (gs : List decoderFunc) (zs : List Value) :
    runOf (structDecoder_decode gs) (.struct zs) =
      (fun d => ((decodeFields gs d zs).1, (decodeFields gs d zs).2.1)) := by
  funext d
  simp only [runOf, structDecoder_decode]

theorem runOf_option (elem : GoType) (g : decoderFunc) (z : Value) :
    runOf (optionDecoder_decode elem g) z = (fun d => match d.ReadBoolean with
      | (.error err, d1) => (some err, d1)
      | (.ok true, d1) => runOf g (zero elem) d1
      | (.ok false, d1) => (none, d1)) := by
  funext d
  simp only [runOf, optionDecoder_decode]
  rcases d.ReadBoolean with ⟨_ | b, _⟩
  · rfl
  · cases b <;> rfl

theorem ReadBoolean_empty : ∃ err d1, Decoder.ReadBoolean ⟨[]⟩ = (.error err, d1) :=
  ⟨_, _, rfl⟩

theorem cut_option_nil (elem : GoType) (g : decoderFunc) (z : Value) :
    CutRun (runOf (optionDecoder_decode elem g) z) [0] := by
  rw [runOf_option]
  refine ⟨fun r => ?_, fun p s hps hs => ?_⟩
  · have hb := ReadBoolean_byte 0 r
    simp only [List.singleton_append, hb]
    rfl
  · left
    have hp : p = [] := by
      cases p with
      | nil => rfl
      | cons a p =>
        simp only [List.cons_append, List.cons.injEq] at hps
        have := List.append_eq_nil.mp hps.2.symm
        exact absurd this.2 hs
    subst hp
    obtain ⟨err, d1, he⟩ := ReadBoolean_empty
    simp only [he]
    simp

theorem cut_option_some (elem : GoType) (g : decoderFunc) (z : Value) (bs : List Byte)
    (h : CutRun (runOf g (zero elem)) bs) :
    CutRun (runOf (optionDecoder_decode elem g) z) ([1] ++ bs) := by
  rw [runOf_option]
  refine ⟨fun r => ?_, fun p s hps hs => ?_⟩
  · have hb := ReadBoolean_byte 1 (bs ++ r)
    simp only [List.singleton_append, List.cons_append, hb]
    exact h.1 r
  · cases p with
    | nil =>
      left
      obtain ⟨err, d1, he⟩ := ReadBoolean_empty
      simp only [he]
      simp
    | cons a p =>
      simp only [List.singleton_append, List.cons_append, List.cons.injEq] at hps
      obtain ⟨rfl, hps⟩ := hps
      have hb := ReadBoolean_byte 1 p
      simp only [hb]
      exact h.2 p s hps hs


mutual
theorem cut_type : (t : GoType) → (v : Value) → sized t v = true →
    ∃ bs, Emits (newTypeEncoder t) v bs ∧ CutRun (runOf (newTypeDecoder t) (zero t)) bs
  | .bool, v, h => by
    obtain ⟨bs, he, hc, _, _⟩ := cut_scalar .bool v rfl h
    exact ⟨bs, he, hc⟩
  | .uint w, v, h => by
    obtain ⟨bs, he, hc, _, _⟩ := cut_scalar (.uint w) v rfl h
    exact ⟨bs, he, hc⟩
  | .int w, v, h => by
    obtain ⟨bs, he, hc, _, _⟩ := cut_scalar (.int w) v rfl h
    exact ⟨bs, he, hc⟩
  | .float32, v, h => by
    obtain ⟨bs, he, hc, _, _⟩ := cut_scalar .float32 v rfl h
    exact ⟨bs, he, hc⟩
  | .float64, v, h => by
    obtain ⟨bs, he, hc, _, _⟩ := cut_scalar .float64 v rfl h
    exact ⟨bs, he, hc⟩
  | .array elem len, v, h => by
    cases v <;> try (simp [sized] at h; done)
    case array xs =>
      simp only [sized, Bool.and_eq_true, beq_iff_eq, List.all_eq_true] at h
      obtain ⟨rfl, hx⟩ := h
      obtain ⟨bs, he, hc⟩ := cut_elems (newTypeEncoder elem) (newTypeDecoder elem) (zero elem) xs
        (fun x hxm => cut_type elem x (hx x hxm))
      refine ⟨bs, ?_, ?_⟩
      · simp only [newTypeEncoder]
        exact he
      · simp only [newTypeDecoder, zero, runOf_array]
        exact hc
  | .slice elem, v, h => by
    cases v <;> try (simp [sized] at h; done)
    case nilSlice =>
      have h0 := cut_counted_emits (fun e => Outcome.done e) _
        (sliceDecoder_decode elem (newTypeDecoder elem)) (zero (.slice elem)) 0 (by norm_num) []
        (fun e => ⟨e, rfl, by simp⟩) (runOf_slice elem _ _) CutRun_nil
      refine ⟨PutUint 4 0 ++ [], fun e => ?_, ?_⟩
      · obtain ⟨e1, he1, hb1⟩ := h0.1 e
        exact ⟨e1, by simpa [newTypeEncoder, sliceEncoder_encode] using he1, hb1⟩
      · simp only [newTypeDecoder]
        exact h0.2
    case slice xs =>
      simp only [sized, Bool.and_eq_true, decide_eq_true_eq, List.all_eq_true] at h
      obtain ⟨hl, hx⟩ := h
      obtain ⟨bs, he, hc⟩ := cut_elems (newTypeEncoder elem) (newTypeDecoder elem) (zero elem) xs
        (fun x hxm => cut_type elem x (hx x hxm))
      have h0 := cut_counted_emits (fun e => encodeElems (newTypeEncoder elem) e xs) _
        (sliceDecoder_decode elem (newTypeDecoder elem)) (zero (.slice elem)) xs.length hl bs
        he (runOf_slice elem _ _) hc
      refine ⟨PutUint 4 xs.length ++ bs, fun e => ?_, ?_⟩
      · obtain ⟨e1, he1, hb1⟩ := h0.1 e
        exact ⟨e1, by simpa [newTypeEncoder, sliceEncoder_encode] using he1, hb1⟩
      · simp only [newTypeDecoder]
        exact h0.2
  | .struct fields, v, h => by
    cases v <;> try (simp [sized] at h; done)
    case struct vs =>
      simp only [sized] at h
      obtain ⟨bs, he, hc⟩ := cut_fields fields vs h
      refine ⟨bs, ?_, ?_⟩
      · simp only [newTypeEncoder]
        exact he
      · simp only [newTypeDecoder, zero, runOf_struct]
        exact hc
  | .map key elem, v, h => by
    rw [newTypeEncoder_map, newTypeDecoder_map]
    by_cases hb : elem.isBool = true
    · simp only [hb, if_true]
      cases v with
      | nilMap =>
        have h0 := cut_counted_emits (fun e => Outcome.done e) _
          (setDecoder_decode key (newTypeDecoder key)) (zero (.map key elem)) 0 (by norm_num) []
          (fun e => ⟨e, rfl, by simp⟩) (runOf_set key _ _) CutRun_nil
        refine ⟨PutUint 4 0 ++ [], fun e => ?_, h0.2⟩
        obtain ⟨e1, he1, hb1⟩ := h0.1 e
        exact ⟨e1, by simpa [setEncoder_encode] using he1, hb1⟩
      | map es =>
        simp only [sized, Bool.and_eq_true, decide_eq_true_eq, List.all_eq_true] at h
        obtain ⟨hl, hx⟩ := h
        obtain ⟨bs, he, hc⟩ := cut_keys key (newTypeEncoder key) (newTypeDecoder key) es
          (fun kv hkv => cut_type key kv.1 (hx kv hkv).1)
        have h0 := cut_counted_emits (fun e => encodeKeys (newTypeEncoder key) e es) _
          (setDecoder_decode key (newTypeDecoder key)) (zero (.map key elem)) es.length hl bs
          he (runOf_set key _ _) (hc [])
        refine ⟨PutUint 4 es.length ++ bs, fun e => ?_, h0.2⟩
        obtain ⟨e1, he1, hb1⟩ := h0.1 e
        exact ⟨e1, by simpa [setEncoder_encode] using he1, hb1⟩
      | _ => simp [sized] at h
    · simp only [hb, Bool.false_eq_true, if_false]
      cases v with
      | nilMap =>
        have h0 := cut_counted_emits (fun e => Outcome.done e) _
          (mapDecoder_decode key elem (newTypeDecoder key) (newTypeDecoder elem))
          (zero (.map key elem)) 0 (by norm_num) []
          (fun e => ⟨e, rfl, by simp⟩) (runOf_map key elem _ _ _) CutRun_nil
        refine ⟨PutUint 4 0 ++ [], fun e => ?_, h0.2⟩
        obtain ⟨e1, he1, hb1⟩ := h0.1 e
        exact ⟨e1, by simpa [mapEncoder_encode] using he1, hb1⟩
      | map es =>
        simp only [sized, Bool.and_eq_true, decide_eq_true_eq, List.all_eq_true] at h
        obtain ⟨hl, hx⟩ := h
        obtain ⟨bs, he, hc⟩ := cut_entries key elem (newTypeEncoder key) (newTypeEncoder elem)
          (newTypeDecoder key) (newTypeDecoder elem) es
          (fun kv hkv => ⟨cut_type key kv.1 (hx kv hkv).1, cut_type elem kv.2 (hx kv hkv).2⟩)
        have h0 := cut_counted_emits
          (fun e => encodeEntries (newTypeEncoder key) (newTypeEncoder elem) e es) _
          (mapDecoder_decode key elem (newTypeDecoder key) (newTypeDecoder elem))
          (zero (.map key elem)) es.length hl bs he (runOf_map key elem _ _ _) (hc [])
        refine ⟨PutUint 4 es.length ++ bs, fun e => ?_, h0.2⟩
        obtain ⟨e1, he1, hb1⟩ := h0.1 e
        exact ⟨e1, by simpa [mapEncoder_encode] using he1, hb1⟩
      | _ => simp [sized] at h
  | .ptr elem, v, h => by
    cases v <;> try (simp [sized] at h; done)
    case nilPtr =>
      simp only [newTypeEncoder, newTypeDecoder]
      exact ⟨[0], fun e => ⟨_, rfl, WriteBoolean_buf e false⟩, cut_option_nil elem _ _⟩
    case ptr x =>
      simp only [sized] at h
      obtain ⟨bs, he, hc⟩ := cut_type elem x h
      simp only [newTypeEncoder, newTypeDecoder]
      refine ⟨[1] ++ bs, fun e => ?_, cut_option_some elem _ _ bs hc⟩
      obtain ⟨e1, he1, hb1⟩ := he (e.WriteBoolean true)
      exact ⟨e1, he1, by rw [hb1, WriteBoolean_buf, List.append_assoc]; rfl⟩
  | .string, v, h => by
    cases v <;> try (simp [sized] at h; done)
    case string s =>
      simp only [sized, decide_eq_true_eq] at h
      simp only [newTypeEncoder, newTypeDecoder, zero]
      exact ⟨_, fun e => ⟨_, rfl, WriteString_buf e s⟩, cut_string s [] h⟩
  | .unsupported, v, h => by simp [sized] at h
theorem cut_fields : (ts : List GoType) → (vs : List Value) → sizedFields ts vs = true →
    ∃ bs, (∀ e, ∃ e1, encodeFields (newStructEncoder ts) e vs = .done e1 ∧ e1.buf = e.buf ++ bs) ∧
      CutRun (fun d => ((decodeFields (newStructDecoder ts) d (zeros ts)).1,
        (decodeFields (newStructDecoder ts) d (zeros ts)).2.1)) bs
  | [], vs, h => by
    cases vs with
    | nil => exact ⟨[], fun e => ⟨e, rfl, by simp⟩, CutRun_nil⟩
    | cons v vs => simp [sizedFields] at h
  | t :: ts, vs, h => by
    cases vs with
    | nil => simp [sizedFields] at h
    | cons v vs =>
      simp only [sizedFields, Bool.and_eq_true] at h
      obtain ⟨b1, he1, hc1⟩ := cut_type t v h.1
      obtain ⟨b2, he2, hc2⟩ := cut_fields ts vs h.2
      refine ⟨b1 ++ b2, fun e => ?_, ?_⟩
      · obtain ⟨e1, h1, h1b⟩ := he1 e
        obtain ⟨e2, h2, h2b⟩ := he2 e1
        exact ⟨e2, by simp only [newStructEncoder, encodeFields, h1, h2],
          by rw [h2b, h1b, List.append_assoc]⟩
      · simp only [newStructDecoder, zeros]
        rw [fieldsRun_cons]
        exact CutRun_bind _ _ _ b1 b2 hc1 (fun _ => hc2)
end


theorem strict_fields (last : GoType) (x : Value) (hs : scalar last = true)
    (hx : sized last x = true) :
    ∀ (ts : List GoType) (vs : List Value), sizedFields ts vs = true →
    ∃ bs, (∀ e, ∃ e1, encodeFields (newStructEncoder (ts ++ [last])) e (vs ++ [x]) = .done e1 ∧
        e1.buf = e.buf ++ bs) ∧
      StrictRun (fun d => ((decodeFields (newStructDecoder (ts ++ [last])) d (zeros (ts ++ [last]))).1,
        (decodeFields (newStructDecoder (ts ++ [last])) d (zeros (ts ++ [last]))).2.1)) bs ∧
      bs ≠ []
  | [], vs, h => by
    cases vs with
    | cons v vs => simp [sizedFields] at h
    | nil =>
      obtain ⟨bs, he, _, hst, hne⟩ := cut_scalar last x hs hx
      refine ⟨bs ++ [], fun e => ?_, ?_, by simpa using hne⟩
      · obtain ⟨e1, h1, h1b⟩ := he e
        exact ⟨e1, by simp only [List.nil_append, newStructEncoder, encodeFields, h1],
          by rw [h1b, List.append_nil]⟩
      · simp only [List.nil_append, newStructDecoder, zeros]
        rw [fieldsRun_cons]
        exact StrictRun_bind_first _ _ _ bs hst
  | t :: ts, vs, h => by
    cases vs with
    | nil => simp [sizedFields] at h
    | cons v vs =>
      simp only [sizedFields, Bool.and_eq_true] at h
      obtain ⟨b1, he1, hc1⟩ := cut_type t v h.1
      obtain ⟨b2, he2, hst, hne⟩ := strict_fields last x hs hx ts vs h.2
      refine ⟨b1 ++ b2, fun e => ?_, ?_, by simp [hne]⟩
      · obtain ⟨e1, h1, h1b⟩ := he1 e
        obtain ⟨e2, h2, h2b⟩ := he2 e1
        refine ⟨e2, ?_, by rw [h2b, h1b, List.append_assoc]⟩
        simp only [List.cons_append, newStructEncoder, encodeFields, h1]
        exact h2
      · simp only [List.cons_append, newStructDecoder, zeros]
        rw [fieldsRun_cons]
        exact StrictRun_bind _ _ _ b1 b2 hc1 (fun _ => hst) hne

/-- Claim C20, as amended: for every record whose last field is a fixed-width scalar and
whose earlier fields are sized values of supported shapes (every string,
sequence, map and set below `2^32`), `Marshal` returns bytes, and `Unmarshal`
of these bytes with their last `k` removed, `1 ≤ k ≤ len`, into a fresh target
returns an error. -/
theorem truncated_record_fails (ts : List GoType) (last : GoType) (vs : List Value) (x : Value)
    (hs : scalar last = true) (hvs : sizedFields ts vs = true) (hx : sized last x = true) :
    ∃ bytes, Marshal (.struct (ts ++ [last])) (.struct (vs ++ [x])) = .returned bytes none ∧
      ∀ k, 1 ≤ k → k ≤ bytes.length →
        (Unmarshal (bytes.take (bytes.length - k)) (.struct (ts ++ [last]))
          (zero (.struct (ts ++ [last])))).1 ≠ none := by
  obtain ⟨bs, he, hst, _⟩ := strict_fields last x hs hx ts vs hvs
  refine ⟨bs, Marshal_of_emits _ _ _ (by simp only [newTypeEncoder]; exact he), ?_⟩
  intro k hk1 hk2
  have hsplit : bs = bs.take (bs.length - k) ++ bs.drop (bs.length - k) :=
    (List.take_append_drop _ _).symm
  have hne : bs.drop (bs.length - k) ≠ [] := by
    intro h0
    have := congrArg List.length h0
    simp only [List.length_drop, List.length_nil] at this
    omega
  have := hst _ _ hsplit hne
  simpa [Unmarshal, NewDecoder, Decoder.reflectValue, newTypeDecoder, zero,
    structDecoder_decode] using this

theorem truncated_record_fails_witness :
    scalar (.uint .w16) = true ∧
    sizedFields [.string] [.string [0x6d, 0x79, 0x20, 0x65, 0x76, 0x65, 0x6e, 0x74]] = true ∧
    sized (.uint .w16) (.uint .w16 3) = true ∧
    ∃ bytes, Marshal (.struct ([.string] ++ [.uint .w16]))
        (.struct ([.string [0x6d, 0x79, 0x20, 0x65, 0x76, 0x65, 0x6e, 0x74]] ++ [.uint .w16 3])) =
          .returned bytes none ∧
      ∀ k, 1 ≤ k → k ≤ bytes.length →
        (Unmarshal (bytes.take (bytes.length - k)) (.struct ([.string] ++ [.uint .w16]))
          (zero (.struct ([.string] ++ [.uint .w16])))).1 ≠ none :=
  ⟨rfl, by decide, rfl,
    truncated_record_fails [.string] (.uint .w16)
      [.string [0x6d, 0x79, 0x20, 0x65, 0x76, 0x65, 0x6e, 0x74]] (.uint .w16 3) rfl (by decide) rfl⟩

theorem Marshal_event (s : List Byte) (n : Nat) :
    Marshal eventType (.struct [.string s, .uint .w16 n]) =
      .returned ((PutUint 4 (s.length % 2 ^ 32) ++ s) ++ PutUint 2 (n % 2 ^ 16)) none := by
  apply Marshal_of_emits
  intro e
  refine ⟨(e.WriteString s).WriteU16 (n % 2 ^ 16), rfl, ?_⟩
  have h16 : ∀ (e : Encoder) (u : Nat), (e.WriteU16 u).buf = e.buf ++ PutUint 2 u :=
    WriteU_buf .w16
  rw [h16, WriteString_buf, List.append_assoc]

theorem Marshal_event_long_name (R : List Byte)
    (hlen : (0 :: 0 :: R : List Byte).length % 2 ^ 32 = 0) :
    Marshal eventType (.struct [.string (0 :: 0 :: R), .uint .w16 0]) =
      .returned (([0, 0, 0, 0] ++ 0 :: 0 :: (R ++ [0])) ++ [0]) none := by
  rw [Marshal_event, hlen]
  have h1 : PutUint 4 0 = [0, 0, 0, 0] := rfl
  have h2 : PutUint 2 (0 % 2 ^ 16) = [0, 0] := rfl
  rw [h1, h2]
  simp only [List.append_assoc, List.cons_append, List.nil_append, List.singleton_append]

theorem Unmarshal_event_empty_name (b0 b1 : Byte) (rest : List Byte) :
    Unmarshal ([0, 0, 0, 0] ++ b0 :: b1 :: rest) eventType (zero eventType) =
      (none, .struct [.string [], .uint .w16 (Uint [b0, b1] % 2 ^ 16)]) := by
  have h1 : Decoder.ReadU32 ⟨[0, 0, 0, 0] ++ b0 :: b1 :: rest⟩ = (.ok 0, ⟨b0 :: b1 :: rest⟩) :=
    ReadU32_PutUint 0 _
  have h2 : Decoder.ReadU16 ⟨b0 :: b1 :: rest⟩ = (.ok (Uint [b0, b1]), ⟨rest⟩) := by
    have := binaryRead_front [b0, b1] rest 2 rfl (by decide)
    simp only [List.cons_append, List.nil_append] at this
    simp only [Decoder.ReadU16, this]
  simp only [Unmarshal, NewDecoder, Decoder.reflectValue, eventType, newTypeDecoder,
    newStructDecoder, zero, zeros, structDecoder_decode, decodeFields, stringDecoder,
    Decoder.ReadString, h1, bufferNext, List.take_zero, List.drop_zero, uintDecoder, h2]

/-- Claim C20, counterexample: the record `{Name string; ID uint16}` with a name of
`2^32` zero bytes and `ID = 0`.  The length prefix of the name wraps to `0`, so
`Unmarshal` of the encoding with its last byte removed reads the empty name,
takes the first two bytes of the name as `ID` and returns no error. -/
theorem truncated_record_decodes :
    Marshal eventType (.struct [.string (0 :: 0 :: List.replicate 4294967294 0), .uint .w16 0]) =
      .returned (([0, 0, 0, 0] ++ 0 :: 0 :: (List.replicate 4294967294 0 ++ [0])) ++ [0]) none ∧
    Unmarshal ([0, 0, 0, 0] ++ 0 :: 0 :: (List.replicate 4294967294 0 ++ [0])) eventType
        (zero eventType) =
      (none, .struct [.string [], .uint .w16 0]) := by
  refine ⟨Marshal_event_long_name _ ?_, Unmarshal_event_empty_name 0 0 _⟩
  rw [List.length_cons, List.length_cons, List.length_replicate]
  norm_num

/-! ## Encoding never fails on a value of a supported shape -/

theorem emits_all_elems (f : encoderFunc) (xs : List Value)
    (h : ∀ x ∈ xs, ∃ bs, Emits f x bs) :
    ∃ bs, ∀ e, ∃ e1, encodeElems f e xs = .done e1 ∧ e1.buf = e.buf ++ bs := by
  induction xs with
  | nil => exact ⟨[], fun e => ⟨e, rfl, by simp⟩⟩
  | cons x xs ih =>
    obtain ⟨b1, h1⟩ := h x (List.mem_cons_self _ _)
    obtain ⟨b2, h2⟩ := ih (fun y hy => h y (List.mem_cons_of_mem _ hy))
    refine ⟨b1 ++ b2, fun e => ?_⟩
    obtain ⟨e1, he1, hb1⟩ := h1 e
    obtain ⟨e2, he2, hb2⟩ := h2 e1
    exact ⟨e2, by simp only [encodeElems, he1, he2], by rw [hb2, hb1, List.append_assoc]⟩

theorem emits_all_keys (f : encoderFunc) (es : List (Value × Value))
    (h : ∀ kv ∈ es, ∃ bs, Emits f kv.1 bs) :
    ∃ bs, ∀ e, ∃ e1, encodeKeys f e es = .done e1 ∧ e1.buf = e.buf ++ bs := by
  induction es with
  | nil => exact ⟨[], fun e => ⟨e, rfl, by simp⟩⟩
  | cons a es ih =>
    obtain ⟨k, v⟩ := a
    obtain ⟨b1, h1⟩ := h (k, v) (List.mem_cons_self _ _)
    obtain ⟨b2, h2⟩ := ih (fun y hy => h y (List.mem_cons_of_mem _ hy))
    refine ⟨b1 ++ b2, fun e => ?_⟩
    obtain ⟨e1, he1, hb1⟩ := h1 e
    obtain ⟨e2, he2, hb2⟩ := h2 e1
    exact ⟨e2, by simp only [encodeKeys, he1, he2], by rw [hb2, hb1, List.append_assoc]⟩

theorem emits_all_entries (fk fv : encoderFunc) (es : List (Value × Value))
    (h : ∀ kv ∈ es, (∃ bs, Emits fk kv.1 bs) ∧ ∃ bs, Emits fv kv.2 bs) :
    ∃ bs, ∀ e, ∃ e1, encodeEntries fk fv e es = .done e1 ∧ e1.buf = e.buf ++ bs := by
  induction es with
  | nil => exact ⟨[], fun e => ⟨e, rfl, by simp⟩⟩
  | cons a es ih =>
    obtain ⟨k, v⟩ := a
    obtain ⟨⟨b1, h1⟩, ⟨b2, h2⟩⟩ := h (k, v) (List.mem_cons_self _ _)
    obtain ⟨b3, h3⟩ := ih (fun y hy => h y (List.mem_cons_of_mem _ hy))
    refine ⟨b1 ++ b2 ++ b3, fun e => ?_⟩
    obtain ⟨e1, he1, hb1⟩ := h1 e
    obtain ⟨e2, he2, hb2⟩ := h2 e1
    obtain ⟨e3, he3, hb3⟩ := h3 e2
    exact ⟨e3, by simp only [encodeEntries, he1, he2, he3],
      by rw [hb3, hb2, hb1, List.append_assoc, List.append_assoc, List.append_assoc]⟩

mutual
theorem emits_typed : (t : GoType) → (v : Value) → supported t = true → hasType t v = true →
    ∃ bs, Emits (newTypeEncoder t) v bs
  | .bool, v, _, h => by
    cases v <;> try (simp [hasType] at h; done)
    case bool b => exact ⟨_, fun e => ⟨_, rfl, WriteBoolean_buf e b⟩⟩
  | .uint w, v, _, h => by
    cases v <;> try (simp [hasType] at h; done)
    case uint w1 n =>
      exact ⟨_, fun e => ⟨_, uintEncoder_eq w1 n e, WriteU_buf w1 e _⟩⟩
  | .int w, v, _, h => by
    cases v <;> try (simp [hasType] at h; done)
    case int w1 i =>
      exact ⟨_, fun e => ⟨_, intEncoder_eq w1 i e, WriteI_buf w1 e _⟩⟩
  | .float32, v, _, h => by
    cases v <;> try (simp [hasType] at h; done)
    case float32 b =>
      exact ⟨PutUint 4 (quiet32 b), fun e => ⟨_, rfl, by
        simp [Encoder.WriteF32, bufferWrite_buf, reserveCapacity_buf]⟩⟩
  | .float64, v, _, h => by
    cases v <;> try (simp [hasType] at h; done)
    case float64 b =>
      exact ⟨PutUint 8 b, fun e => ⟨_, rfl, by
        simp [Encoder.WriteF64, bufferWrite_buf, reserveCapacity_buf]⟩⟩
  | .array elem len, v, hs, h => by
    cases v <;> try (simp [hasType] at h; done)
    case array xs =>
      simp only [hasType, Bool.and_eq_true, beq_iff_eq, List.all_eq_true] at h
      simp only [supported] at hs
      simp only [newTypeEncoder]
      exact emits_all_elems _ xs (fun x hx => emits_typed elem x hs (h.2 x hx))
  | .slice elem, v, hs, h => by
    simp only [supported] at hs
    simp only [newTypeEncoder]
    cases v <;> try (simp [hasType] at h; done)
    case nilSlice => exact ⟨_, fun e => ⟨_, rfl, WriteU32_buf e 0⟩⟩
    case slice xs =>
      simp only [hasType, List.all_eq_true] at h
      obtain ⟨bs, hb⟩ := emits_all_elems _ xs (fun x hx => emits_typed elem x hs (h x hx))
      exact ⟨_, emits_counted (fun e => encodeElems (newTypeEncoder elem) e xs) xs.length bs hb⟩
  | .struct fields, v, hs, h => by
    simp only [supported] at hs
    simp only [newTypeEncoder]
    cases v <;> try (simp [hasType] at h; done)
    case struct vs =>
      simp only [hasType] at h
      exact emits_typed_fields fields vs hs h
  | .map key elem, v, hs, h => by
    simp only [supported, Bool.and_eq_true] at hs
    rw [newTypeEncoder_map]
    by_cases hb : elem.isBool = true
    · simp only [hb, if_true]
      cases v with
      | nilMap => exact ⟨_, fun e => ⟨_, rfl, WriteU32_buf e 0⟩⟩
      | map es =>
        simp only [hasType, Bool.and_eq_true, List.all_eq_true] at h
        obtain ⟨bs, hbs⟩ := emits_all_keys (newTypeEncoder key) es
          (fun kv hkv => emits_typed key kv.1 hs.1 (h kv hkv).1)
        exact ⟨_, emits_counted (fun e => encodeKeys (newTypeEncoder key) e es) es.length bs hbs⟩
      | _ => simp [hasType] at h
    · simp only [hb, Bool.false_eq_true, if_false]
      cases v with
      | nilMap => exact ⟨_, fun e => ⟨_, rfl, WriteU32_buf e 0⟩⟩
      | map es =>
        simp only [hasType, Bool.and_eq_true, List.all_eq_true] at h
        obtain ⟨bs, hbs⟩ := emits_all_entries (newTypeEncoder key) (newTypeEncoder elem) es
          (fun kv hkv => ⟨emits_typed key kv.1 hs.1 (h kv hkv).1,
            emits_typed elem kv.2 hs.2 (h kv hkv).2⟩)
        exact ⟨_, emits_counted
          (fun e => encodeEntries (newTypeEncoder key) (newTypeEncoder elem) e es)
          es.length bs hbs⟩
      | _ => simp [hasType] at h
  | .ptr elem, v, hs, h => by
    simp only [supported] at hs
    simp only [newTypeEncoder]
    cases v <;> try (simp [hasType] at h; done)
    case nilPtr => exact ⟨_, fun e => ⟨_, rfl, WriteBoolean_buf e false⟩⟩
    case ptr x =>
      simp only [hasType] at h
      obtain ⟨bs, hb⟩ := emits_typed elem x hs h
      refine ⟨[1] ++ bs, fun e => ?_⟩
      obtain ⟨e1, he1, hb1⟩ := hb (e.WriteBoolean true)
      exact ⟨e1, he1, by rw [hb1, WriteBoolean_buf, List.append_assoc]; rfl⟩
  | .string, v, _, h => by
    cases v <;> try (simp [hasType] at h; done)
    case string s => exact ⟨_, fun e => ⟨_, rfl, WriteString_buf e s⟩⟩
  | .unsupported, v, hs, _ => by simp [supported] at hs
theorem emits_typed_fields : (ts : List GoType) → (vs : List Value) →
    supporteds ts = true → hasTypes ts vs = true →
    ∃ bs, ∀ e, ∃ e1, encodeFields (newStructEncoder ts) e vs = .done e1 ∧ e1.buf = e.buf ++ bs
  | [], vs, _, h => by
    cases vs with
    | nil => exact ⟨[], fun e => ⟨e, rfl, by simp⟩⟩
    | cons v vs => simp [hasTypes] at h
  | t :: ts, vs, hs, h => by
    cases vs with
    | nil => simp [hasTypes] at h
    | cons v vs =>
      simp only [hasTypes, Bool.and_eq_true] at h
      simp only [supporteds, Bool.and_eq_true] at hs
      obtain ⟨b1, h1⟩ := emits_typed t v hs.1 h.1
      obtain ⟨b2, h2⟩ := emits_typed_fields ts vs hs.2 h.2
      refine ⟨b1 ++ b2, fun e => ?_⟩
      obtain ⟨e1, he1, hb1⟩ := h1 e
      obtain ⟨e2, he2, hb2⟩ := h2 e1
      exact ⟨e2, by simp only [newStructEncoder, encodeFields, he1, he2],
        by rw [hb2, hb1, List.append_assoc]⟩
end

/-! ## The bytes written are stable -/

theorem Write.run_buf (w : Write) (e : Encoder) : (w.run e).buf = e.buf ++ w.bytes := by
  cases w with
  | boolean b => exact WriteBoolean_buf e b
  | unsigned w u =>
    simp only [Write.run, Write.bytes, WriteU_buf, PutUint_eq_map, littleEndian]
  | signed w i =>
    simp only [Write.run, Write.bytes, WriteI_buf, PutUint_eq_map, littleEndian]
  | f32 bits =>
    simp only [Write.run, Write.bytes, Encoder.WriteF32, bufferWrite_buf, reserveCapacity_buf,
      PutUint_eq_map, littleEndian]
  | f64 bits =>
    simp only [Write.run, Write.bytes, Encoder.WriteF64, bufferWrite_buf, reserveCapacity_buf,
      PutUint_eq_map, littleEndian]
  | string s =>
    simp only [Write.run, Write.bytes, WriteString_buf, PutUint_littleEndian]

theorem writes_buf (ws : List Write) :
    ∀ e : Encoder, (e.writes ws).buf = e.buf ++ (ws.map Write.bytes).flatten := by
  induction ws with
  | nil => exact fun e => by simp [Encoder.writes]
  | cons w ws ih =>
    intro e
    have h := ih (w.run e)
    simp only [Encoder.writes, List.foldl_cons] at h ⊢
    rw [h, Write.run_buf]
    simp

/-- Claim C22: `Finish` returns the bytes written and leaves the encoder as it
is, so with no write in between it returns the same bytes again; after any write
operation, and after any sequence of them, `Finish` returns the earlier result
followed by exactly the bytes of the writes; `reserveCapacity` changes no byte;
and after growth and further writes the bytes at the positions already written
are what they were. -/
theorem written_bytes_stable (e : Encoder) (w : Write) (ws : List Write) (n : Nat) :
    (e.writes []).Finish = e.Finish ∧
    (w.run e).Finish = e.Finish ++ w.bytes ∧
    (e.writes ws).Finish = e.Finish ++ (ws.map Write.bytes).flatten ∧
    (e.reserveCapacity n).Finish = e.Finish ∧
    (w.run e).Finish.take e.Finish.length = e.Finish ∧
    ((e.reserveCapacity n).writes ws).Finish.take e.Finish.length = e.Finish := by
  refine ⟨rfl, Write.run_buf w e, writes_buf ws e, reserveCapacity_buf e n, ?_, ?_⟩
  · simp only [Encoder.Finish, Write.run_buf, List.take_left']
  · simp only [Encoder.Finish, writes_buf, reserveCapacity_buf, List.take_left']

/-! ## What is left unread -/

theorem binaryRead_drop (d : Decoder) (n : Nat) (hn : 0 < n) :
    (binaryRead d n).2 = ⟨d.Buffer.drop n⟩ := by
  rw [binaryRead_eq d n hn]
  obtain ⟨l⟩ := d
  by_cases h0 : l.length = 0
  · have : l = [] := List.length_eq_zero.mp h0
    subst this
    simp
  · by_cases h1 : l.length < n
    · simp only [h0, h1, if_false, if_true]
      rw [List.drop_of_length_le (by omega)]
    · simp only [h0, h1, if_false]

theorem ReadU_drop (w : Width) (d : Decoder) : (d.ReadU w).2 = ⟨d.Buffer.drop w.bytes⟩ := by
  rw [ReadU_eq, ← binaryRead_drop d w.bytes w.bytes_pos]
  rcases binaryRead d w.bytes with ⟨_ | _, _⟩ <;> rfl

theorem ReadI_drop (w : Width) (d : Decoder) : (d.ReadI w).2 = ⟨d.Buffer.drop w.bytes⟩ := by
  rw [ReadI_eq, ← binaryRead_drop d w.bytes w.bytes_pos]
  rcases binaryRead d w.bytes with ⟨_ | _, _⟩ <;> rfl

theorem ReadBoolean_drop (d : Decoder) : d.ReadBoolean.2 = ⟨d.Buffer.drop 1⟩ := by
  rw [← binaryRead_drop d 1 (by decide)]
  simp only [Decoder.ReadBoolean, Decoder.ReadU8]
  rcases binaryRead d 1 with ⟨_ | _, _⟩ <;> rfl

theorem ReadF32_drop (d : Decoder) : d.ReadF32.2 = ⟨d.Buffer.drop 4⟩ := by
  rw [← binaryRead_drop d 4 (by decide)]
  simp only [Decoder.ReadF32]
  rcases binaryRead d 4 with ⟨_ | _, _⟩ <;> rfl

theorem ReadF64_drop (d : Decoder) : d.ReadF64.2 = ⟨d.Buffer.drop 8⟩ := by
  rw [← binaryRead_drop d 8 (by decide)]
  simp only [Decoder.ReadF64]
  rcases binaryRead d 8 with ⟨_ | _, _⟩ <;> rfl

theorem ReadString_drop (d : Decoder) : ∃ k, d.ReadString.2 = ⟨d.Buffer.drop k⟩ := by
  have h := ReadU_drop .w32 d
  simp only [Decoder.ReadU] at h
  simp only [Decoder.ReadString]
  rcases hr : d.ReadU32 with ⟨_ | n, d1⟩
  · exact ⟨4, by rw [hr] at h; exact h⟩
  · rw [hr] at h
    simp only at h
    subst h
    exact ⟨Width.w32.bytes + n, by simp [bufferNext, List.drop_drop]⟩

theorem Advances.comp {d d1 d2 : Decoder} {a b : Nat} (h1 : d1.Buffer = d.Buffer.drop a)
    (h2 : d2.Buffer = d1.Buffer.drop b) : ∃ k, d2.Buffer = d.Buffer.drop k :=
  ⟨a + b, by rw [h2, h1, List.drop_drop]⟩

theorem advances_elems (g : decoderFunc) (hg : Advances g) (xs : List Value) :
    ∀ d, ∃ k, (decodeElems g d xs).2.1.Buffer = d.Buffer.drop k := by
  induction xs with
  | nil => exact fun d => ⟨0, rfl⟩
  | cons x xs ih =>
    intro d
    obtain ⟨a, ha⟩ := hg d x
    rcases hx : g d x with ⟨_ | err, d1, x1⟩
    · rw [hx] at ha
      obtain ⟨b, hb⟩ := ih d1
      simp only [decodeElems, hx]
      exact Advances.comp ha hb
    · rw [hx] at ha
      simp only [decodeElems, hx]
      exact ⟨a, ha⟩

theorem advances_fields (gs : List decoderFunc) (hg : ∀ g ∈ gs, Advances g) (xs : List Value) :
    ∀ d, ∃ k, (decodeFields gs d xs).2.1.Buffer = d.Buffer.drop k := by
  induction xs generalizing gs with
  | nil => exact fun d => ⟨0, by cases gs <;> rfl⟩
  | cons x xs ih =>
    intro d
    cases gs with
    | nil => exact ⟨0, rfl⟩
    | cons g gs =>
      obtain ⟨a, ha⟩ := hg g (List.mem_cons_self _ _) d x
      rcases hx : g d x with ⟨_ | err, d1, x1⟩
      · rw [hx] at ha
        obtain ⟨b, hb⟩ := ih gs (fun g1 h1 => hg g1 (List.mem_cons_of_mem _ h1)) d1
        simp only [decodeFields, hx]
        exact Advances.comp ha hb
      · rw [hx] at ha
        simp only [decodeFields, hx]
        exact ⟨a, ha⟩

theorem advances_keys (key : GoType) (g : decoderFunc) (hg : Advances g) (n : Nat) :
    ∀ d m, ∃ k, (decodeKeys key g n d m).2.1.Buffer = d.Buffer.drop k := by
  induction n with
  | zero => exact fun d m => ⟨0, rfl⟩
  | succ n ih =>
    intro d m
    obtain ⟨a, ha⟩ := hg d (zero key)
    rcases hx : g d (zero key) with ⟨_ | err, d1, x1⟩
    · rw [hx] at ha
      obtain ⟨b, hb⟩ := ih d1 (SetMapIndex m x1 (.bool true))
      simp only [decodeKeys, hx]
      exact Advances.comp ha hb
    · rw [hx] at ha
      simp only [decodeKeys, hx]
      exact ⟨a, ha⟩

theorem advances_entries (key elem : GoType) (gk gv : decoderFunc) (hk : Advances gk)
    (hv : Advances gv) (n : Nat) :
    ∀ d m, ∃ k, (decodeEntries key elem gk gv n d m).2.1.Buffer = d.Buffer.drop k := by
  induction n with
  | zero => exact fun d m => ⟨0, rfl⟩
  | succ n ih =>
    intro d m
    obtain ⟨a, ha⟩ := hk d (zero key)
    rcases hx : gk d (zero key) with ⟨_ | err, d1, x1⟩
    · rw [hx] at ha
      obtain ⟨b, hb⟩ := hv d1 (zero elem)
      rcases hy : gv d1 (zero elem) with ⟨_ | err, d2, y1⟩
      · rw [hy] at hb
        obtain ⟨c, hc⟩ := ih d2 (SetMapIndex m x1 y1)
        obtain ⟨k1, hk1⟩ := Advances.comp ha hb
        simp only [decodeEntries, hx, hy]
        exact Advances.comp hk1 hc
      · rw [hy] at hb
        simp only [decodeEntries, hx, hy]
        exact Advances.comp ha hb
    · rw [hx] at ha
      simp only [decodeEntries, hx]
      exact ⟨a, ha⟩

theorem ReadU32_drop (d : Decoder) : d.ReadU32.2.Buffer = d.Buffer.drop 4 :=
  congrArg Decoder.Buffer (ReadU_drop .w32 d)

theorem advances_bool : Advances boolDecoder := by
  intro d v
  have h := congrArg Decoder.Buffer (ReadBoolean_drop d)
  refine ⟨1, ?_⟩
  simp only [boolDecoder]
  rcases hr : d.ReadBoolean with ⟨err | b, d1⟩
  · rw [hr] at h; exact h
  · rw [hr] at h
    cases v <;> exact h

theorem advances_uint : Advances uintDecoder := by
  intro d v
  cases v <;> try exact ⟨0, rfl⟩
  case uint w z =>
    have h := congrArg Decoder.Buffer (ReadU_drop w d)
    refine ⟨w.bytes, ?_⟩
    cases w <;> simp only [uintDecoder, Decoder.ReadU] at h ⊢
    · rcases hr : d.ReadU8 with ⟨err | b, d1⟩ <;> (rw [hr] at h; exact h)
    · rcases hr : d.ReadU16 with ⟨err | b, d1⟩ <;> (rw [hr] at h; exact h)
    · rcases hr : d.ReadU32 with ⟨err | b, d1⟩ <;> (rw [hr] at h; exact h)
    · rcases hr : d.ReadU64 with ⟨err | b, d1⟩ <;> (rw [hr] at h; exact h)

theorem advances_int : Advances intDecoder := by
  intro d v
  cases v <;> try exact ⟨0, rfl⟩
  case int w z =>
    have h := congrArg Decoder.Buffer (ReadI_drop w d)
    refine ⟨w.bytes, ?_⟩
    cases w <;> simp only [intDecoder, Decoder.ReadI] at h ⊢
    · rcases hr : d.ReadI8 with ⟨err | b, d1⟩ <;> (rw [hr] at h; exact h)
    · rcases hr : d.ReadI16 with ⟨err | b, d1⟩ <;> (rw [hr] at h; exact h)
    · rcases hr : d.ReadI32 with ⟨err | b, d1⟩ <;> (rw [hr] at h; exact h)
    · rcases hr : d.ReadI64 with ⟨err | b, d1⟩ <;> (rw [hr] at h; exact h)

theorem advances_float : Advances floatDecoder := by
  intro d v
  cases v <;> try exact ⟨0, rfl⟩
  case float32 z =>
    have h := congrArg Decoder.Buffer (ReadF32_drop d)
    refine ⟨4, ?_⟩
    simp only [floatDecoder]
    rcases hr : d.ReadF32 with ⟨err | b, d1⟩ <;> (rw [hr] at h; exact h)
  case float64 z =>
    have h := congrArg Decoder.Buffer (ReadF64_drop d)
    refine ⟨8, ?_⟩
    simp only [floatDecoder]
    rcases hr : d.ReadF64 with ⟨err | b, d1⟩ <;> (rw [hr] at h; exact h)

theorem advances_string : Advances stringDecoder := by
  intro d v
  obtain ⟨k, hk⟩ := ReadString_drop d
  have h := congrArg Decoder.Buffer hk
  refine ⟨k, ?_⟩
  simp only [stringDecoder]
  rcases hr : d.ReadString with ⟨err | b, d1⟩
  · rw [hr] at h; exact h
  · rw [hr] at h
    cases v <;> exact h

theorem advances_array (g : decoderFunc) (hg : Advances g) : Advances (arrayDecoder_decode g) := by
  intro d v
  cases v <;> try exact ⟨0, rfl⟩
  case array xs => exact advances_elems g hg xs d

theorem advances_struct (gs : List decoderFunc) (hg : ∀ g ∈ gs, Advances g) :
    Advances (structDecoder_decode gs) := by
  intro d v
  cases v <;> try exact ⟨0, rfl⟩
  case struct xs => exact advances_fields gs hg xs d

theorem advances_slice (elem : GoType) (g : decoderFunc) (hg : Advances g) :
    Advances (sliceDecoder_decode elem g) := by
  intro d v
  have h := ReadU32_drop d
  simp only [sliceDecoder_decode]
  rcases hr : d.ReadU32 with ⟨err | n, d1⟩
  · rw [hr] at h
    exact ⟨4, h⟩
  · rw [hr] at h
    obtain ⟨b, hb⟩ := advances_elems g hg (List.replicate n (zero elem)) d1
    exact Advances.comp h hb

theorem advances_set (key : GoType) (g : decoderFunc) (hg : Advances g) :
    Advances (setDecoder_decode key g) := by
  intro d v
  have h := ReadU32_drop d
  simp only [setDecoder_decode]
  rcases hr : d.ReadU32 with ⟨err | n, d1⟩
  · rw [hr] at h
    exact ⟨4, h⟩
  · rw [hr] at h
    obtain ⟨b, hb⟩ := advances_keys key g hg n d1 []
    exact Advances.comp h hb

theorem advances_map (key elem : GoType) (gk gv : decoderFunc) (hk : Advances gk)
    (hv : Advances gv) : Advances (mapDecoder_decode key elem gk gv) := by
  intro d v
  have h := ReadU32_drop d
  simp only [mapDecoder_decode]
  rcases hr : d.ReadU32 with ⟨err | n, d1⟩
  · rw [hr] at h
    exact ⟨4, h⟩
  · rw [hr] at h
    obtain ⟨b, hb⟩ := advances_entries key elem gk gv hk hv n d1 []
    exact Advances.comp h hb

theorem advances_option (elem : GoType) (g : decoderFunc) (hg : Advances g) :
    Advances (optionDecoder_decode elem g) := by
  intro d v
  have h := congrArg Decoder.Buffer (ReadBoolean_drop d)
  simp only [optionDecoder_decode]
  rcases hr : d.ReadBoolean with ⟨err | b, d1⟩
  · rw [hr] at h
    exact ⟨1, h⟩
  · rw [hr] at h
    cases b
    · exact ⟨1, h⟩
    · obtain ⟨b, hb⟩ := hg d1 (zero elem)
      exact Advances.comp h hb

mutual
theorem advances_type : (t : GoType) → Advances (newTypeDecoder t)
  | .bool => advances_bool
  | .uint _ => advances_uint
  | .int _ => advances_int
  | .float32 => advances_float
  | .float64 => advances_float
  | .array elem _ => by
    simp only [newTypeDecoder]
    exact advances_array _ (advances_type elem)
  | .slice elem => by
    simp only [newTypeDecoder]
    exact advances_slice elem _ (advances_type elem)
  | .struct fields => by
    simp only [newTypeDecoder]
    exact advances_struct _ (advances_types fields)
  | .map key elem => by
    rw [newTypeDecoder_map]
    split_ifs
    · exact advances_set key _ (advances_type key)
    · exact advances_map key elem _ _ (advances_type key) (advances_type elem)
  | .ptr elem => by
    simp only [newTypeDecoder]
    exact advances_option elem _ (advances_type elem)
  | .string => advances_string
  | .unsupported => fun _ _ => ⟨0, rfl⟩
theorem advances_types : (ts : List GoType) → ∀ g ∈ newStructDecoder ts, Advances g
  | [] => fun g hg => by simp [newStructDecoder] at hg
  | t :: ts => fun g hg => by
    simp only [newStructDecoder, List.mem_cons] at hg
    rcases hg with rfl | hg
    · exact advances_type t
    · exact advances_types ts g hg
end

theorem Read.run_fixed (r : FixedRead) (d : Decoder) :
    ((Read.fixed r).run d).d = ⟨d.Buffer.drop r.width⟩ := by
  cases r with
  | boolean =>
    have h := ReadBoolean_drop d
    simp only [Read.run, FixedRead.width]
    rcases hr : d.ReadBoolean with ⟨err | b, d1⟩ <;> (rw [hr] at h; exact h)
  | unsigned w =>
    have h := ReadU_drop w d
    simp only [Read.run, FixedRead.width]
    rcases hr : d.ReadU w with ⟨err | b, d1⟩ <;> (rw [hr] at h; exact h)
  | signed w =>
    have h := ReadI_drop w d
    simp only [Read.run, FixedRead.width]
    rcases hr : d.ReadI w with ⟨err | b, d1⟩ <;> (rw [hr] at h; exact h)

theorem Read.run_drop (r : Read) (d : Decoder) : ∃ k, (r.run d).d.Buffer = d.Buffer.drop k := by
  cases r with
  | fixed r => exact ⟨r.width, congrArg Decoder.Buffer (Read.run_fixed r d)⟩
  | f32 =>
    have h := congrArg Decoder.Buffer (ReadF32_drop d)
    refine ⟨4, ?_⟩
    simp only [Read.run]
    rcases hr : d.ReadF32 with ⟨err | b, d1⟩ <;> (rw [hr] at h; exact h)
  | f64 =>
    have h := congrArg Decoder.Buffer (ReadF64_drop d)
    refine ⟨8, ?_⟩
    simp only [Read.run]
    rcases hr : d.ReadF64 with ⟨err | b, d1⟩ <;> (rw [hr] at h; exact h)
  | string =>
    obtain ⟨k, hk⟩ := ReadString_drop d
    have h := congrArg Decoder.Buffer hk
    refine ⟨k, ?_⟩
    simp only [Read.run]
    rcases hr : d.ReadString with ⟨err | b, d1⟩ <;> (rw [hr] at h; exact h)
  | value t z => exact advances_type t d z

theorem Call.run_forward (c : Call) (d : Decoder) : ∃ k, (c.run d).2.Buffer = d.Buffer.drop k := by
  cases c with
  | read r => exact Read.run_drop r d
  | remainder => exact ⟨0, rfl⟩

theorem calls_drop (cs : List Call) :
    ∀ d : Decoder, (∃ k, (d.calls cs).2.Buffer = d.Buffer.drop k) ∧
      ∀ bs, Answer.remainder bs ∈ (d.calls cs).1 → ∃ k, bs = d.Buffer.drop k := by
  induction cs with
  | nil => exact fun d => ⟨⟨0, rfl⟩, fun bs h => by simp [Decoder.calls] at h⟩
  | cons c cs ih =>
    intro d
    obtain ⟨a, ha⟩ := Call.run_forward c d
    obtain ⟨⟨b, hb⟩, h2⟩ := ih (c.run d).2
    refine ⟨⟨a + b, ?_⟩, fun bs hbs => ?_⟩
    · simp only [Decoder.calls]
      rw [hb, ha, List.drop_drop]
    · simp only [Decoder.calls, List.mem_cons] at hbs
      rcases hbs with h0 | h0
      · cases c with
        | read r => simp [Call.run] at h0
        | remainder =>
          simp only [Call.run, Answer.remainder.injEq] at h0
          exact ⟨0, by rw [h0]; rfl⟩
      · obtain ⟨k, hk⟩ := h2 bs h0
        exact ⟨a + k, by rw [hk, ha, List.drop_drop]⟩

theorem calls_filter (cs : List Call) :
    ∀ d : Decoder, d.calls (cs.filter Call.isRead) =
      ((d.calls cs).1.filter Answer.isRead, (d.calls cs).2) := by
  induction cs with
  | nil => exact fun d => rfl
  | cons c cs ih =>
    intro d
    cases c with
    | read r =>
      simp only [List.filter_cons, Call.isRead, if_true, Decoder.calls, Call.run, ih,
        Answer.isRead]
    | remainder =>
      simp only [List.filter_cons, Call.isRead, Bool.false_eq_true, if_false, Decoder.calls,
        Call.run, ih, Answer.isRead]

/-- Claim C23: at every point of any sequence of reads on a decoder over `data`,
`Remainder()` returns a suffix of `data`, namely `data` without the bytes
consumed so far, whose number never exceeds `len(data)`; a fixed-width read
consumes its width (or all that is left); and the reads of a sequence of calls
return the same answers and leave the same decoder when the `Remainder()` calls
are taken out. -/
theorem remainder_is_unconsumed_suffix (data : List Byte) (cs : List Call) (r : FixedRead)
    (d : Decoder) :
    (∀ bs, Answer.remainder bs ∈ ((NewDecoder data).calls cs).1 →
      ∃ consumed, data = consumed ++ bs ∧ consumed.length ≤ data.length) ∧
    (∃ consumed, data = consumed ++ ((NewDecoder data).calls cs).2.Remainder ∧
      consumed.length ≤ data.length) ∧
    ((Read.fixed r).run d).d.Remainder = d.Remainder.drop r.width ∧
    (Call.remainder.run d).2 = d ∧
    (NewDecoder data).calls (cs.filter Call.isRead) =
      (((NewDecoder data).calls cs).1.filter Answer.isRead, ((NewDecoder data).calls cs).2) := by
  have key : ∀ (bs : List Byte) (k : Nat), bs = data.drop k →
      ∃ consumed, data = consumed ++ bs ∧ consumed.length ≤ data.length := by
    intro bs k hk
    refine ⟨data.take k, by rw [hk, List.take_append_drop], ?_⟩
    rw [List.length_take]
    exact Nat.min_le_right _ _
  obtain ⟨⟨k, hk⟩, h2⟩ := calls_drop cs (NewDecoder data)
  refine ⟨fun bs hbs => ?_, key _ k hk, ?_, rfl, calls_filter cs _⟩
  · obtain ⟨k1, hk1⟩ := h2 bs hbs
    exact key bs k1 hk1
  · rw [Read.run_fixed]
    rfl

theorem remainder_is_unconsumed_suffix_witness :
    (∀ bs, Answer.remainder bs ∈ ((NewDecoder [1, 2, 0, 9]).calls
        [.remainder, .read (.fixed .boolean), .remainder, .read (.fixed (.unsigned .w16)),
          .remainder, .read (.fixed (.unsigned .w32)), .remainder]).1 →
      ∃ consumed, [1, 2, 0, 9] = consumed ++ bs ∧ consumed.length ≤ [1, 2, 0, (9 : Byte)].length) ∧
    ((NewDecoder [1, 2, 0, 9]).calls
        [.remainder, .read (.fixed .boolean), .remainder, .read (.fixed (.unsigned .w16)),
          .remainder, .read (.fixed (.unsigned .w32)), .remainder]).1 =
      [.remainder [1, 2, 0, 9], .read none (.bool true), .remainder [2, 0, 9],
        .read none (.uint .w16 2), .remainder [9], .read (some .ErrUnexpectedEOF) (.uint .w32 0),
        .remainder []] :=
  ⟨(remainder_is_unconsumed_suffix [1, 2, 0, 9]
      [.remainder, .read (.fixed .boolean), .remainder, .read (.fixed (.unsigned .w16)),
        .remainder, .read (.fixed (.unsigned .w32)), .remainder] .boolean (NewDecoder [])).1,
    rfl⟩

/-! ## What a failed decode leaves in the target -/

theorem decodeFields_fail (gs : List decoderFunc) :
    ∀ (xs : List Value) (d : Decoder) (err : Error) (d1 : Decoder) (xs1 : List Value),
      xs.length = gs.length → decodeFields gs d xs = (some err, d1, xs1) →
      ∃ i, i < gs.length ∧ xs1.length = xs.length ∧
        (∃ d0, decodeFields (gs.take i) d (xs.take i) = (none, d0, xs1.take i)) ∧
        decodeFields (gs.take (i + 1)) d (xs.take (i + 1)) = (some err, d1, xs1.take (i + 1)) ∧
        xs1.drop (i + 1) = xs.drop (i + 1) := by
  induction gs with
  | nil =>
    intro xs d err d1 xs1 hlen h
    cases xs with
    | nil => simp [decodeFields] at h
    | cons x xs => simp at hlen
  | cons g gs ih =>
    intro xs d err d1 xs1 hlen h
    cases xs with
    | nil => simp at hlen
    | cons x xs =>
      rcases hg : g d x with ⟨_ | e, d2, x2⟩
      · rcases hr : decodeFields gs d2 xs with ⟨err2, d3, xs3⟩
        simp only [decodeFields, hg, hr, Prod.mk.injEq] at h
        obtain ⟨h1, h2, h3⟩ := h
        subst h1 h2 h3
        obtain ⟨i, hi, hl, ⟨d0, h0⟩, h4, h5⟩ := ih xs d2 err d3 xs3 (by simpa using hlen) hr
        refine ⟨i + 1, by simpa using hi, by simp [hl], ⟨d0, ?_⟩, ?_, ?_⟩
        · simp only [List.take_succ_cons, decodeFields, hg, h0]
        · simp only [List.take_succ_cons, decodeFields, hg, h4]
        · simpa using h5
      · simp only [decodeFields, hg, Prod.mk.injEq, Option.some.injEq] at h
        obtain ⟨h1, h2, h3⟩ := h
        subst h1 h2 h3
        refine ⟨0, by simp, by simp, ⟨d, ?_⟩, ?_, ?_⟩
        · simp [decodeFields]
        · simp [decodeFields, hg]
        · simp

theorem newStructDecoder_take (ts : List GoType) :
    ∀ i, newStructDecoder (ts.take i) = (newStructDecoder ts).take i := by
  induction ts with
  | nil => intro i; simp [newStructDecoder]
  | cons t ts ih =>
    intro i
    cases i with
    | zero => simp [newStructDecoder]
    | succ i => simp [newStructDecoder, ih]

theorem newStructDecoder_length (ts : List GoType) : (newStructDecoder ts).length = ts.length := by
  induction ts with
  | nil => rfl
  | cons t ts ih => simp [newStructDecoder, ih]

theorem scalar_decode_fail (t : GoType) (d : Decoder) (v : Value)
    (hs : scalar t = true ∨ t = .string) (h : (newTypeDecoder t d v).err ≠ none) :
    (newTypeDecoder t d v).v = v := by
  rcases hs with hs | rfl
  · cases t <;> try (simp [scalar] at hs; done)
    case bool =>
      simp only [newTypeDecoder, boolDecoder] at h ⊢
      rcases hr : d.ReadBoolean with ⟨err | b, d1⟩
      · rfl
      · cases v <;> simp_all
    case uint w =>
      simp only [newTypeDecoder] at h ⊢
      cases v <;> try rfl
      case uint w1 z =>
        cases w1 <;> simp only [uintDecoder] at h ⊢
        · rcases hr : d.ReadU8 with ⟨err | b, d1⟩ <;> simp_all
        · rcases hr : d.ReadU16 with ⟨err | b, d1⟩ <;> simp_all
        · rcases hr : d.ReadU32 with ⟨err | b, d1⟩ <;> simp_all
        · rcases hr : d.ReadU64 with ⟨err | b, d1⟩ <;> simp_all
    case int w =>
      simp only [newTypeDecoder] at h ⊢
      cases v <;> try rfl
      case int w1 z =>
        cases w1 <;> simp only [intDecoder] at h ⊢
        · rcases hr : d.ReadI8 with ⟨err | b, d1⟩ <;> simp_all
        · rcases hr : d.ReadI16 with ⟨err | b, d1⟩ <;> simp_all
        · rcases hr : d.ReadI32 with ⟨err | b, d1⟩ <;> simp_all
        · rcases hr : d.ReadI64 with ⟨err | b, d1⟩ <;> simp_all
    case float32 =>
      simp only [newTypeDecoder] at h ⊢
      cases v <;> try rfl
      case float32 z =>
        simp only [floatDecoder] at h ⊢
        rcases hr : d.ReadF32 with ⟨err | b, d1⟩ <;> simp_all
      case float64 z =>
        simp only [floatDecoder] at h ⊢
        rcases hr : d.ReadF64 with ⟨err | b, d1⟩ <;> simp_all
    case float64 =>
      simp only [newTypeDecoder] at h ⊢
      cases v <;> try rfl
      case float32 z =>
        simp only [floatDecoder] at h ⊢
        rcases hr : d.ReadF32 with ⟨err | b, d1⟩ <;> simp_all
      case float64 z =>
        simp only [floatDecoder] at h ⊢
        rcases hr : d.ReadF64 with ⟨err | b, d1⟩ <;> simp_all
  · simp only [newTypeDecoder, stringDecoder] at h ⊢
    rcases hr : d.ReadString with ⟨err | b, d1⟩
    · rfl
    · cases v <;> simp_all

theorem Unmarshal_struct (data : List Byte) (ts : List GoType) (vs : List Value) :
    Unmarshal data (.struct ts) (.struct vs) =
      ((decodeFields (newStructDecoder ts) ⟨data⟩ vs).1,
        .struct (decodeFields (newStructDecoder ts) ⟨data⟩ vs).2.2) := by
  simp only [Unmarshal, NewDecoder, Decoder.reflectValue, newTypeDecoder, structDecoder_decode]

/-- Claim C24, counterexample: `Unmarshal` of the five bytes of the string `"a"`
followed by one byte, where the two bytes of the `uint16` field should be, into a
zero `Event` fails, and the target holds the name `"a"` afterwards; `Unmarshal` of
a count of two followed by one byte into a nil `[]uint16` fails, and the target
is a sequence of two zeros afterwards.  In both cases the target has changed. -/
theorem failed_decode_is_partially_committed :
    Unmarshal [1, 0, 0, 0, 0x61, 3] eventType (zero eventType) =
      (some Error.ErrUnexpectedEOF, .struct [.string [0x61], .uint .w16 0]) ∧
    (Unmarshal [1, 0, 0, 0, 0x61, 3] eventType (zero eventType)).2 ≠ zero eventType ∧
    Unmarshal [2, 0, 0, 0, 5] (.slice (.uint .w16)) (zero (.slice (.uint .w16))) =
      (some Error.ErrUnexpectedEOF, .slice [.uint .w16 0, .uint .w16 0]) ∧
    (Unmarshal [2, 0, 0, 0, 5] (.slice (.uint .w16)) (zero (.slice (.uint .w16)))).2 ≠
      zero (.slice (.uint .w16)) := by
  have h1 : Unmarshal [1, 0, 0, 0, 0x61, 3] eventType (zero eventType) =
      (some Error.ErrUnexpectedEOF, .struct [.string [0x61], .uint .w16 0]) := rfl
  have h2 : Unmarshal [2, 0, 0, 0, 5] (.slice (.uint .w16)) (zero (.slice (.uint .w16))) =
      (some Error.ErrUnexpectedEOF, .slice [.uint .w16 0, .uint .w16 0]) := rfl
  refine ⟨h1, ?_, h2, ?_⟩
  · rw [h1]
    intro hp
    simp [zero, zeros, eventType] at hp
  · rw [h2]
    intro hp
    simp [zero] at hp

/-- Claim C24, as amended: a failed `Unmarshal` into a boolean, integer, float or
string target leaves the target as it was; a failed `Unmarshal` into a record
is partially committed: there is a field `i`, the one whose decoding failed, such
that the fields before it hold what decoding them alone stores, decoding up to
and including field `i` fails with the same error and leaves the same first
`i + 1` fields, and the fields after it are as they were. -/
theorem failed_decode_keeps_earlier_fields (data0 : List Byte) (t0 : GoType) (v0 : Value)
    (data : List Byte) (ts : List GoType) (vs : List Value)
    (hs : scalar t0 = true ∨ t0 = .string)
    (h0 : (Unmarshal data0 t0 v0).1 ≠ none)
    (hlen : vs.length = ts.length)
    (hfail : (Unmarshal data (.struct ts) (.struct vs)).1 ≠ none) :
    (Unmarshal data0 t0 v0).2 = v0 ∧
    ∃ i vs1, i < ts.length ∧ vs1.length = vs.length ∧
      (Unmarshal data (.struct ts) (.struct vs)).2 = .struct vs1 ∧
      Unmarshal data (.struct (ts.take i)) (.struct (vs.take i)) = (none, .struct (vs1.take i)) ∧
      Unmarshal data (.struct (ts.take (i + 1))) (.struct (vs.take (i + 1))) =
        ((Unmarshal data (.struct ts) (.struct vs)).1, .struct (vs1.take (i + 1))) ∧
      vs1.drop (i + 1) = vs.drop (i + 1) := by
  refine ⟨scalar_decode_fail t0 ⟨data0⟩ v0 hs h0, ?_⟩
  rw [Unmarshal_struct] at hfail ⊢
  rcases hr : decodeFields (newStructDecoder ts) ⟨data⟩ vs with ⟨err, d1, vs1⟩
  rw [hr] at hfail
  cases err with
  | none => exact absurd rfl hfail
  | some err =>
    obtain ⟨i, hi, hl, ⟨d0, h1⟩, h2, h3⟩ := decodeFields_fail (newStructDecoder ts) vs ⟨data⟩ err d1
      vs1 (by rw [hlen, newStructDecoder_length]) hr
    rw [newStructDecoder_length] at hi
    refine ⟨i, vs1, hi, hl, rfl, ?_, ?_, h3⟩
    · rw [Unmarshal_struct, newStructDecoder_take, h1]
    · rw [Unmarshal_struct, newStructDecoder_take, h2]

theorem failed_decode_keeps_earlier_fields_witness :
    (scalar (.uint .w16) = true ∨ GoType.uint .w16 = .string) ∧
    (Unmarshal [5] (.uint .w16) (.uint .w16 7)).1 ≠ none ∧
    [Value.string [], Value.uint .w16 9].length = [GoType.string, GoType.uint .w16].length ∧
    (Unmarshal [1, 0, 0, 0, 0x61, 3] (.struct [.string, .uint .w16])
      (.struct [.string [], .uint .w16 9])).1 ≠ none ∧
    (Unmarshal [5] (.uint .w16) (.uint .w16 7)).2 = .uint .w16 7 ∧
    ∃ i vs1, i < [GoType.string, GoType.uint .w16].length ∧
      vs1.length = [Value.string [], Value.uint .w16 9].length ∧
      (Unmarshal [1, 0, 0, 0, 0x61, 3] (.struct [.string, .uint .w16])
        (.struct [.string [], .uint .w16 9])).2 = .struct vs1 ∧
      Unmarshal [1, 0, 0, 0, 0x61, 3] (.struct ([GoType.string, GoType.uint .w16].take i))
        (.struct ([Value.string [], Value.uint .w16 9].take i)) = (none, .struct (vs1.take i)) ∧
      Unmarshal [1, 0, 0, 0, 0x61, 3] (.struct ([GoType.string, GoType.uint .w16].take (i + 1)))
          (.struct ([Value.string [], Value.uint .w16 9].take (i + 1))) =
        ((Unmarshal [1, 0, 0, 0, 0x61, 3] (.struct [.string, .uint .w16])
          (.struct [.string [], .uint .w16 9])).1, .struct (vs1.take (i + 1))) ∧
      vs1.drop (i + 1) = [Value.string [], Value.uint .w16 9].drop (i + 1) :=
  have h0 : (Unmarshal [5] (.uint .w16) (.uint .w16 7)).1 ≠ none := by
    intro hp
    cases hp
  have h1 : (Unmarshal [1, 0, 0, 0, 0x61, 3] (.struct [.string, .uint .w16])
      (.struct [.string [], .uint .w16 9])).1 ≠ none := by
    intro hp
    cases hp
  ⟨Or.inl rfl, h0, rfl, h1,
    failed_decode_keeps_earlier_fields [5] (.uint .w16) (.uint .w16 7) [1, 0, 0, 0, 0x61, 3]
      [.string, .uint .w16] [.string [], .uint .w16 9] (Or.inl rfl) h0 rfl h1⟩

/-! ## How the buffer grows -/

theorem reserveCapacity_eq (e : Encoder) (n : Nat) :
    e.reserveCapacity n =
      if e.cap - e.buf.length < n then
        { e with cap := 2 * e.cap + max ((3 * e.cap + 1) / 2) (e.cap - e.buf.length + n) }
      else e := by
  unfold Encoder.reserveCapacity
  dsimp only
  split_ifs with h
  · unfold bufferGrow
    have h1 : ¬ max ((3 * e.cap + 1) / 2) (e.cap - e.buf.length + n) ≤ e.cap - e.buf.length := by
      unfold max
      split_ifs <;> omega
    rw [if_neg h1]
  · rfl

theorem WriteU8_room (e : Encoder) (u : Nat) (h : e.buf.length < e.cap) :
    (Write.unsigned .w8 u).run e = { buf := e.buf ++ PutUint 1 u, cap := e.cap } := by
  have h0 : ¬ (e.cap - e.buf.length < 1) := by omega
  have h1 : e.reserveCapacity 1 = e := by
    rw [reserveCapacity_eq, if_neg h0]
  simp only [Write.run, Encoder.WriteU, Encoder.WriteU8, h1, bufferWrite, bufferGrow,
    PutUint_length]
  rw [if_pos (by omega)]

theorem fill_initial_buffer (k : Nat) (hk : k ≤ 256) :
    NewEncoder.writes (List.replicate k (.unsigned .w8 0)) =
      { buf := List.replicate k 0, cap := 256 } := by
  induction k with
  | zero => rfl
  | succ k ih =>
    have h := ih (by omega)
    simp only [Encoder.writes] at h ⊢
    rw [List.replicate_succ', List.foldl_append, h]
    simp only [List.foldl_cons, List.foldl_nil]
    rw [WriteU8_room _ _ (by simp only [List.length_replicate]; omega)]
    simp only [List.replicate_succ', PutUint, byte]
    rfl

/-- Claim C25, on the code: `reserveCapacity` leaves the encoder as it is when
the free space `c - l` is at least `n`; otherwise it calls `Buffer.Grow` with
`max(ceil(1.5 * c), (c - l) + n)` as the number of bytes to make room for, and
the capacity becomes `2 * c` plus that number.  After 256 one-byte writes a new
encoder is full (`c = l = 256`), and the next `reserveCapacity(1)` makes the
capacity 896, where `max(1.5 * c, l + n)` is 384. -/
theorem growth_overshoots (e : Encoder) (n : Nat) :
    e.reserveCapacity n =
      (if e.cap - e.buf.length < n then
        { e with cap := 2 * e.cap + max ((3 * e.cap + 1) / 2) (e.cap - e.buf.length + n) }
      else e) ∧
    NewEncoder.writes (List.replicate 256 (.unsigned .w8 0)) =
      { buf := List.replicate 256 0, cap := 256 } ∧
    ((NewEncoder.writes (List.replicate 256 (.unsigned .w8 0))).reserveCapacity 1).cap = 896 ∧
    max (3 * 256 / 2) (256 + 1) = 384 := by
  refine ⟨reserveCapacity_eq e n, fill_initial_buffer 256 (le_refl _), ?_, by decide⟩
  have h : ∀ e0 : Encoder, e0.buf.length = 256 → e0.cap = 256 →
      (e0.reserveCapacity 1).cap = 896 := by
    intro e0 h1 h2
    rw [reserveCapacity_eq, h1, h2, if_pos (by decide)]
    show 2 * 256 + max ((3 * 256 + 1) / 2) (256 - 256 + 1) = 896
    decide
  rw [fill_initial_buffer 256 (le_refl _)]
  exact h _ (List.length_replicate _ _) rfl

/-! ## Sets: the values of the entries are not looked at -/

theorem encodeKeys_eq (f : encoderFunc) (es : List (Value × Value)) :
    ∀ e, encodeKeys f e es = encodeElems f e (es.map Prod.fst) := by
  induction es with
  | nil => exact fun e => rfl
  | cons a es ih =>
    intro e
    obtain ⟨k, v⟩ := a
    simp only [encodeKeys, List.map_cons, encodeElems]
    rcases f e k with e1 | e1
    · exact ih e1
    · rfl

theorem Marshal_set_keys (key : GoType) (es es1 : List (Value × Value))
    (h : es1.map Prod.fst = es.map Prod.fst) :
    Marshal (.map key .bool) (.map es1) = Marshal (.map key .bool) (.map es) := by
  have hl : es1.length = es.length := by
    have := congrArg List.length h
    simpa using this
  simp only [Marshal, newTypeEncoder_map, GoType.isBool, if_true, setEncoder_encode,
    encodeKeys_eq, h, hl]

/-- Claim C26: a set (`map[T]bool`) is encoded without looking at the values of
its entries: two sets with the same keys, handed out in the same order, have the
same encoding, whatever booleans the keys are mapped to.  When the keys are
faithful, the encoding of a set with a key `k` mapped to `false` is the count of
all entries, `k` included, followed by the keys, exactly the encoding of the set
with every entry `true`; decoding it gives that all-`true` set, in which `k` is
mapped to `true`. -/
theorem false_entries_are_members (key : GoType) (es es1 : List (Value × Value)) (k : Value)
    (hf : faithful (.map key .bool) (.map (es.map (fun kv => (kv.1, Value.bool true)))) = true)
    (hk : (k, Value.bool false) ∈ es)
    (h1 : es1.map Prod.fst = es.map Prod.fst) :
    Marshal (.map key .bool) (.map es1) = Marshal (.map key .bool) (.map es) ∧
    ∃ keys, Marshal (.map key .bool) (.map es) =
        .returned (littleEndian 4 es.length ++ keys) none ∧
      Marshal (.map key .bool) (.map (es.map (fun kv => (kv.1, Value.bool true)))) =
        .returned (littleEndian 4 es.length ++ keys) none ∧
      Unmarshal (littleEndian 4 es.length ++ keys) (.map key .bool) (zero (.map key .bool)) =
        (none, .map (es.map (fun kv => (kv.1, Value.bool true)))) ∧
      (k, Value.bool true) ∈ es.map (fun kv => (kv.1, Value.bool true)) := by
  have h2 : (es.map (fun kv => (kv.1, Value.bool true))).map Prod.fst = es.map Prod.fst := by
    rw [List.map_map]
    rfl
  have h3 := Marshal_set_keys key es _ h2
  obtain ⟨bytes, hm, hu⟩ := Unmarshal_Marshal _ _ hf
  rw [h3] at hm
  rcases Marshal_map_front key .bool es with hp | ⟨rest, hr⟩
  · rw [hp] at hm
    cases hm
  · have hb : bytes = littleEndian 4 es.length ++ rest := by
      rw [hr] at hm
      injection hm with h4
      exact h4.symm
    subst hb
    refine ⟨Marshal_set_keys key es es1 h1, rest, hr, by rw [h3, hr], hu, ?_⟩
    exact List.mem_map.mpr ⟨(k, .bool false), hk, rfl⟩

theorem false_entries_are_members_witness :
    faithful (.map .string .bool)
      (.map ([(Value.string [0x61], Value.bool true), (Value.string [0x62], Value.bool false)].map
        (fun kv => (kv.1, Value.bool true)))) = true ∧
    (Value.string [0x62], Value.bool false) ∈
      [(Value.string [0x61], Value.bool true), (Value.string [0x62], Value.bool false)] ∧
    Marshal (.map .string .bool)
        (.map [(.string [0x61], .bool false), (.string [0x62], .bool true)]) =
      Marshal (.map .string .bool)
        (.map [(.string [0x61], .bool true), (.string [0x62], .bool false)]) ∧
    Marshal (.map .string .bool)
        (.map [(.string [0x61], .bool true), (.string [0x62], .bool false)]) =
      .returned [2, 0, 0, 0, 1, 0, 0, 0, 0x61, 1, 0, 0, 0, 0x62] none ∧
    Unmarshal [2, 0, 0, 0, 1, 0, 0, 0, 0x61, 1, 0, 0, 0, 0x62] (.map .string .bool)
        (zero (.map .string .bool)) =
      (none, .map [(.string [0x61], .bool true), (.string [0x62], .bool true)]) :=
  ⟨by decide, by simp,
    (false_entries_are_members .string
      [(.string [0x61], .bool true), (.string [0x62], .bool false)]
      [(.string [0x61], .bool false), (.string [0x62], .bool true)] (.string [0x62])
      (by decide) (by simp) rfl).1, rfl, rfl⟩

/-! ## Go's `==` on keys is symmetric and transitive -/

mutual
theorem keyEq_symm : (a b : Value) → keyEq a b = keyEq b a
  | .bool x, b => by cases b <;> simp [keyEq, eq_comm]
  | .uint w x, b => by
    cases b <;> simp only [keyEq]
    case uint w1 y =>
      rw [Bool.eq_iff_iff]
      simp only [Bool.and_eq_true, beq_iff_eq]
      exact ⟨fun h => ⟨h.1.symm, h.2.symm⟩, fun h => ⟨h.1.symm, h.2.symm⟩⟩
  | .int w x, b => by
    cases b <;> simp only [keyEq]
    case int w1 y =>
      rw [Bool.eq_iff_iff]
      simp only [Bool.and_eq_true, beq_iff_eq]
      exact ⟨fun h => ⟨h.1.symm, h.2.symm⟩, fun h => ⟨h.1.symm, h.2.symm⟩⟩
  | .float32 x, b => by
    cases b <;> simp only [keyEq]
    case float32 y =>
      rw [Bool.eq_iff_iff]
      simp only [Bool.and_eq_true, Bool.or_eq_true, beq_iff_eq]
      constructor <;> rintro ⟨⟨h1, h2⟩, h3 | h3⟩ <;>
        first
          | exact ⟨⟨h2, h1⟩, Or.inl h3.symm⟩
          | exact ⟨⟨h2, h1⟩, Or.inr ⟨h3.2, h3.1⟩⟩
  | .float64 x, b => by
    cases b <;> simp only [keyEq]
    case float64 y =>
      rw [Bool.eq_iff_iff]
      simp only [Bool.and_eq_true, Bool.or_eq_true, beq_iff_eq]
      constructor <;> rintro ⟨⟨h1, h2⟩, h3 | h3⟩ <;>
        first
          | exact ⟨⟨h2, h1⟩, Or.inl h3.symm⟩
          | exact ⟨⟨h2, h1⟩, Or.inr ⟨h3.2, h3.1⟩⟩
  | .array xs, b => by
    cases b <;> simp [keyEq]
    case array ys => exact keyEqList_symm xs ys
  | .struct xs, b => by
    cases b <;> simp [keyEq]
    case struct ys => exact keyEqList_symm xs ys
  | .nilPtr, b => by cases b <;> simp [keyEq]
  | .string x, b => by cases b <;> simp [keyEq, eq_comm]
  | .nilSlice, b => by cases b <;> simp [keyEq]
  | .slice _, b => by cases b <;> simp [keyEq]
  | .nilMap, b => by cases b <;> simp [keyEq]
  | .map _, b => by cases b <;> simp [keyEq]
  | .ptr _, b => by cases b <;> simp [keyEq]
  | .other, b => by cases b <;> simp [keyEq]
theorem keyEqList_symm : (xs ys : List Value) → keyEqList xs ys = keyEqList ys xs
  | [], ys => by cases ys <;> simp [keyEqList]
  | x :: xs, ys => by
    cases ys with
    | nil => simp [keyEqList]
    | cons y ys => simp [keyEqList, keyEq_symm x y, keyEqList_symm xs ys]
end

mutual
theorem keyEq_trans : (a b c : Value) → keyEq a b = true → keyEq b c = true → keyEq a c = true
  | .bool x, b, c, h1, h2 => by
    cases b <;> simp only [keyEq, Bool.false_eq_true] at h1
    cases c <;> simp only [keyEq, Bool.false_eq_true] at h2
    simp only [keyEq, beq_iff_eq] at h1 h2 ⊢
    exact h1.trans h2
  | .uint w x, b, c, h1, h2 => by
    cases b <;> simp only [keyEq, Bool.false_eq_true] at h1
    cases c <;> simp only [keyEq, Bool.false_eq_true] at h2
    simp only [keyEq, Bool.and_eq_true, beq_iff_eq] at h1 h2 ⊢
    exact ⟨h1.1.trans h2.1, h1.2.trans h2.2⟩
  | .int w x, b, c, h1, h2 => by
    cases b <;> simp only [keyEq, Bool.false_eq_true] at h1
    cases c <;> simp only [keyEq, Bool.false_eq_true] at h2
    simp only [keyEq, Bool.and_eq_true, beq_iff_eq] at h1 h2 ⊢
    exact ⟨h1.1.trans h2.1, h1.2.trans h2.2⟩
  | .float32 x, b, c, h1, h2 => by
    cases b <;> simp only [keyEq, Bool.false_eq_true] at h1
    cases c <;> simp only [keyEq, Bool.false_eq_true] at h2
    simp only [keyEq, Bool.and_eq_true, Bool.or_eq_true, beq_iff_eq] at h1 h2 ⊢
    obtain ⟨⟨a1, a2⟩, a3⟩ := h1
    obtain ⟨⟨b1, b2⟩, b3⟩ := h2
    refine ⟨⟨a1, b2⟩, ?_⟩
    rcases a3 with a3 | a3 <;> rcases b3 with b3 | b3
    · exact Or.inl (a3.trans b3)
    · exact Or.inr ⟨a3 ▸ b3.1, b3.2⟩
    · exact Or.inr ⟨a3.1, b3 ▸ a3.2⟩
    · exact Or.inr ⟨a3.1, b3.2⟩
  | .float64 x, b, c, h1, h2 => by
    cases b <;> simp only [keyEq, Bool.false_eq_true] at h1
    cases c <;> simp only [keyEq, Bool.false_eq_true] at h2
    simp only [keyEq, Bool.and_eq_true, Bool.or_eq_true, beq_iff_eq] at h1 h2 ⊢
    obtain ⟨⟨a1, a2⟩, a3⟩ := h1
    obtain ⟨⟨b1, b2⟩, b3⟩ := h2
    refine ⟨⟨a1, b2⟩, ?_⟩
    rcases a3 with a3 | a3 <;> rcases b3 with b3 | b3
    · exact Or.inl (a3.trans b3)
    · exact Or.inr ⟨a3 ▸ b3.1, b3.2⟩
    · exact Or.inr ⟨a3.1, b3 ▸ a3.2⟩
    · exact Or.inr ⟨a3.1, b3.2⟩
  | .array xs, b, c, h1, h2 => by
    cases b <;> simp only [keyEq, Bool.false_eq_true] at h1
    cases c <;> simp only [keyEq, Bool.false_eq_true] at h2
    simp only [keyEq]
    exact keyEqList_trans xs _ _ h1 h2
  | .struct xs, b, c, h1, h2 => by
    cases b <;> simp only [keyEq, Bool.false_eq_true] at h1
    cases c <;> simp only [keyEq, Bool.false_eq_true] at h2
    simp only [keyEq]
    exact keyEqList_trans xs _ _ h1 h2
  | .nilPtr, b, c, h1, h2 => by
    cases b <;> simp only [keyEq, Bool.false_eq_true] at h1
    exact h2
  | .string x, b, c, h1, h2 => by
    cases b <;> simp only [keyEq, Bool.false_eq_true] at h1
    cases c <;> simp only [keyEq, Bool.false_eq_true] at h2
    simp only [keyEq, beq_iff_eq] at h1 h2 ⊢
    exact h1.trans h2
  | .nilSlice, b, _, h1, _ => by simp [keyEq] at h1
  | .slice _, b, _, h1, _ => by simp [keyEq] at h1
  | .nilMap, b, _, h1, _ => by simp [keyEq] at h1
  | .map _, b, _, h1, _ => by simp [keyEq] at h1
  | .ptr _, b, _, h1, _ => by simp [keyEq] at h1
  | .other, b, _, h1, _ => by simp [keyEq] at h1
theorem keyEqList_trans : (xs ys zs : List Value) → keyEqList xs ys = true →
    keyEqList ys zs = true → keyEqList xs zs = true
  | [], ys, zs, h1, h2 => by
    cases ys with
    | nil => exact h2
    | cons y ys => simp [keyEqList] at h1
  | x :: xs, ys, zs, h1, h2 => by
    cases ys with
    | nil => simp [keyEqList] at h1
    | cons y ys =>
      cases zs with
      | nil => simp [keyEqList] at h2
      | cons z zs =>
        simp only [keyEqList, Bool.and_eq_true] at h1 h2 ⊢
        exact ⟨keyEq_trans x y z h1.1 h2.1, keyEqList_trans xs ys zs h1.2 h2.2⟩
end

/-! ## Maps built by the decoder -/

theorem MapIndex_SetMapIndex (m : List (Value × Value)) (k v key : Value) :
    MapIndex (SetMapIndex m k v) key = if keyEq k key then some v else MapIndex m key := by
  induction m with
  | nil => simp [SetMapIndex, MapIndex]
  | cons a m ih =>
    obtain ⟨k0, v0⟩ := a
    by_cases h0 : keyEq k0 k = true
    · simp only [SetMapIndex, h0, if_true, MapIndex]
      by_cases h1 : keyEq k key = true
      · simp only [h1, if_true]
      · have h2 : ¬ keyEq k0 key = true := fun h2 =>
          h1 (keyEq_trans k k0 key (by rw [keyEq_symm]; exact h0) h2)
        simp [h1, h2]
    · simp only [SetMapIndex, h0, if_false, MapIndex, ih]
      by_cases h1 : keyEq k0 key = true
      · have h2 : ¬ keyEq k key = true := fun h2 =>
          h0 (keyEq_trans k0 key k h1 (by rw [keyEq_symm]; exact h2))
        simp [h1, h2]
      · simp [h1]

theorem setAll_cons (m : List (Value × Value)) (kv : Value × Value) (kvs : List (Value × Value)) :
    setAll m (kv :: kvs) = setAll (SetMapIndex m kv.1 kv.2) kvs := rfl

theorem MapIndex_setAll (kvs : List (Value × Value)) (key : Value) :
    ∀ m, MapIndex (setAll m kvs) key =
      match lastOccurrence kvs key with
      | some x => some x
      | none => MapIndex m key := by
  induction kvs with
  | nil => exact fun m => rfl
  | cons a kvs ih =>
    intro m
    obtain ⟨k, v⟩ := a
    rw [setAll_cons, ih, MapIndex_SetMapIndex]
    simp only [lastOccurrence]
    cases lastOccurrence kvs key with
    | some x => rfl
    | none =>
      by_cases h : keyEq k key = true
      · simp [h]
      · simp [h]

theorem SetMapIndex_length_le (m : List (Value × Value)) (k v : Value) :
    (SetMapIndex m k v).length ≤ m.length + 1 := by
  induction m with
  | nil => simp [SetMapIndex]
  | cons a m ih =>
    obtain ⟨k0, v0⟩ := a
    simp only [SetMapIndex]
    split_ifs
    · simp
    · simpa using ih

theorem SetMapIndex_length_hit (m : List (Value × Value)) (k v : Value)
    (h : ∃ e ∈ m, keyEq e.1 k = true) : (SetMapIndex m k v).length = m.length := by
  induction m with
  | nil =>
    obtain ⟨e, he, _⟩ := h
    cases he
  | cons a m ih =>
    obtain ⟨k0, v0⟩ := a
    simp only [SetMapIndex]
    split_ifs with h0
    · simp
    · obtain ⟨e, he, hke⟩ := h
      rcases List.mem_cons.mp he with rfl | he1
      · exact absurd hke h0
      · simp [ih ⟨e, he1, hke⟩]

theorem setAll_length_le (kvs : List (Value × Value)) :
    ∀ m, (setAll m kvs).length ≤ m.length + kvs.length := by
  induction kvs with
  | nil => exact fun m => le_refl _
  | cons a kvs ih =>
    intro m
    rw [setAll_cons]
    have h1 := ih (SetMapIndex m a.1 a.2)
    have h2 := SetMapIndex_length_le m a.1 a.2
    simp only [List.length_cons]
    omega

theorem setAll_length_lt (kvs : List (Value × Value)) :
    ∀ m, ((∃ e ∈ m, kvs.any (fun kv => keyEq e.1 kv.1) = true) ∨ distinctKeys kvs = false) →
      (setAll m kvs).length < m.length + kvs.length := by
  induction kvs with
  | nil =>
    intro m h
    rcases h with ⟨e, _, he⟩ | h
    · simp at he
    · simp [distinctKeys] at h
  | cons a kvs ih =>
    intro m h
    obtain ⟨k, v⟩ := a
    rw [setAll_cons]
    simp only [List.length_cons]
    by_cases hit : ∃ e ∈ m, keyEq e.1 k = true
    · have h1 := setAll_length_le kvs (SetMapIndex m k v)
      rw [SetMapIndex_length_hit m k v hit] at h1
      omega
    · have hfresh : ∀ e ∈ m, keyEq e.1 k = false := by
        intro e he
        cases hke : keyEq e.1 k
        · rfl
        · exact absurd ⟨e, he, hke⟩ hit
      have hm : SetMapIndex m k v = m ++ [(k, v)] := SetMapIndex_fresh m k v hfresh
      have h2 : (∃ e ∈ SetMapIndex m k v, kvs.any (fun kv => keyEq e.1 kv.1) = true) ∨
          distinctKeys kvs = false := by
        rcases h with ⟨e, he, hany⟩ | hd
        · simp only [List.any_cons, Bool.or_eq_true] at hany
          rcases hany with h3 | h3
          · rw [hfresh e he] at h3
            cases h3
          · exact Or.inl ⟨e, by rw [hm]; exact List.mem_append_left _ he, h3⟩
        · simp only [distinctKeys, Bool.and_eq_false_iff] at hd
          rcases hd with h3 | h3
          · left
            refine ⟨(k, v), by rw [hm]; simp, ?_⟩
            rw [List.all_eq_false] at h3
            obtain ⟨x, hx, hx2⟩ := h3
            rw [List.any_eq_true]
            refine ⟨x, hx, ?_⟩
            simpa using hx2
          · exact Or.inr h3
      have h3 := ih (SetMapIndex m k v) h2
      rw [hm] at h3 ⊢
      simp only [List.length_append, List.length_singleton] at h3 ⊢
      omega

theorem reads_entries (key elem : GoType) (gk gv : decoderFunc)
    (l : List ((Value × Value) × List Byte × List Byte))
    (hk : ∀ p ∈ l, Reads gk (zero key) p.2.1 p.1.1)
    (hv : ∀ p ∈ l, Reads gv (zero elem) p.2.2 p.1.2) :
    ∀ r m0, decodeEntries key elem gk gv l.length
        ⟨(l.map (fun p => p.2.1 ++ p.2.2)).flatten ++ r⟩ m0 =
      (none, ⟨r⟩, setAll m0 (l.map Prod.fst)) := by
  induction l with
  | nil => exact fun r m0 => rfl
  | cons p l ih =>
    intro r m0
    have h1 := hk p (List.mem_cons_self _ _)
      (p.2.2 ++ ((l.map (fun p => p.2.1 ++ p.2.2)).flatten ++ r))
    have h2 := hv p (List.mem_cons_self _ _) ((l.map (fun p => p.2.1 ++ p.2.2)).flatten ++ r)
    have h3 := ih (fun q hq => hk q (List.mem_cons_of_mem _ hq))
      (fun q hq => hv q (List.mem_cons_of_mem _ hq)) r
    simp only [List.map_cons, List.flatten_cons, List.append_assoc, List.length_cons,
      decodeEntries, h1, h2, h3, setAll_cons]

theorem foldl_true_eq_setAll (ks : List Value) :
    ∀ m0, ks.foldl (fun m k => SetMapIndex m k (.bool true)) m0 =
      setAll m0 (ks.map (fun k => (k, Value.bool true))) := by
  induction ks with
  | nil => exact fun m0 => rfl
  | cons k ks ih =>
    intro m0
    simp only [List.foldl_cons, List.map_cons, setAll_cons, ih]

/-- Claim C27: a map input made of a count `n` and `n` well-formed entries, and
a set input made of a count `n` and `n` well-formed keys, in which some key
occurs more than once (two of the keys are equal under `==`), is decoded without
error and to its end; the map stored has fewer than `n` entries, and looking up
any key in it gives the value of the last entry of the input with that key (in
a set, `true`). -/
theorem duplicate_keys_accepted (key elem skey : GoType)
    (l : List ((Value × Value) × List Byte × List Byte)) (s : List (Value × List Byte))
    (r : List Byte) (z : Value)
    (hne : elem.isBool = false)
    (hk : ∀ p ∈ l, Reads (newTypeDecoder key) (zero key) p.2.1 p.1.1)
    (hv : ∀ p ∈ l, Reads (newTypeDecoder elem) (zero elem) p.2.2 p.1.2)
    (hl : l.length < 2 ^ 32)
    (hd : distinctKeys (l.map Prod.fst) = false)
    (hs : ∀ p ∈ s, Reads (newTypeDecoder skey) (zero skey) p.2 p.1)
    (hsl : s.length < 2 ^ 32)
    (hsd : distinctKeys (s.map (fun p => (p.1, Value.bool true))) = false) :
    (newTypeDecoder (.map key elem)
        (NewDecoder ((littleEndian 4 l.length ++ (l.map (fun p => p.2.1 ++ p.2.2)).flatten) ++ r)) z =
      ⟨none, NewDecoder r, .map (setAll [] (l.map Prod.fst))⟩ ∧
    (setAll [] (l.map Prod.fst)).length < l.length ∧
    ∀ k, MapIndex (setAll [] (l.map Prod.fst)) k = lastOccurrence (l.map Prod.fst) k) ∧
    (newTypeDecoder (.map skey .bool)
        (NewDecoder ((littleEndian 4 s.length ++ (s.map Prod.snd).flatten) ++ r)) z =
      ⟨none, NewDecoder r, .map (setAll [] (s.map (fun p => (p.1, Value.bool true))))⟩ ∧
    (setAll [] (s.map (fun p => (p.1, Value.bool true)))).length < s.length ∧
    ∀ k, MapIndex (setAll [] (s.map (fun p => (p.1, Value.bool true)))) k =
      lastOccurrence (s.map (fun p => (p.1, Value.bool true))) k) := by
  refine ⟨⟨?_, ?_, ?_⟩, ⟨?_, ?_, ?_⟩⟩
  · rw [newTypeDecoder_map]
    simp only [hne, Bool.false_eq_true, if_false, mapDecoder_decode, NewDecoder,
      List.append_assoc]
    rw [← PutUint_littleEndian, ReadU32_PutUint]
    simp only [Nat.mod_mod, Nat.mod_eq_of_lt hl,
      reads_entries key elem (newTypeDecoder key) (newTypeDecoder elem) l hk hv r []]
  · have h := setAll_length_lt (l.map Prod.fst) [] (Or.inr hd)
    simpa using h
  · intro k
    rw [MapIndex_setAll]
    cases lastOccurrence (l.map Prod.fst) k <;> rfl
  · rw [newTypeDecoder_map]
    simp only [GoType.isBool, if_true, setDecoder_decode, NewDecoder, List.append_assoc]
    rw [← PutUint_littleEndian, ReadU32_PutUint]
    simp only [Nat.mod_mod, Nat.mod_eq_of_lt hsl, reads_keys skey (newTypeDecoder skey) s hs r [],
      foldl_true_eq_setAll, List.map_map]
    rfl
  · have h := setAll_length_lt (s.map (fun p => (p.1, Value.bool true))) [] (Or.inr hsd)
    simpa using h
  · intro k
    rw [MapIndex_setAll]
    cases lastOccurrence (s.map (fun p => (p.1, Value.bool true))) k <;> rfl

theorem duplicate_keys_accepted_witness :
    (GoType.uint .w8).isBool = false ∧
    (∀ p ∈ repeatedEntries, Reads (newTypeDecoder .string) (zero .string) p.2.1 p.1.1) ∧
    (∀ p ∈ repeatedEntries, Reads (newTypeDecoder (.uint .w8)) (zero (.uint .w8)) p.2.2 p.1.2) ∧
    repeatedEntries.length < 2 ^ 32 ∧
    distinctKeys (repeatedEntries.map Prod.fst) = false ∧
    (∀ p ∈ repeatedKeys, Reads (newTypeDecoder (.uint .w8)) (zero (.uint .w8)) p.2 p.1) ∧
    repeatedKeys.length < 2 ^ 32 ∧
    distinctKeys (repeatedKeys.map (fun p => (p.1, Value.bool true))) = false ∧
    newTypeDecoder (.map .string (.uint .w8))
        (NewDecoder ([3, 0, 0, 0, 1, 0, 0, 0, 0x61, 1, 1, 0, 0, 0, 0x62, 2, 1, 0, 0, 0, 0x61, 3] ++
          [9])) .nilMap =
      ⟨none, NewDecoder [9], .map [(.string [0x61], .uint .w8 3), (.string [0x62], .uint .w8 2)]⟩ ∧
    (setAll [] (repeatedEntries.map Prod.fst)).length < repeatedEntries.length ∧
    MapIndex (setAll [] (repeatedEntries.map Prod.fst)) (.string [0x61]) = some (.uint .w8 3) ∧
    newTypeDecoder (.map (.uint .w8) .bool) (NewDecoder ([2, 0, 0, 0, 5, 5] ++ [9])) .nilMap =
      ⟨none, NewDecoder [9], .map [(.uint .w8 5, .bool true)]⟩ := by
  have hk : ∀ p ∈ repeatedEntries, Reads (newTypeDecoder .string) (zero .string) p.2.1 p.1.1 := by
    intro p hp
    simp only [repeatedEntries, List.mem_cons, List.mem_singleton, List.not_mem_nil,
      or_false] at hp
    rcases hp with rfl | rfl | rfl
    · exact reads_of_Marshal .string (.string [0x61]) _ (by decide) rfl
    · exact reads_of_Marshal .string (.string [0x62]) _ (by decide) rfl
    · exact reads_of_Marshal .string (.string [0x61]) _ (by decide) rfl
  have hv : ∀ p ∈ repeatedEntries,
      Reads (newTypeDecoder (.uint .w8)) (zero (.uint .w8)) p.2.2 p.1.2 := by
    intro p hp
    simp only [repeatedEntries, List.mem_cons, List.mem_singleton, List.not_mem_nil,
      or_false] at hp
    rcases hp with rfl | rfl | rfl
    · exact reads_of_Marshal (.uint .w8) (.uint .w8 1) _ (by decide) rfl
    · exact reads_of_Marshal (.uint .w8) (.uint .w8 2) _ (by decide) rfl
    · exact reads_of_Marshal (.uint .w8) (.uint .w8 3) _ (by decide) rfl
  have hs : ∀ p ∈ repeatedKeys, Reads (newTypeDecoder (.uint .w8)) (zero (.uint .w8)) p.2 p.1 := by
    intro p hp
    simp only [repeatedKeys, List.mem_cons, List.mem_singleton, List.not_mem_nil,
      or_false] at hp
    rcases hp with rfl | rfl
    · exact reads_of_Marshal (.uint .w8) (.uint .w8 5) _ (by decide) rfl
    · exact reads_of_Marshal (.uint .w8) (.uint .w8 5) _ (by decide) rfl
  have h := duplicate_keys_accepted .string (.uint .w8) (.uint .w8) repeatedEntries repeatedKeys [9] .nilMap
    rfl hk hv (by decide) (by decide) hs (by decide) (by decide)
  exact ⟨rfl, hk, hv, by decide, by decide, hs, by decide, by decide, h.1.1, h.1.2.1, rfl, h.2.1⟩

/-! ## An absent optional and the target it is decoded into -/

theorem reads_absent (elem : GoType) (p : Value) :
    Reads (newTypeDecoder (.ptr elem)) p [0] p := by
  intro r
  have h := ReadBoolean_byte 0 r
  simp only [newTypeDecoder, optionDecoder_decode, List.singleton_append, h]
  rfl

theorem reads_fields (l : List (GoType × Value × List Byte × Value))
    (h : ∀ p ∈ l, Reads (newTypeDecoder p.1) p.2.1 p.2.2.1 p.2.2.2) :
    ∀ r, decodeFields (newStructDecoder (l.map (fun p => p.1)))
        ⟨(l.map (fun p => p.2.2.1)).flatten ++ r⟩ (l.map (fun p => p.2.1)) =
      (none, ⟨r⟩, l.map (fun p => p.2.2.2)) := by
  induction l with
  | nil => exact fun r => rfl
  | cons p l ih =>
    intro r
    have h1 := h p (List.mem_cons_self _ _) ((l.map (fun p => p.2.2.1)).flatten ++ r)
    have h2 := ih (fun q hq => h q (List.mem_cons_of_mem _ hq)) r
    simp only [List.map_cons, List.flatten_cons, List.append_assoc, newStructDecoder,
      decodeFields, h1, h2]

theorem reads_uint (w : Width) (n z : Nat) (h : n < 2 ^ w.bits) :
    Reads (newTypeDecoder (.uint w)) (.uint w z) (PutUint w.bytes n) (.uint w n) := by
  intro r
  simp only [newTypeDecoder]
  rw [uintDecoder_eq, ReadU_PutUint]
  simp only [Nat.mod_mod, Nat.mod_eq_of_lt h]

/-- Claim C28: decoding an optional whose presence byte is `0x00` returns no
error, consumes that one byte and leaves the target as it was, so a target
holding a present value still holds it; the target is absent afterwards exactly
when it was absent before.  The same holds for an optional that is a field of a
record or an element of a fixed array whose other fields or elements are
decoded from their own bytes. -/
theorem absent_optional_keeps_target (elem : GoType) (p : Value) (rest : List Byte)
    (l1 l2 : List (GoType × Value × List Byte × Value))
    (m1 m2 : List (Value × List Byte × Value))
    (h1 : ∀ q ∈ l1, Reads (newTypeDecoder q.1) q.2.1 q.2.2.1 q.2.2.2)
    (h2 : ∀ q ∈ l2, Reads (newTypeDecoder q.1) q.2.1 q.2.2.1 q.2.2.2)
    (h3 : ∀ q ∈ m1, Reads (newTypeDecoder (.ptr elem)) q.1 q.2.1 q.2.2)
    (h4 : ∀ q ∈ m2, Reads (newTypeDecoder (.ptr elem)) q.1 q.2.1 q.2.2) :
    newTypeDecoder (.ptr elem) (NewDecoder (0 :: rest)) p = ⟨none, NewDecoder rest, p⟩ ∧
    Unmarshal [0] (.ptr elem) p = (none, p) ∧
    ((Unmarshal [0] (.ptr elem) p).2 = .nilPtr ↔ p = .nilPtr) ∧
    Unmarshal ((l1.map (fun q => q.2.2.1)).flatten ++ [0] ++ (l2.map (fun q => q.2.2.1)).flatten)
        (.struct (l1.map (fun q => q.1) ++ [.ptr elem] ++ l2.map (fun q => q.1)))
        (.struct (l1.map (fun q => q.2.1) ++ [p] ++ l2.map (fun q => q.2.1))) =
      (none, .struct (l1.map (fun q => q.2.2.2) ++ [p] ++ l2.map (fun q => q.2.2.2))) ∧
    Unmarshal ((m1.map (fun q => q.2.1)).flatten ++ [0] ++ (m2.map (fun q => q.2.1)).flatten)
        (.array (.ptr elem) (m1.length + 1 + m2.length))
        (.array (m1.map (fun q => q.1) ++ [p] ++ m2.map (fun q => q.1))) =
      (none, .array (m1.map (fun q => q.2.2) ++ [p] ++ m2.map (fun q => q.2.2))) := by
  have h0 := reads_absent elem p
  have hu : Unmarshal [0] (.ptr elem) p = (none, p) := by
    have := h0 []
    simp only [List.append_nil] at this
    simp only [Unmarshal, NewDecoder, Decoder.reflectValue, this]
  refine ⟨h0 rest, hu, by rw [hu], ?_, ?_⟩
  · have hall : ∀ q ∈ l1 ++ [(.ptr elem, p, [0], p)] ++ l2,
        Reads (newTypeDecoder q.1) q.2.1 q.2.2.1 q.2.2.2 := by
      intro q hq
      simp only [List.mem_append, List.mem_singleton] at hq
      rcases hq with (hq | rfl) | hq
      · exact h1 q hq
      · exact h0
      · exact h2 q hq
    have h := reads_fields _ hall []
    simp only [List.map_append, List.map_cons, List.map_nil, List.append_nil,
      List.flatten_append, List.flatten_cons, List.flatten_nil] at h
    simp only [Unmarshal, NewDecoder, Decoder.reflectValue, newTypeDecoder,
      structDecoder_decode, h]
  · have hall : ∀ q ∈ m1 ++ [(p, [0], p)] ++ m2,
        Reads (newTypeDecoder (.ptr elem)) q.1 q.2.1 q.2.2 := by
      intro q hq
      simp only [List.mem_append, List.mem_singleton] at hq
      rcases hq with (hq | rfl) | hq
      · exact h3 q hq
      · exact h0
      · exact h4 q hq
    have h := reads_elems _ _ hall []
    simp only [List.map_append, List.map_cons, List.map_nil, List.append_nil,
      List.flatten_append, List.flatten_cons, List.flatten_nil] at h
    simp only [Unmarshal, NewDecoder, Decoder.reflectValue]
    rw [show newTypeDecoder (.array (.ptr elem) (m1.length + 1 + m2.length)) =
      arrayDecoder_decode (newTypeDecoder (.ptr elem)) by simp only [newTypeDecoder]]
    simp only [arrayDecoder_decode, h]

theorem absent_optional_keeps_target_witness :
    (∀ q ∈ [(GoType.uint .w8, Value.uint .w8 1, ([7] : List Byte), Value.uint .w8 7)],
      Reads (newTypeDecoder q.1) q.2.1 q.2.2.1 q.2.2.2) ∧
    (∀ q ∈ [(GoType.uint .w16, Value.uint .w16 2, ([3, 0] : List Byte), Value.uint .w16 3)],
      Reads (newTypeDecoder q.1) q.2.1 q.2.2.1 q.2.2.2) ∧
    (∀ q ∈ [(Value.nilPtr, ([1, 9] : List Byte), Value.ptr (.uint .w8 9))],
      Reads (newTypeDecoder (.ptr (.uint .w8))) q.1 q.2.1 q.2.2) ∧
    (∀ q ∈ [(Value.ptr (.uint .w8 4), ([0] : List Byte), Value.ptr (.uint .w8 4))],
      Reads (newTypeDecoder (.ptr (.uint .w8))) q.1 q.2.1 q.2.2) ∧
    Unmarshal [0] (.ptr (.uint .w8)) (.ptr (.uint .w8 5)) = (none, .ptr (.uint .w8 5)) ∧
    Unmarshal [7, 0, 3, 0] (.struct [.uint .w8, .ptr (.uint .w8), .uint .w16])
        (.struct [.uint .w8 1, .ptr (.uint .w8 5), .uint .w16 2]) =
      (none, .struct [.uint .w8 7, .ptr (.uint .w8 5), .uint .w16 3]) ∧
    Unmarshal [1, 9, 0, 0] (.array (.ptr (.uint .w8)) 3)
        (.array [.nilPtr, .ptr (.uint .w8 5), .ptr (.uint .w8 4)]) =
      (none, .array [.ptr (.uint .w8 9), .ptr (.uint .w8 5), .ptr (.uint .w8 4)]) := by
  have h1 : ∀ q ∈ [(GoType.uint .w8, Value.uint .w8 1, ([7] : List Byte), Value.uint .w8 7)],
      Reads (newTypeDecoder q.1) q.2.1 q.2.2.1 q.2.2.2 := by
    intro q hq
    rw [List.mem_singleton] at hq
    subst hq
    exact reads_uint .w8 7 1 (by decide)
  have h2 : ∀ q ∈ [(GoType.uint .w16, Value.uint .w16 2, ([3, 0] : List Byte), Value.uint .w16 3)],
      Reads (newTypeDecoder q.1) q.2.1 q.2.2.1 q.2.2.2 := by
    intro q hq
    rw [List.mem_singleton] at hq
    subst hq
    exact reads_uint .w16 3 2 (by decide)
  have h3 : ∀ q ∈ [(Value.nilPtr, ([1, 9] : List Byte), Value.ptr (.uint .w8 9))],
      Reads (newTypeDecoder (.ptr (.uint .w8))) q.1 q.2.1 q.2.2 := by
    intro q hq
    rw [List.mem_singleton] at hq
    subst hq
    exact reads_of_Marshal (.ptr (.uint .w8)) (.ptr (.uint .w8 9)) [1, 9] (by decide) rfl
  have h4 : ∀ q ∈ [(Value.ptr (.uint .w8 4), ([0] : List Byte), Value.ptr (.uint .w8 4))],
      Reads (newTypeDecoder (.ptr (.uint .w8))) q.1 q.2.1 q.2.2 := by
    intro q hq
    rw [List.mem_singleton] at hq
    subst hq
    exact reads_absent (.uint .w8) _
  have h := absent_optional_keeps_target (.uint .w8) (.ptr (.uint .w8 5)) [] _ _ _ _ h1 h2 h3 h4
  exact ⟨h1, h2, h3, h4, h.2.1, h.2.2.2.1, h.2.2.2.2⟩

/-! ## Types that refer to themselves -/

theorem allSome_mono {α β : Type} (f g : α → Option β) (xs : List α)
    (h : ∀ x ∈ xs, ∀ y, f x = some y → g x = some y) :
    ∀ ys, allSome (xs.map f) = some ys → allSome (xs.map g) = some ys := by
  induction xs with
  | nil => exact fun ys hy => hy
  | cons x xs ih =>
    intro ys hy
    simp only [List.map_cons] at hy ⊢
    cases hx : f x with
    | none => rw [hx] at hy; simp [allSome] at hy
    | some y =>
      rw [hx] at hy
      rw [h x (List.mem_cons_self _ _) y hx]
      cases hr : allSome (xs.map f) with
      | none => simp [allSome, hr] at hy
      | some zs =>
        simp only [allSome, hr, Option.some.injEq] at hy
        simp only [allSome, ih (fun z hz => h z (List.mem_cons_of_mem _ hz)) zs hr, hy]

theorem unfold_array (ds : Decls) (fuel : Nat) (elem : TypeExpr) (len : Nat) :
    unfold ds (fuel + 1) (.array elem len) = (unfold ds fuel elem).map (fun g => .array g len) :=
  rfl

theorem unfold_slice (ds : Decls) (fuel : Nat) (elem : TypeExpr) :
    unfold ds (fuel + 1) (.slice elem) = (unfold ds fuel elem).map .slice := rfl

theorem unfold_option (ds : Decls) (fuel : Nat) (elem : TypeExpr) :
    unfold ds (fuel + 1) (.ptr elem) = (unfold ds fuel elem).map .ptr := rfl

theorem unfold_struct (ds : Decls) (fuel : Nat) (fields : List TypeExpr) :
    unfold ds (fuel + 1) (.struct fields) =
      (allSome (fields.map (unfold ds fuel))).map .struct := rfl

theorem unfold_map (ds : Decls) (fuel : Nat) (key elem : TypeExpr) :
    unfold ds (fuel + 1) (.map key elem) =
      match unfold ds fuel key with
      | some k => (unfold ds fuel elem).map (fun g => .map k g)
      | none => none := rfl

theorem unfold_named (ds : Decls) (fuel : Nat) (name : Nat) :
    unfold ds (fuel + 1) (.named name) = unfold ds fuel (ds.getD name .unsupported) := rfl

theorem unfold_succ (ds : Decls) :
    ∀ (fuel : Nat) (t : TypeExpr) (g : GoType), unfold ds fuel t = some g →
      unfold ds (fuel + 1) t = some g := by
  intro fuel
  induction fuel with
  | zero => intro t g h; simp [unfold] at h
  | succ n ih =>
    intro t g h
    cases t with
    | bool => exact h
    | uint w => exact h
    | int w => exact h
    | float32 => exact h
    | float64 => exact h
    | string => exact h
    | unsupported => exact h
    | array elem len =>
      rw [unfold_array] at h ⊢
      cases he : unfold ds n elem with
      | none => simp [he] at h
      | some g1 => rw [he] at h; rw [ih elem g1 he]; exact h
    | slice elem =>
      rw [unfold_slice] at h ⊢
      cases he : unfold ds n elem with
      | none => simp [he] at h
      | some g1 => rw [he] at h; rw [ih elem g1 he]; exact h
    | ptr elem =>
      rw [unfold_option] at h ⊢
      cases he : unfold ds n elem with
      | none => simp [he] at h
      | some g1 => rw [he] at h; rw [ih elem g1 he]; exact h
    | struct fields =>
      rw [unfold_struct] at h ⊢
      cases he : allSome (fields.map (unfold ds n)) with
      | none => simp [he] at h
      | some gs =>
        rw [he] at h
        rw [allSome_mono (unfold ds n) (unfold ds (n + 1)) fields (fun x _ y hy => ih x y hy) gs he]
        exact h
    | map key elem =>
      rw [unfold_map] at h ⊢
      cases hk : unfold ds n key with
      | none => simp [hk] at h
      | some k =>
        rw [hk] at h
        rw [ih key k hk]
        cases he : unfold ds n elem with
        | none => simp [he] at h
        | some g1 =>
          rw [he] at h
          rw [ih elem g1 he]
          exact h
    | named name =>
      rw [unfold_named] at h ⊢
      exact ih _ g h

theorem unfold_add (ds : Decls) (fuel : Nat) (t : TypeExpr) (g : GoType)
    (h : unfold ds fuel t = some g) : ∀ k, unfold ds (fuel + k) t = some g := by
  intro k
  induction k with
  | zero => exact h
  | succ k ih => exact unfold_succ ds (fuel + k) t g ih

theorem unfold_node (fuel : Nat) :
    unfold nodeDecls fuel (.named 0) = none ∧
    unfold nodeDecls fuel (.ptr (.named 0)) = none ∧
    unfold nodeDecls fuel (.struct [.ptr (.named 0)]) = none := by
  induction fuel with
  | zero => exact ⟨rfl, rfl, rfl⟩
  | succ n ih =>
    obtain ⟨h1, h2, h3⟩ := ih
    refine ⟨?_, ?_, ?_⟩
    · rw [unfold_named]
      exact h3
    · rw [unfold_option, h1]
      rfl
    · rw [unfold_struct]
      simp only [List.map_cons, List.map_nil, h2, allSome]
      rfl

/-- Claim C21, counterexample: for `type Node struct { Next *Node }`, a shape made of
a record and an optional only, the calls of `newTypeEncoder` nest without end,
so `Marshal(Node{})` returns nothing whatever the bound on their depth, and
`Unmarshal` into a `Node` likewise; for `type Leaf struct { Next *uint8 }` four
nested calls are enough and `Marshal(Leaf{})` returns `[0]`. -/
theorem Marshal_never_returns_on_self_reference :
    (∀ fuel, MarshalDeclared nodeDecls fuel (.named 0) (.struct [.nilPtr]) = none) ∧
    (∀ fuel data, UnmarshalDeclared nodeDecls fuel data (.named 0) (.struct [.nilPtr]) = none) ∧
    MarshalDeclared leafDecls 4 (.named 0) (.struct [.nilPtr]) = some (.returned [0] none) := by
  refine ⟨fun fuel => ?_, fun fuel data => ?_, rfl⟩
  · simp only [MarshalDeclared, (unfold_node fuel).1, Option.map_none']
  · simp only [UnmarshalDeclared, (unfold_node fuel).1, Option.map_none']

/-- Claim C21, as amended: for every type built only from catalog kinds, which as a
`GoType` is a finite tree and so does not refer to itself, and every value `v`
of that type, `Marshal` does not panic: it returns a nil error together with
the bytes its encoder writes for `v`; and for every type of a program on which
the nested calls of `newTypeEncoder` end with that tree, `Marshal` returns these
bytes once the bound on the depth of the calls is large enough. -/
theorem encoding_never_fails (t : GoType) (v : Value)
    (hs : supported t = true) (hv : hasType t v = true) :
    Marshal t v ≠ .panicked ∧
    ∃ bytes, Marshal t v = .returned bytes none ∧ Emits (newTypeEncoder t) v bytes ∧
      ∀ (ds : Decls) (fuel : Nat) (d : TypeExpr), unfold ds fuel d = some t →
        ∀ k, MarshalDeclared ds (fuel + k) d v = some (.returned bytes none) := by
  obtain ⟨bs, hb⟩ := emits_typed t v hs hv
  have hm := Marshal_of_emits t v bs hb
  refine ⟨?_, bs, hm, hb, fun ds fuel d hu k => ?_⟩
  · rw [hm]
    intro hc
    cases hc
  · simp only [MarshalDeclared, unfold_add ds fuel d t hu k, Option.map_some', hm]

theorem encoding_never_fails_witness :
    supported mixedType = true ∧ hasType mixedType mixedValue = true ∧
    Marshal mixedType mixedValue ≠ .panicked ∧
    ∃ bytes, Marshal mixedType mixedValue = .returned bytes none ∧
      Emits (newTypeEncoder mixedType) mixedValue bytes ∧
      ∀ (ds : Decls) (fuel : Nat) (d : TypeExpr), unfold ds fuel d = some mixedType →
        ∀ k, MarshalDeclared ds (fuel + k) d mixedValue = some (.returned bytes none) :=
  ⟨by decide, by decide, encoding_never_fails mixedType mixedValue (by decide) (by decide)⟩

/-! ## The length prefix of sequences, strings, maps and sets -/

theorem emits_entries (fk fv : encoderFunc) (l : List ((Value × Value) × List Byte × List Byte))
    (hk : ∀ p ∈ l, Emits fk p.1.1 p.2.1) (hv : ∀ p ∈ l, Emits fv p.1.2 p.2.2) :
    ∀ e, ∃ e1, encodeEntries fk fv e (l.map Prod.fst) = .done e1 ∧
      e1.buf = e.buf ++ (l.map (fun p => p.2.1 ++ p.2.2)).flatten := by
  induction l with
  | nil => exact fun e => ⟨e, rfl, by simp⟩
  | cons p l ih =>
    intro e
    obtain ⟨⟨k, v⟩, kb, vb⟩ := p
    obtain ⟨e1, he1, hb1⟩ := hk ((k, v), kb, vb) (List.mem_cons_self _ _) e
    obtain ⟨e2, he2, hb2⟩ := hv ((k, v), kb, vb) (List.mem_cons_self _ _) e1
    obtain ⟨e3, he3, hb3⟩ := ih (fun q hq => hk q (List.mem_cons_of_mem _ hq))
      (fun q hq => hv q (List.mem_cons_of_mem _ hq)) e2
    exact ⟨e3, by simp only [List.map_cons, encodeEntries, he1, he2, he3],
      by rw [hb3, hb2, hb1]; simp⟩

/-- Claim C16 (prefix determinism): the encoding of a sequence whose elements have the
encodings listed in `l` is the four-byte little-endian encoding of the number
of elements followed by exactly these encodings in order; the encoding of a
string is the four-byte length followed by its bytes; the encoding of a map
whose keys and values have the encodings listed in `lm` is the four-byte number
of entries followed by these encodings, key then value; the encoding of a set
whose keys have the encodings listed in `ls` is the four-byte number of keys
followed by these encodings; every map or set of a supported shape has an
encoding, and it begins with the four-byte number of its entries; a nil
sequence, map or set is encoded as the four-byte `0`. -/
theorem length_prefix (t key elem skey : GoType) (l : List (Value × List Byte)) (s : List Byte)
    (lm : List ((Value × Value) × List Byte × List Byte))
    (ls : List ((Value × Value) × List Byte))
    (mkey melem : GoType) (es : List (Value × Value))
    (h : ∀ p ∈ l, Marshal t p.1 = .returned p.2 none)
    (hne : elem.isBool = false)
    (hk : ∀ p ∈ lm, Marshal key p.1.1 = .returned p.2.1 none)
    (hv : ∀ p ∈ lm, Marshal elem p.1.2 = .returned p.2.2 none)
    (hsk : ∀ p ∈ ls, Marshal skey p.1.1 = .returned p.2 none)
    (hs : supported (.map mkey melem) = true)
    (ht : hasType (.map mkey melem) (.map es) = true) :
    Marshal (.slice t) (.slice (l.map Prod.fst)) =
      .returned (littleEndian 4 l.length ++ (l.map Prod.snd).flatten) none ∧
    Marshal .string (.string s) = .returned (littleEndian 4 s.length ++ s) none ∧
    Marshal (.map key elem) (.map (lm.map Prod.fst)) =
      .returned (littleEndian 4 lm.length ++ (lm.map (fun p => p.2.1 ++ p.2.2)).flatten) none ∧
    Marshal (.map skey .bool) (.map (ls.map Prod.fst)) =
      .returned (littleEndian 4 ls.length ++ (ls.map Prod.snd).flatten) none ∧
    (∃ rest, Marshal (.map mkey melem) (.map es) =
      .returned (littleEndian 4 es.length ++ rest) none) ∧
    Marshal (.slice t) .nilSlice = .returned (littleEndian 4 0) none ∧
    Marshal (.map key elem) .nilMap = .returned (littleEndian 4 0) none ∧
    Marshal (.map skey .bool) .nilMap = .returned (littleEndian 4 0) none := by
  refine ⟨?_, ?_, ?_, ?_, ?_, rfl, (nilMap_comes_back_empty key elem).1,
    (nilMap_comes_back_empty skey .bool).1⟩
  · apply Marshal_of_emits
    simp only [newTypeEncoder]
    have h1 := emits_elems (newTypeEncoder t) l (fun p hp => emits_of_Marshal t p.1 p.2 (h p hp))
    have h2 := emits_counted (fun e => encodeElems (newTypeEncoder t) e (l.map Prod.fst)) l.length _ h1
    intro e
    obtain ⟨e1, he1, hb1⟩ := h2 e
    exact ⟨e1, by simp only [sliceEncoder_encode, List.length_map, he1], hb1⟩
  · apply Marshal_of_emits
    intro e
    refine ⟨e.WriteString s, by simp only [newTypeEncoder, stringEncoder], ?_⟩
    rw [WriteString_buf, PutUint_littleEndian]
  · apply Marshal_of_emits
    rw [newTypeEncoder_map]
    simp only [hne, Bool.false_eq_true, if_false]
    have h1 := emits_entries (newTypeEncoder key) (newTypeEncoder elem) lm
      (fun p hp => emits_of_Marshal key p.1.1 p.2.1 (hk p hp))
      (fun p hp => emits_of_Marshal elem p.1.2 p.2.2 (hv p hp))
    have h2 := emits_counted
      (fun e => encodeEntries (newTypeEncoder key) (newTypeEncoder elem) e (lm.map Prod.fst))
      lm.length _ h1
    intro e
    obtain ⟨e1, he1, hb1⟩ := h2 e
    exact ⟨e1, by simp only [mapEncoder_encode, List.length_map, he1], hb1⟩
  · apply Marshal_of_emits
    rw [newTypeEncoder_map]
    simp only [GoType.isBool, if_true]
    have h1 := emits_keys (newTypeEncoder skey) ls
      (fun p hp => emits_of_Marshal skey p.1.1 p.2 (hsk p hp))
    have h2 := emits_counted (fun e => encodeKeys (newTypeEncoder skey) e (ls.map Prod.fst))
      ls.length _ h1
    intro e
    obtain ⟨e1, he1, hb1⟩ := h2 e
    exact ⟨e1, by simp only [setEncoder_encode, List.length_map, he1], hb1⟩
  · obtain ⟨bs, hb⟩ := emits_typed (.map mkey melem) (.map es) hs ht
    have hm := Marshal_of_emits _ _ bs hb
    rcases Marshal_map_front mkey melem es with hp | hr
    · rw [hp] at hm
      cases hm
    · exact hr

theorem length_prefix_witness :
    (∀ p ∈ [(Value.uint .w8 1, ([1] : List Byte)), (Value.uint .w8 2, [2]), (Value.uint .w8 3, [3])],
      Marshal (.uint .w8) p.1 = .returned p.2 none) ∧
    (GoType.uint .w8).isBool = false ∧
    (∀ p ∈ [((Value.string [0x61], Value.uint .w8 7), ([1, 0, 0, 0, 0x61] : List Byte),
        ([7] : List Byte))], Marshal .string p.1.1 = .returned p.2.1 none) ∧
    (∀ p ∈ [((Value.string [0x61], Value.uint .w8 7), ([1, 0, 0, 0, 0x61] : List Byte),
        ([7] : List Byte))], Marshal (.uint .w8) p.1.2 = .returned p.2.2 none) ∧
    (∀ p ∈ [((Value.string [0x61], Value.bool true), ([1, 0, 0, 0, 0x61] : List Byte))],
      Marshal .string p.1.1 = .returned p.2 none) ∧
    supported (.map .string .bool) = true ∧
    hasType (.map .string .bool) (.map [(.string [0x61], .bool true)]) = true ∧
    Marshal (.slice (.uint .w8)) (.slice [.uint .w8 1, .uint .w8 2, .uint .w8 3]) =
      .returned [3, 0, 0, 0, 1, 2, 3] none ∧
    Marshal .string (.string [0x68, 0x69]) = .returned [2, 0, 0, 0, 0x68, 0x69] none ∧
    Marshal (.map .string (.uint .w8)) (.map [(.string [0x61], .uint .w8 7)]) =
      .returned [1, 0, 0, 0, 1, 0, 0, 0, 0x61, 7] none ∧
    Marshal (.map .string .bool) (.map [(.string [0x61], .bool true)]) =
      .returned [1, 0, 0, 0, 1, 0, 0, 0, 0x61] none ∧
    (∃ rest, Marshal (.map .string .bool) (.map [(.string [0x61], .bool true)]) =
      .returned ([1, 0, 0, 0] ++ rest) none) := by
  have hl : ∀ p ∈ [(Value.uint .w8 1, ([1] : List Byte)), (Value.uint .w8 2, [2]),
      (Value.uint .w8 3, [3])], Marshal (.uint .w8) p.1 = .returned p.2 none := by
    intro p hp
    simp only [List.mem_cons, List.mem_singleton, List.not_mem_nil, or_false] at hp
    rcases hp with rfl | rfl | rfl <;> rfl
  have hk : ∀ p ∈ [((Value.string [0x61], Value.uint .w8 7), ([1, 0, 0, 0, 0x61] : List Byte),
      ([7] : List Byte))], Marshal .string p.1.1 = .returned p.2.1 none := by
    intro p hp
    rw [List.mem_singleton] at hp
    subst hp
    rfl
  have hv : ∀ p ∈ [((Value.string [0x61], Value.uint .w8 7), ([1, 0, 0, 0, 0x61] : List Byte),
      ([7] : List Byte))], Marshal (.uint .w8) p.1.2 = .returned p.2.2 none := by
    intro p hp
    rw [List.mem_singleton] at hp
    subst hp
    rfl
  have hsk : ∀ p ∈ [((Value.string [0x61], Value.bool true), ([1, 0, 0, 0, 0x61] : List Byte))],
      Marshal .string p.1.1 = .returned p.2 none := by
    intro p hp
    rw [List.mem_singleton] at hp
    subst hp
    rfl
  have h := length_prefix (.uint .w8) .string (.uint .w8) .string _ [0x68, 0x69] _ _
    .string .bool [(.string [0x61], .bool true)] hl rfl hk hv hsk (by decide) (by decide)
  exact ⟨hl, rfl, hk, hv, hsk, by decide, by decide, h.1, h.2.1, h.2.2.1, h.2.2.2.1, h.2.2.2.2.1⟩

/-! ## Growth under every `Buffer.Grow` -/

theorem reserveCapacity_with (e : Encoder) (n : Nat) :
    e.reserveCapacity n = e.reserveCapacityWith bufferGrow n := rfl

theorem reserveCapacityWith_cap (grow : Encoder → Nat → Encoder)
    (hgrow : ∀ e n, (grow e n).buf = e.buf ∧ n ≤ (grow e n).cap - (grow e n).buf.length)
    (e : Encoder) (n : Nat) (h : e.cap - e.buf.length < n) :
    e.buf.length + max ((3 * e.cap + 1) / 2) (e.cap - e.buf.length + n) ≤
      (e.reserveCapacityWith grow n).cap := by
  unfold Encoder.reserveCapacityWith
  dsimp only
  rw [if_pos h]
  obtain ⟨h1, h2⟩ := hgrow e (max ((3 * e.cap + 1) / 2) (e.cap - e.buf.length + n))
  rw [h1] at h2
  have hm : e.cap - e.buf.length + n ≤
      max ((3 * e.cap + 1) / 2) (e.cap - e.buf.length + n) := by
    unfold max
    split_ifs <;> omega
  omega

theorem reserveCapacityWith_full (grow : Encoder → Nat → Encoder)
    (hgrow : ∀ e n, (grow e n).buf = e.buf ∧ n ≤ (grow e n).cap - (grow e n).buf.length) :
    640 ≤ ((NewEncoder.writes (List.replicate 256 (.unsigned .w8 0))).reserveCapacityWith grow 1).cap := by
  rw [fill_initial_buffer 256 (le_refl _)]
  have h : ∀ e0 : Encoder, e0.buf.length = 256 → e0.cap = 256 →
      640 ≤ (e0.reserveCapacityWith grow 1).cap := by
    intro e0 h1 h2
    have h3 := reserveCapacityWith_cap grow hgrow e0 1 (by rw [h1, h2]; decide)
    rw [h1, h2] at h3
    have h4 : max ((3 * 256 + 1) / 2) (256 - 256 + 1) = 384 := by decide
    rw [h4] at h3
    exact h3
  exact h _ (List.length_replicate _ _) rfl

theorem reserveCapacity_growSlice :
    ((NewEncoder.writes (List.replicate 256 (.unsigned .w8 0))).reserveCapacityWith
      bufferGrowSlice 1).cap = 640 := by
  rw [fill_initial_buffer 256 (le_refl _)]
  have h : ∀ e0 : Encoder, e0.buf.length = 256 → e0.cap = 256 →
      (e0.reserveCapacityWith bufferGrowSlice 1).cap = 640 := by
    intro e0 h1 h2
    unfold Encoder.reserveCapacityWith bufferGrowSlice
    dsimp only
    rw [h1, h2, if_pos (by decide), if_neg (by decide)]
    show max (256 + max ((3 * 256 + 1) / 2) (256 - 256 + 1)) (2 * 256) = 640
    decide
  exact h _ (List.length_replicate _ _) rfl

end Borsh
